import Mathlib

/-!
Shallow embedding of the DictX common-substring search engine
(com_substr_search.h, class ComSubstrSearch) and the parts of the
double-array-trie (DAT) contract it consumes.

Byte strings are modelled as `List Nat` (each entry one byte).  Machine
integers are modelled as `Nat`; the one place where unsigned wraparound can
matter (`start_pos = key_len - suffix_len`) uses an explicit mod 2^32.
Uninitialised heap bytes (the word pool is allocated with `new char[]`) are
modelled as the byte 0.
-/

namespace DictX

/-- C-string read: the bytes of the pool starting at offset, up to (excluding)
the first NUL byte. -/
def cstr (pool : List Nat) (off : Nat) : List Nat :=
  (pool.drop off).takeWhile (fun b => b ≠ 0)

/-- Length of the common prefix of two byte strings, as computed by
the tail matcher: compare byte by byte until a mismatch.  The first
argument (a decoded tail string) never contains a NUL byte. -/
def commonPre : List Nat → List Nat → Nat
  | a :: as, b :: bs => if a = b then commonPre as bs + 1 else 0
  | _, _ => 0

/-- Unsigned 32-bit subtraction, as in `uint32_t start_pos = key_len - suffix_len`. -/
def sub32 (a b : Nat) : Nat := (a + (2 ^ 32 - b % 2 ^ 32)) % 2 ^ 32

/-! ## DAT model

Modelled from the spec: the underlying double-array trie ("DAT", dastrie.h)
is an external collaborator; only its contract is specified.  A trie holds a
set of records (key bytes, u32 value) with distinct keys.  A node is
identified by the byte path from the root.  Treating each key as its
NUL-terminated form `k ++ [0]`, a node `p` exists when some record's
terminated key extends `p`; it is a branch node when at least two records
lie below it, and a tail-compressed terminal (`get_base < 0`) when exactly
one does, the tail holding the remaining bytes, a NUL, then the value.  The
special NUL-child edge of a branch node is the terminal of a key that is a
proper prefix of other keys.  An empty trie reports a negative base at the
root (`compre_search` uses that as its empty-trie check). -/

/-- One DAT record: key bytes (no NUL inside) and its u32 value. -/
abbrev TrieRec := List Nat × Nat

/-- The records whose NUL-terminated key passes through node `p`. -/
def keysAt (t : List TrieRec) (p : List Nat) : List TrieRec :=
  t.filter (fun r => p.isPrefixOf (r.1 ++ [0]))

/-- Modelled from the spec: `descend(node, byte)` returns the child node or
INVALID (here `none`). -/
def descend (t : List TrieRec) (p : List Nat) (c : Nat) : Option (List Nat) :=
  if keysAt t (p ++ [c]) = [] then none else some (p ++ [c])

/-- Modelled from the spec: whether `get_base(p) < 0`, i.e. `p` is a
tail-compressed terminal (or the trie is empty at the root). -/
def baseNeg (t : List TrieRec) (p : List Nat) : Bool :=
  (keysAt t p).length ≤ 1

/-- The unique record of a terminal node. -/
def termRec (t : List TrieRec) (p : List Nat) : TrieRec :=
  (keysAt t p).headD ([], 0)

/-- The remaining tail bytes of a terminal node (up to the NUL). -/
def tailRem (t : List TrieRec) (p : List Nat) : List Nat :=
  (((termRec t p).1 ++ [0]).drop p.length).takeWhile (fun b => b ≠ 0)

/-- Modelled from the spec: `m_tail.strlen()` at a terminal's offset. -/
def tailLen (t : List TrieRec) (p : List Nat) : Nat :=
  (tailRem t p).length

/-- Modelled from the spec: the u32 value stored after the tail's NUL. -/
def termVal (t : List TrieRec) (p : List Nat) : Nat :=
  (termRec t p).2

/-! ## Engine data model (com_substr_search.h) -/

/-- `dword_type`: offset into the word pool and key length. -/
structure Dword where
  offset : Nat
  size : Nat
deriving DecidableEq, Repr

/-- `dword_list_type`: an inverted-list descriptor into the dwordid pool. -/
structure DwList where
  offset : Nat
  size : Nat
deriving DecidableEq, Repr

/-- `ComSubstrSearch::Query`. -/
structure Query where
  word : List Nat
  min_common_len : Nat
  min_dword_len : Nat
  max_dword_len : Nat
  limit : Nat
  depth_first_search : Bool
  com_prefix_only : Bool
  average_limit : Bool
deriving DecidableEq, Repr

/-- `ComSubstrSearch::Result`.  `dword` and `value` are the C strings the
result pointers point at. -/
structure Result where
  dword : List Nat
  value : List Nat
  start_pos : Nat
  common_len : Nat
deriving DecidableEq, Repr

/-- The engine state: configuration plus the loaded/built data.  The
`*_size` fields mirror the engine's size members, which can disagree with
the actual array contents (the build dedup loop sets
`m_suffix_iindex_size = i + 1` even when no entry was written). -/
structure Engine where
  suffixRat : ℚ
  min_suffix : Nat
  char_table : List Nat
  trie : List TrieRec
  dwords_pool : List Nat
  dwords_pool_size : Nat
  dwords_array : List Dword
  dwords_array_size : Nat
  dwordid_pool : List Nat
  dwordid_pool_size : Nat
  suffix_iindex : List DwList
  suffix_iindex_size : Nat
deriving DecidableEq, Repr

/-- Indexing `m_dwords_array[id]` (out-of-range reads modelled as `(0,0)`). -/
def dwAt (e : Engine) (id : Nat) : Dword :=
  e.dwords_array.getD id ⟨0, 0⟩

/-! ## Searcher (search / compre_search / traversals / retrieve_dword) -/

/-- The loop of `ComSubstrSearch::lower_bound`, with `first` and `count`
as in the source.  `count` strictly decreases each iteration, so any fuel
of at least `count` makes the fuel guard unreachable. -/
def lbGo (e : Engine) (ids : List Nat) (dwordlen : Nat) :
    Nat → Nat → Nat → Nat
  | 0, first, _ => first
  | fuel + 1, first, count =>
    if count = 0 then first
    else if (dwAt e (ids.getD (first + count / 2) 0)).size < dwordlen then
      lbGo e ids dwordlen fuel (first + count / 2 + 1) (count - count / 2 - 1)
    else
      lbGo e ids dwordlen fuel first (count / 2)

/-- `ComSubstrSearch::lower_bound` on a dwordid slice: index of the first
entry whose key length is at least `dwordlen`. -/
def lower_bound (e : Engine) (ids : List Nat) (dwordlen : Nat) : Nat :=
  lbGo e ids dwordlen ids.length 0 ids.length

/-- Build one `Result` for dictionary word `id` (the body of the push in
`retrieve_dword`). -/
def mkResult (e : Engine) (id : Nat) (match_len suffix_len : Nat) : Result :=
  { dword := cstr e.dwords_pool (dwAt e id).offset
    value := cstr e.dwords_pool ((dwAt e id).offset + (dwAt e id).size + 1)
    start_pos := sub32 (dwAt e id).size suffix_len
    common_len := match_len }

/-- The retrieval loop of `retrieve_dword`: walk the id list from the
lower bound, stop at the first key length above `max_dword_len`, and stop
once the result vector reaches the limit. -/
def retrLoop (e : Engine) (q : Query) (match_len suffix_len : Nat) :
    List Nat → List Result → List Result
  | [], acc => acc
  | id :: rest, acc =>
    if (dwAt e id).size > q.max_dword_len then acc
    else
      let acc1 := acc ++ [mkResult e id match_len suffix_len]
      if acc1.length ≥ q.limit then acc1
      else retrLoop e q match_len suffix_len rest acc1

/-- `ComSubstrSearch::retrieve_dword`. -/
def retrieve_dword (e : Engine) (q : Query) (match_len suffixid suffix_len : Nat)
    (acc : List Result) : List Result :=
  if suffixid < e.suffix_iindex_size ∧ acc.length < q.limit then
    let dl := e.suffix_iindex.getD suffixid ⟨0, 0⟩
    let ids := (e.dwordid_pool.drop dl.offset).take dl.size
    retrLoop e q match_len suffix_len (ids.drop (lower_bound e ids q.min_dword_len)) acc
  else acc

/-- Specification companion of `retrLoop` without the result cap: all the
results the loop would push were the limit infinite. -/
def retrFull (e : Engine) (q : Query) (match_len suffix_len : Nat)
    (ids : List Nat) : List Result :=
  (ids.takeWhile (fun id => decide ((dwAt e id).size ≤ q.max_dword_len))).map
    (fun id => mkResult e id match_len suffix_len)

/-- Specification companion of `retrieve_dword` without the result cap:
the results one retrieval appends were the limit infinite. -/
def retrDelta (e : Engine) (q : Query) (match_len suffixid suffix_len : Nat) :
    List Result :=
  if suffixid < e.suffix_iindex_size then
    let dl := e.suffix_iindex.getD suffixid ⟨0, 0⟩
    let ids := (e.dwordid_pool.drop dl.offset).take dl.size
    retrFull e q match_len suffix_len (ids.drop (lower_bound e ids q.min_dword_len))
  else []

/-- The inverted-list slice a descriptor denotes. -/
def sliceOf (e : Engine) (dl : DwList) : List Nat :=
  (e.dwordid_pool.drop dl.offset).take dl.size

/-- The inverted-index invariant: every descriptor's slice is sorted
ascending by the key length of the dictionary word it points at. -/
def iindexSorted (e : Engine) : Prop :=
  ∀ dl ∈ e.suffix_iindex,
    ((sliceOf e dl).map (fun id => (dwAt e id).size)).Pairwise (fun a b => a ≤ b)

/-- A result that refers to a dictionary word whose key length lies within
the query's bounds. -/
def okLen (e : Engine) (mn mx : Nat) (r : Result) : Prop :=
  ∃ id, mn ≤ (dwAt e id).size ∧ (dwAt e id).size ≤ mx ∧
    r.dword = cstr e.dwords_pool (dwAt e id).offset

/-- `node_info_type`: a trie node with the suffix length accumulated on the
way to it (NUL edges do not count). -/
structure NodeInfo where
  cur : List Nat
  suffix_len : Nat
deriving DecidableEq, Repr

/-- The children pushed for one popped node: iterate `tab`, skip INVALID and
the `except` branch; a NUL edge does not increment the suffix length. -/
def childrenOf (e : Engine) (tab : List Nat) (n : NodeInfo)
    (except : Option (List Nat)) : List NodeInfo :=
  tab.filterMap (fun c =>
    match descend e.trie n.cur c with
    | none => none
    | some p =>
      if some p = except then none
      else some ⟨p, if c ≠ 0 then n.suffix_len + 1 else n.suffix_len⟩)

/-- Processing of one popped node shared by both traversals: a terminal
retrieves (when the full suffix fits `max_dword_len`); otherwise the node
expands when its suffix length allows. -/
def popTerminal (e : Engine) (q : Query) (match_len : Nat) (n : NodeInfo)
    (acc : List Result) : List Result :=
  if n.suffix_len + tailLen e.trie n.cur ≤ q.max_dword_len then
    retrieve_dword e q match_len (termVal e.trie n.cur)
      (n.suffix_len + tailLen e.trie n.cur) acc
  else acc

/-- The queue loop of `bf_traversal`.  The fuel argument stands in for the
loop's natural termination; `trieFuel` below always suffices. -/
def bfgo (e : Engine) (q : Query) (match_len : Nat) (except : Option (List Nat)) :
    Nat → List NodeInfo → List Result → List Result
  | 0, _, acc => acc
  | _ + 1, [], acc => acc
  | fuel + 1, n :: rest, acc =>
    if acc.length ≥ q.limit then acc
    else if baseNeg e.trie n.cur then
      bfgo e q match_len except fuel rest (popTerminal e q match_len n acc)
    else if n.suffix_len ≤ q.max_dword_len then
      let tab := if n.suffix_len = q.max_dword_len then e.char_table.take 1 else e.char_table
      bfgo e q match_len except fuel (rest ++ childrenOf e tab n except) acc
    else
      bfgo e q match_len except fuel rest acc

/-- The stack loop of `df_traversal`: children of the full char table are
pushed in reverse table order, so they pop in table order. -/
def dfgo (e : Engine) (q : Query) (match_len : Nat) (except : Option (List Nat)) :
    Nat → List NodeInfo → List Result → List Result
  | 0, _, acc => acc
  | _ + 1, [], acc => acc
  | fuel + 1, n :: rest, acc =>
    if acc.length ≥ q.limit then acc
    else if baseNeg e.trie n.cur then
      dfgo e q match_len except fuel rest (popTerminal e q match_len n acc)
    else if n.suffix_len ≤ q.max_dword_len then
      dfgo e q match_len except fuel (childrenOf e e.char_table n except ++ rest) acc
    else
      dfgo e q match_len except fuel rest acc

/-- Enough fuel to exhaust any traversal of trie `t` driven by a char
table of length `k` (the C++ loops always terminate; the fuel argument
only stands in for that).  Each record below a node contributes
`(2k+2)^(key length + 2 - node depth)` to a measure that strictly
decreases at every pop, and this sum dominates the measure of any start
node. -/
def goFuel (t : List TrieRec) (k : Nat) : Nat :=
  (t.map (fun r => (2 * k + 2) ^ (r.1.length + 2))).sum + 1

/-- `ComSubstrSearch::bf_traversal`. -/
def bf_traversal (e : Engine) (q : Query) (start_cur : List Nat) (match_len : Nat)
    (except : Option (List Nat)) (acc : List Result) : List Result :=
  if match_len > q.max_dword_len ∨ acc.length ≥ q.limit then acc
  else bfgo e q match_len except (goFuel e.trie e.char_table.length) [⟨start_cur, match_len⟩] acc

/-- `ComSubstrSearch::df_traversal`. -/
def df_traversal (e : Engine) (q : Query) (start_cur : List Nat) (match_len : Nat)
    (except : Option (List Nat)) (acc : List Result) : List Result :=
  if match_len > q.max_dword_len ∨ acc.length ≥ q.limit then acc
  else dfgo e q match_len except (goFuel e.trie e.char_table.length) [⟨start_cur, match_len⟩] acc

/-- The forward walk of `compre_search`: descend byte by byte through the
query word, stacking the visited nodes whose depth reached
`min_common_len`; a terminal node matches the tail, possibly retrieves, and
ends the walk with `match_len` set back to the terminal's depth minus one.
Returns the final `match_len`, the node stack (top first) and the results.
`match_len` grows by one per iteration, so fuel `q.word.length` (as passed
by `compre_search`) makes the fuel guard unreachable. -/
def cwalk (e : Engine) (q : Query) :
    Nat → List Nat → Nat → List (List Nat) → List Result →
    Nat × List (List Nat) × List Result
  | 0, _, match_len, stk, acc => (match_len, stk, acc)
  | fuel + 1, cur, match_len, stk, acc =>
    if match_len < q.word.length ∧ match_len ≤ q.max_dword_len then
      match descend e.trie cur (q.word.getD match_len 0) with
      | none => (match_len, stk, acc)
      | some cur1 =>
        if baseNeg e.trie cur1 then
          (match_len, stk,
           if match_len + 1 + commonPre (tailRem e.trie cur1) (q.word.drop (match_len + 1)) ≥
               q.min_common_len then
             retrieve_dword e q
               (match_len + 1 + commonPre (tailRem e.trie cur1) (q.word.drop (match_len + 1)))
               (termVal e.trie cur1) (match_len + 1 + tailLen e.trie cur1) acc
           else acc)
        else
          cwalk e q fuel cur1 (match_len + 1)
            (if match_len + 1 ≥ q.min_common_len then cur1 :: stk else stk) acc
    else (match_len, stk, acc)

/-- The backtracking loop of `compre_search`: pop each stacked node,
enumerate its subtree excluding the branch just explored, and decrement
`match_len`. -/
def backtrack (e : Engine) (q : Query) :
    List (List Nat) → Nat → Option (List Nat) → List Result → List Result
  | [], _, _, acc => acc
  | cur :: rest, match_len, except, acc =>
    let acc1 :=
      if q.depth_first_search then df_traversal e q cur match_len except acc
      else bf_traversal e q cur match_len except acc
    backtrack e q rest (match_len - 1) (some cur) acc1

/-- `ComSubstrSearch::compre_search`. -/
def compre_search (e : Engine) (q : Query) (acc : List Result) : List Result :=
  if q.min_common_len > q.word.length ∨ q.min_common_len > q.max_dword_len then acc
  else if baseNeg e.trie [] then acc
  else
    let w := cwalk e q q.word.length [] 0 [] acc
    backtrack e q w.2.1 w.1 none w.2.2

/-- The non-prefix-only loop of `search`: one `compre_search` per starting
offset; with `average_limit` the per-call cap is raised to the current
result count plus the query limit. -/
def searchPositions (e : Engine) (q : Query) : List Result :=
  (List.range (q.word.length - q.min_common_len + 1)).foldl
    (fun acc i =>
      compre_search e
        { q with
          word := q.word.drop i
          limit := if q.average_limit then acc.length + q.limit else q.limit }
        acc)
    []

/-- `ComSubstrSearch::search`.  The results vector is a caller-owned output
argument (`none` models a NULL pointer).  Note that in the
`com_prefix_only` branch the source discards the `compre_search` return
value, so the returned count stays 0. -/
def search (e : Engine) (q : Query) (results : Option (List Result)) :
    Nat × Option (List Result) :=
  match results with
  | none => (0, none)
  | some old =>
    if q.word.length < q.min_common_len ∨ q.limit = 0 then (0, some old)
    else if q.com_prefix_only then (0, some (compre_search e q []))
    else
      let res := searchPositions e q
      (res.length, some res)

/-- `ComSubstrSearch::set_char_table`: accepted when the table is at most
256 entries and contains a NUL. -/
def set_char_table (e : Engine) (tab : List Nat) : Nat × Engine :=
  if tab.length ≤ 256 ∧ 0 ∈ tab then (0, { e with char_table := tab })
  else (1, e)

/-! ## Builder (ComSubstrSearch::build)

`std::sort` leaves the relative order of equivalent elements unspecified;
the embedding fixes it with a stable insertion sort (`stableSort`), one
deterministic refinement of the source's behaviour. -/

/-- Insert `x` into `l`, before the first element `y` with `lt x y`. -/
def insAfter (lt : α → α → Bool) (x : α) : List α → List α
  | [] => [x]
  | y :: ys => if lt x y then x :: y :: ys else y :: insAfter lt x ys

/-- Stable sort by the strict comparator `lt` (stand-in for `std::sort`):
elements are inserted left to right, each placed after its equals. -/
def stableSort (lt : α → α → Bool) (l : List α) : List α :=
  l.foldl (fun acc x => insAfter lt x acc) []

/-- Byte-wise `strcmp(a, b) < 0` on NUL-free byte strings. -/
def lexLt : List Nat → List Nat → Bool
  | [], [] => false
  | [], _ :: _ => true
  | _ :: _, [] => false
  | a :: as, b :: bs => if a < b then true else if b < a then false else lexLt as bs

/-- Write `bs` into the buffer at position `off`, zero-extending if the
buffer is shorter (unwritten `new char[]` bytes are modelled as 0). -/
def pokeList (buf : List Nat) (off : Nat) (bs : List Nat) : List Nat :=
  buf.take off ++ List.replicate (off - buf.length) 0 ++ bs ++ buf.drop (off + bs.length)

/-- State of the line-reading loop of `build`: pool bytes, the running
offset, and the dword records in input order. -/
structure PoolSt where
  pool : List Nat
  off : Nat
  dws : List Dword
deriving Repr

/-- One `std::getline` iteration of `build`: copy the line into the pool,
replace the first tab by NUL, append a NUL one past the line; lines without
a tab are dropped (the copy stays, but the offset does not advance). -/
def poolStep (st : PoolSt) (line : List Nat) : PoolSt :=
  if line.findIdx (fun b => b = 9) < line.length then
    { pool :=
        pokeList
          (pokeList (pokeList st.pool st.off line)
            (st.off + line.findIdx (fun b => b = 9)) [0])
          (st.off + line.length + 1) [0]
      off := st.off + line.length + 1
      dws := st.dws ++ [⟨st.off, line.findIdx (fun b => b = 9)⟩] }
  else
    { st with pool := pokeList st.pool st.off line }

/-- The per-word minimum suffix length of `build`:
`int min_suffix = size * m_suffix_ratio;` (the `double`-to-`int` cast
truncates `klen · ratio` toward zero, computed here as the
truncating integer division `(klen · num) / den`), then
`min_suffix = (min_suffix > m_min_suffix) ? min_suffix : m_min_suffix;`,
where the comparison promotes the `int` to `uint32_t` and the ternary's
unsigned result is converted back to `int` (two's complement). -/
def minSuffixOf (ratio : ℚ) (min_suffix klen : Nat) : ℤ :=
  let ms : ℤ := ((klen : ℤ) * ratio.num).tdiv (ratio.den : ℤ)
  let msU : ℤ := ms % (2 ^ 32)
  let sel : ℤ := if msU > (min_suffix : ℤ) then msU else (min_suffix : ℤ)
  if sel < 2 ^ 31 then sel else sel - 2 ^ 32

/-- The suffix-candidate records of `build`: for word `i` (in sorted order)
each suffix starting at `j ∈ [0, size - min_suffix]` (as a C string read
from the pool), valued by the word id. -/
def suffixCands (ratio : ℚ) (min_suffix : Nat) (pool : List Nat)
    (dws : List Dword) : List TrieRec :=
  (List.range dws.length).flatMap (fun i =>
    let d := dws.getD i ⟨0, 0⟩
    let cnt : ℤ := (d.size : ℤ) - minSuffixOf ratio min_suffix d.size + 1
    (List.range cnt.toNat).map (fun j => (cstr pool (d.offset + j), i)))

/-- State of the dedup/inverted-list loop of `build`: the compacted records
`input_suffix_array[0..i]` (values rewritten to dense suffix ids), the
dwordid pool written so far, the iindex buffer, and the run index `i`. -/
structure DedupSt where
  recs : List TrieRec
  wpool : List Nat
  iidx : List DwList
  i : Nat
deriving Repr

/-- Close the current inverted run: `std::sort` it by dword id (the source
relies on id order agreeing with key-length order). -/
def sortRun (st : DedupSt) : DedupSt :=
  { st with
    wpool :=
      st.wpool.take (st.iidx.getD st.i ⟨0, 0⟩).offset ++
        stableSort (fun a b : Nat => a < b)
          (st.wpool.drop (st.iidx.getD st.i ⟨0, 0⟩).offset) }

/-- One iteration (`j ≥ 1`) of the dedup loop: an equal suffix appends to
run `i`; a new suffix sorts run `i` and opens run `i + 1`. -/
def dedupStep (st : DedupSt) (c : TrieRec) : DedupSt :=
  if c.1 = (st.recs.getD st.i ([], 0)).1 then
    { st with
      wpool := st.wpool ++ [c.2]
      iidx := st.iidx.set st.i
        ⟨(st.iidx.getD st.i ⟨0, 0⟩).offset, (st.iidx.getD st.i ⟨0, 0⟩).size + 1⟩ }
  else
    { recs := (sortRun st).recs ++ [(c.1, st.i + 1)]
      wpool := (sortRun st).wpool ++ [c.2]
      iidx := (sortRun st).iidx.set (st.i + 1) ⟨(sortRun st).wpool.length, 1⟩
      i := st.i + 1 }

/-- The whole dedup loop.  With fewer than two candidates the loop body
never runs: no run is written and `i` stays 0 (so the size member still
becomes `i + 1 = 1`); uninitialised iindex slots are modelled as `(0,0)`. -/
def dedup (cands : List TrieRec) : DedupSt :=
  match cands with
  | [] => { recs := [], wpool := [], iidx := [], i := 0 }
  | c0 :: rest =>
    if rest = [] then
      { recs := [], wpool := [], iidx := List.replicate cands.length ⟨0, 0⟩, i := 0 }
    else
      rest.foldl dedupStep
        { recs := [(c0.1, 0)]
          wpool := [c0.2]
          iidx := (List.replicate cands.length ⟨0, 0⟩).set 0 ⟨0, 1⟩
          i := 0 }

/-- The shared body of `ComSubstrSearch::build`: the processed pool, the
length-sorted dword array, the sorted suffix candidates and the final dedup
state. -/
def buildCore (ratio : ℚ) (min_suffix : Nat) (lines : List (List Nat)) :
    PoolSt × List Dword × List TrieRec × DedupSt :=
  let pst := lines.foldl poolStep ⟨[], 0, []⟩
  let sorted := stableSort (fun a b : Dword => a.size < b.size) pst.dws
  let cands := stableSort (fun a b : TrieRec => lexLt a.1 b.1)
    (suffixCands ratio min_suffix pst.pool sorted)
  (pst, sorted, cands, dedup cands)

/-- `ComSubstrSearch::build` (in-memory path, `db_fname` empty): the engine
is assigned the trie built from the deduplicated records
`[&input_suffix_array[0], &input_suffix_array[i])` — note the endpoint
excludes the record at index `i`, the last distinct suffix.  Always returns
status 0. -/
def build (ratio : ℚ) (min_suffix : Nat) (lines : List (List Nat)) : Nat × Engine :=
  let core := buildCore ratio min_suffix lines
  let pst := core.1
  let sorted := core.2.1
  let cands := core.2.2.1
  let dd := core.2.2.2
  (0,
   { suffixRat := ratio
     min_suffix := min_suffix
     char_table := List.range 256
     trie := dd.recs.dropLast
     dwords_pool := pst.pool
     dwords_pool_size := 0
     dwords_array := sorted
     dwords_array_size := sorted.length
     dwordid_pool := dd.wpool
     dwordid_pool_size := cands.length
     suffix_iindex := dd.iidx
     suffix_iindex_size := dd.i + 1 })

/-! ## Binary DB format (write path of build, and read)

The DAT payload is opaque to this component; a database file is modelled as
the DAT part (the record set the builder serialised, `none` when the DAT
reader fails on the stream, plus the byte count its reader consumes)
followed by the raw bytes of the four tagged blocks. -/

/-- A little-endian u32. -/
def le32 (n : Nat) : List Nat :=
  [n % 256, n / 256 % 256, n / 256 ^ 2 % 256, n / 256 ^ 3 % 256]

/-- Read a little-endian u32 from the first four bytes. -/
def rd32 (l : List Nat) : Nat :=
  l.getD 0 0 + l.getD 1 0 * 256 + l.getD 2 0 * 256 ^ 2 + l.getD 3 0 * 256 ^ 3

/-- Serialise a list of u32. -/
def ser32 (l : List Nat) : List Nat :=
  l.flatMap le32

/-- Serialise `(u32, u32)` records (`dword_type` / `dword_list_type`). -/
def serPairs (l : List (Nat × Nat)) : List Nat :=
  l.flatMap (fun p => le32 p.1 ++ le32 p.2)

/-- Parse consecutive u32 values (a short trailing chunk is dropped, as
C++ would read past the valid data). -/
def parse32 : List Nat → List Nat
  | b0 :: b1 :: b2 :: b3 :: rest => rd32 [b0, b1, b2, b3] :: parse32 rest
  | _ => []

/-- Parse consecutive `(u32, u32)` records. -/
def parsePairs : List Nat → List (Nat × Nat)
  | b0 :: b1 :: b2 :: b3 :: b4 :: b5 :: b6 :: b7 :: rest =>
    (rd32 [b0, b1, b2, b3], rd32 [b4, b5, b6, b7]) :: parsePairs rest
  | _ => []

/-- The first `n` bytes of a buffer, zero-padded when the buffer is
shorter (unwritten allocation bytes are modelled as 0). -/
def padTake (l : List Nat) (n : Nat) : List Nat :=
  l.take n ++ List.replicate (n - l.length) 0

/-- The tag bytes of the four blocks. -/
def tagDWDP : List Nat := [68, 87, 68, 80]

/-- Tag of the word-array block. -/
def tagDWAR : List Nat := [68, 87, 65, 82]

/-- Tag of the word-id-pool block. -/
def tagIDAR : List Nat := [73, 68, 65, 82]

/-- Tag of the suffix-iindex block. -/
def tagIIND : List Nat := [73, 73, 78, 68]

/-- A database file: the DAT payload (opaque; `dat = none` models a stream
on which the DAT reader fails, `datSize` the bytes its reader consumes on
success), followed by the bytes of the four tagged blocks. -/
structure DbFile where
  datSize : Nat
  dat : Option (List TrieRec)
  rest : List Nat
deriving Repr

/-- Modelled from the spec: the size of the payload the DAT's `write`
emits (its `read` consumes exactly this many bytes). -/
def datWriteSize (t : List TrieRec) : Nat :=
  16 + (t.map (fun r => r.1.length + 6)).sum

/-- The write path of `build` (`db_fname` non-empty): the DAT payload then
the four blocks.  The IDAR and IIND block sizes are computed from the size
members (`m_dwordid_pool_size`, `i + 1`), which can exceed the number of
entries the dedup loop actually wrote; the bytes written from the
unwritten (or out-of-bounds) remainder of the allocations are the junk
parameters. -/
def writeDb (ratio : ℚ) (min_suffix : Nat) (lines : List (List Nat))
    (junkI junkJ : List Nat) : DbFile :=
  let core := buildCore ratio min_suffix lines
  let pst := core.1
  let sorted := core.2.1
  let cands := core.2.2.1
  let dd := core.2.2.2
  let t := dd.recs.dropLast
  { datSize := datWriteSize t
    dat := some t
    rest :=
      tagDWDP ++ le32 pst.off ++ padTake pst.pool pst.off ++
      (tagDWAR ++ le32 (8 * sorted.length) ++
        serPairs (sorted.map (fun d => (d.offset, d.size))) ++
      (tagIDAR ++ le32 (4 * cands.length) ++ (ser32 dd.wpool ++ junkI) ++
      (tagIIND ++ le32 (8 * (dd.i + 1)) ++
        (serPairs ((dd.iidx.take (dd.i + 1)).map (fun d => (d.offset, d.size))) ++ junkJ)))) }

/-- `ComSubstrSearch::clear`: frees the four pools/arrays and resets their
size members.  The trie data of the base class is not touched. -/
def clearE (e : Engine) : Engine :=
  { e with
    dwords_pool := [], dwords_pool_size := 0
    dwords_array := [], dwords_array_size := 0
    dwordid_pool := [], dwordid_pool_size := 0
    suffix_iindex := [], suffix_iindex_size := 0 }

/-- Stage four of `ComSubstrSearch::read`: the `IIND` block.  `ds` is the
byte count the DAT reader consumed, `tot` the total length of the block
stream, `pos` the block bytes consumed so far; on success the returned
count is the stream position (`tellg`), and reading past the end of the
stream makes `tellg` report -1, i.e. `(size_t)-1` here. -/
def rdIIND (ds tot : Nat) (e : Engine) (s : List Nat) (pos : Nat) : Nat × Engine :=
  if s.take 4 = tagIIND then
    (if pos + 8 + rd32 ((s.drop 4).take 4) ≤ tot
     then ds + pos + 8 + rd32 ((s.drop 4).take 4)
     else 2 ^ 64 - 1,
     { e with
       suffix_iindex :=
         (parsePairs (((s.drop 4).drop 4).take (rd32 ((s.drop 4).take 4)))).map
           (fun p => ⟨p.1, p.2⟩)
       suffix_iindex_size := rd32 ((s.drop 4).take 4) / 8 })
  else (0, e)

/-- Stage three of `ComSubstrSearch::read`: the `IDAR` block. -/
def rdIDAR (ds tot : Nat) (e : Engine) (s : List Nat) (pos : Nat) : Nat × Engine :=
  if s.take 4 = tagIDAR then
    rdIIND ds tot
      { e with
        dwordid_pool := parse32 (((s.drop 4).drop 4).take (rd32 ((s.drop 4).take 4)))
        dwordid_pool_size := rd32 ((s.drop 4).take 4) / 4 }
      (((s.drop 4).drop 4).drop (rd32 ((s.drop 4).take 4)))
      (pos + 8 + rd32 ((s.drop 4).take 4))
  else (0, e)

/-- Stage two of `ComSubstrSearch::read`: the `DWAR` block. -/
def rdDWAR (ds tot : Nat) (e : Engine) (s : List Nat) (pos : Nat) : Nat × Engine :=
  if s.take 4 = tagDWAR then
    rdIDAR ds tot
      { e with
        dwords_array :=
          (parsePairs (((s.drop 4).drop 4).take (rd32 ((s.drop 4).take 4)))).map
            (fun p => ⟨p.1, p.2⟩)
        dwords_array_size := rd32 ((s.drop 4).take 4) / 8 }
      (((s.drop 4).drop 4).drop (rd32 ((s.drop 4).take 4)))
      (pos + 8 + rd32 ((s.drop 4).take 4))
  else (0, e)

/-- Stage one of `ComSubstrSearch::read`: the `DWDP` block. -/
def rdDWDP (ds tot : Nat) (e : Engine) (s : List Nat) (pos : Nat) : Nat × Engine :=
  if s.take 4 = tagDWDP then
    rdDWAR ds tot
      { e with
        dwords_pool := ((s.drop 4).drop 4).take (rd32 ((s.drop 4).take 4))
        dwords_pool_size := rd32 ((s.drop 4).take 4) }
      (((s.drop 4).drop 4).drop (rd32 ((s.drop 4).take 4)))
      (pos + 8 + rd32 ((s.drop 4).take 4))
  else (0, e)

/-- `ComSubstrSearch::read`: clear, read the DAT, then parse the four
tagged blocks in order, returning 0 as soon as a tag mismatches — the
blocks parsed before the mismatch (and the trie) stay loaded. -/
def readDb (e : Engine) (f : DbFile) : Nat × Engine :=
  let e0 := clearE e
  match f.dat with
  | none => (0, e0)
  | some t => rdDWDP f.datSize f.rest.length { e0 with trie := t } f.rest 0

/-! ## Concrete instances -/

/-- The rational 1/2 (constructed in lowest terms so it reduces in the
kernel). -/
def ratHalf : ℚ := Rat.mk' 1 2 (by decide) (Nat.coprime_one_left 2)

/-- The rational 2, a `suffix_ratio` outside `(0, 1]`. -/
def ratTwo : ℚ := Rat.mk' 2 1 (by decide) (Nat.coprime_one_right 2)

/-- The scenario dictionary: `youthful\t1`, `youthfully\t2`,
`youthfulness\t3`, as byte lines. -/
def dictYouth : List (List Nat) :=
  [[121, 111, 117, 116, 104, 102, 117, 108, 9, 49],
   [121, 111, 117, 116, 104, 102, 117, 108, 108, 121, 9, 50],
   [121, 111, 117, 116, 104, 102, 117, 108, 110, 101, 115, 115, 9, 51]]

/-- The bytes of `youthful`. -/
def wYouthful : List Nat := [121, 111, 117, 116, 104, 102, 117, 108]

/-- The bytes of `youthfully`. -/
def wYouthfully : List Nat := [121, 111, 117, 116, 104, 102, 117, 108, 108, 121]

/-- The bytes of `youthfulness`. -/
def wYouthfulness : List Nat := [121, 111, 117, 116, 104, 102, 117, 108, 110, 101, 115, 115]

/-- The engine built from the scenario dictionary with
`suffix_ratio = 0.5`, `min_suffix = 2`. -/
def eYouth : Engine := (build ratHalf 2 dictYouth).2

/-- The scenario query: `word = "youthe"`, `min_common_len = 4`,
`min_dword_len = 0`, `max_dword_len = 20`, `limit = 10`, all booleans
false. -/
def qYouth : Query :=
  { word := [121, 111, 117, 116, 104, 101], min_common_len := 4, min_dword_len := 0,
    max_dword_len := 20, limit := 10, depth_first_search := false,
    com_prefix_only := false, average_limit := false }

/-- A small dictionary: `aa\t1`, `aab\t2`. -/
def dictAA : List (List Nat) := [[97, 97, 9, 49], [97, 97, 98, 9, 50]]

/-- The engine built from `dictAA` (default char table). -/
def eAA : Engine := (build ratHalf 2 dictAA).2

/-- The `dictAA` engine after `set_char_table(['a','b','\0'])` — a legal
table whose first entry is not the NUL byte. -/
def eAAt : Engine := (set_char_table eAA [97, 98, 0]).2

/-- Query `word = "aa"`, `min_common_len = 2`, `max_dword_len = 2`,
`limit = 10`, with a selectable traversal order. -/
def qAA (dfs : Bool) : Query :=
  { word := [97, 97], min_common_len := 2, min_dword_len := 0,
    max_dword_len := 2, limit := 10, depth_first_search := dfs,
    com_prefix_only := false, average_limit := false }

/-- An engine with nothing loaded. -/
def eZero : Engine :=
  { suffixRat := ratHalf, min_suffix := 2, char_table := List.range 256,
    trie := [], dwords_pool := [], dwords_pool_size := 0,
    dwords_array := [], dwords_array_size := 0, dwordid_pool := [],
    dwordid_pool_size := 0, suffix_iindex := [], suffix_iindex_size := 0 }

/-- A database stream whose DAT part and DWDP block are valid but whose
second tag is garbage (`XXXX`). -/
def fBad : DbFile :=
  { datSize := 10, dat := some [([97], 5)],
    rest := tagDWDP ++ le32 2 ++ [65, 66] ++ [88, 88, 88, 88] }

/-- A result value used as pre-existing vector content. -/
def rPrior : Result := ⟨[1], [2], 3, 4⟩

/-! ## Specification companions for the BFS/DFS comparison (P7) -/

/-- Specification companion: the nodes a traversal can expand to from a
start node, over the full char table.  A step expands a non-terminal node
whose suffix length is within the bound and follows one of its child
edges (the `except` branch is skipped inside `childrenOf`). -/
inductive Reach (e : Engine) (maxd : Nat) (exc : Option (List Nat)) :
    NodeInfo → NodeInfo → Prop
  | refl (n : NodeInfo) : Reach e maxd exc n n
  | step (n m m' : NodeInfo) : Reach e maxd exc n m →
      baseNeg e.trie m.cur = false → m.suffix_len ≤ maxd →
      m' ∈ childrenOf e e.char_table m exc → Reach e maxd exc n m'

/-- Specification companion: the results a popped terminal node contributes
were the limit infinite (empty when the full word overshoots
`max_dword_len`, as in `popTerminal`). -/
def nodeDelta (e : Engine) (q : Query) (match_len : Nat) (n : NodeInfo) :
    List Result :=
  if n.suffix_len + tailLen e.trie n.cur ≤ q.max_dword_len then
    retrDelta e q match_len (termVal e.trie n.cur)
      (n.suffix_len + tailLen e.trie n.cur)
  else []

/-- Specification companion of `cwalk` without the result cap: the results
the forward walk appends were the limit infinite. -/
def cwalkDelta (e : Engine) (q : Query) : Nat → List Nat → Nat → List Result
  | 0, _, _ => []
  | fuel + 1, cur, match_len =>
    if match_len < q.word.length ∧ match_len ≤ q.max_dword_len then
      match descend e.trie cur (q.word.getD match_len 0) with
      | none => []
      | some cur1 =>
        if baseNeg e.trie cur1 then
          if match_len + 1 + commonPre (tailRem e.trie cur1) (q.word.drop (match_len + 1)) ≥
              q.min_common_len then
            retrDelta e q
              (match_len + 1 + commonPre (tailRem e.trie cur1) (q.word.drop (match_len + 1)))
              (termVal e.trie cur1) (match_len + 1 + tailLen e.trie cur1)
          else []
        else cwalkDelta e q fuel cur1 (match_len + 1)
    else []

/-- Specification companion of `backtrack` without the result cap: the
results the backtracking loop can contribute from a given node stack — for
each popped node, anything a reachable terminal contributes. -/
def backtrackSet (e : Engine) (q : Query) :
    List (List Nat) → Nat → Option (List Nat) → Result → Prop
  | [], _, _, _ => False
  | cur :: rest, match_len, exc, r =>
    (∃ m, Reach e q.max_dword_len exc ⟨cur, match_len⟩ m ∧
      baseNeg e.trie m.cur = true ∧ r ∈ nodeDelta e q match_len m) ∨
    backtrackSet e q rest (match_len - 1) (some cur) r

/-- Specification companion of `compre_search` without the result cap: the
results one call can contribute — the forward walk's uncapped delta plus
anything the backtracking of the walk's node stack can contribute.  (The
walk's final `match_len` and stack do not depend on the accumulator, so
they are taken from the walk on the empty one.) -/
def compreSet (e : Engine) (q : Query) (r : Result) : Prop :=
  if q.min_common_len > q.word.length ∨ q.min_common_len > q.max_dword_len then False
  else if baseNeg e.trie [] then False
  else
    r ∈ cwalkDelta e q q.word.length [] 0 ∨
      backtrackSet e q (cwalk e q q.word.length [] 0 [] []).2.1
        (cwalk e q q.word.length [] 0 [] []).1 none r

/-- Specification companion: the full, uncapped result set of `search` —
one uncapped `compre_search` contribution per starting offset.  Neither
component reads `limit`, `depth_first_search`, `com_prefix_only` or
`average_limit`, so those fields are fixed arbitrarily. -/
def searchSet (e : Engine) (w : List Nat) (mcl mindl maxdl : Nat) (r : Result) : Prop :=
  ∃ i ∈ List.range (w.length - mcl + 1),
    compreSet e ⟨w.drop i, mcl, mindl, maxdl, 0, false, false, false⟩ r

/-- Fuel measure of one trie node for the traversal loops: every record
below the node weighs `(2k+2)^(key length + 2 - depth)`; the extra 1 pays
for popping the node itself. -/
def nodeW (t : List TrieRec) (k : Nat) (p : List Nat) : Nat :=
  ((keysAt t p).map (fun r => (2 * k + 2) ^ (r.1.length + 2 - p.length))).sum + 1

/-- Fuel measure of a whole traversal queue or stack. -/
def queueW (t : List TrieRec) (k : Nat) (ns : List NodeInfo) : Nat :=
  (ns.map (fun n => nodeW t k n.cur)).sum

/-! ## The std::sort tie-order seam of build

`buildCore` models the `std::sort` of the suffix candidates as a stable
sort, but C++ `std::sort` leaves the relative order of elements that
compare equal (here: equal suffix strings) unspecified.  `buildWith` is
the remainder of the build pipeline with the sort's output supplied
explicitly, so that the pipeline can also be run on the other legal
outputs of that sort. -/

/-- `build` (in-memory path) with the output of the suffix-candidate
`std::sort` supplied explicitly: everything after the sort — the dedup
loop and the engine assembly — exactly as in `build`.
`(build r ms lines).2 = buildWith r ms lines (stableSort suffix_cmp cands)`
holds definitionally; running `buildWith` on another
`suffix_cmp`-sorted permutation of the candidates gives the engine a
conforming `std::sort` implementation with that tie order would build. -/
def buildWith (ratio : ℚ) (min_suffix : Nat) (lines : List (List Nat))
    (cands : List TrieRec) : Engine :=
  let pst := lines.foldl poolStep ⟨[], 0, []⟩
  let sorted := stableSort (fun a b : Dword => a.size < b.size) pst.dws
  let dd := dedup cands
  { suffixRat := ratio
    min_suffix := min_suffix
    char_table := List.range 256
    trie := dd.recs.dropLast
    dwords_pool := pst.pool
    dwords_pool_size := 0
    dwords_array := sorted
    dwords_array_size := sorted.length
    dwordid_pool := dd.wpool
    dwordid_pool_size := cands.length
    suffix_iindex := dd.iidx
    suffix_iindex_size := dd.i + 1 }

/-- The two-line dictionary {"zz" → "1", "azz" → "2"}: lines
"zz\t1" and "azz\t2" as byte lists. -/
def dictZZ : List (List Nat) := [[122, 122, 9, 49], [97, 122, 122, 9, 50]]

/-- For `dictZZ` at ratio 1/2, min suffix 2, the suffix candidates are
("zz", word 0), ("azz", word 1), ("zz", word 1): the suffix "zz" occurs
for both words, so the lexicographic `std::sort` has a tie.  This is the
candidate order with the tie broken the other way: still sorted by the
suffix comparison — hence a legal `std::sort` output — but with
(id 1, id 0) instead of the stable (id 0, id 1). -/
def candsZZalt : List TrieRec := [([97, 122, 122], 1), ([122, 122], 1), ([122, 122], 0)]

/-! # Theorems -/

set_option maxRecDepth 1000000

/-- Reading back a little-endian u32 below 2^32 is the identity. -/
theorem rd32_le32 (n : Nat) (h : n < 2 ^ 32) : rd32 (le32 n) = n := by
  simp only [rd32, le32]
  simp only [List.getD_cons_zero, List.getD_cons_succ]
  omega

/-- Unfolding lemma for `search` on a non-null results pointer. -/
theorem search_some (e : Engine) (q : Query) (old : List Result) :
    search e q (some old) =
      if q.word.length < q.min_common_len ∨ q.limit = 0 then (0, some old)
      else if q.com_prefix_only then (0, some (compre_search e q []))
      else ((searchPositions e q).length, some (searchPositions e q)) := rfl

/-- C1 (counterexample): on the engine built from
`{(youthful,1), (youthfully,2), (youthfulness,3)}` with `suffix_ratio = 0.5`
and `min_suffix = 2`, the query `word = "youthe"`, `min_common_len = 4`,
`min_dword_len = 0`, `max_dword_len = 20`, `limit = 10` with all boolean
options false does not return three results. -/
theorem c1_counterexample :
    ¬ ((search eYouth qYouth (some [])).2.getD []).length = 3 := by decide

/-- C1 (amended): the scenario call returns five results — `youthful` and
`youthfully` with `common_len = 5` and `start_pos = 0` (`youthfulness` is
missing here because build excludes the last deduplicated suffix from the
trie), then `youthful`, `youthfully` and `youthfulness` with
`common_len = 4` and `start_pos = 1` contributed by the second starting
offset (`"outhe"`). -/
theorem c1_search_results :
    search eYouth qYouth (some []) =
      (5, some
        [⟨wYouthful, [49], 0, 5⟩, ⟨wYouthfully, [50], 0, 5⟩,
         ⟨wYouthful, [49], 1, 4⟩, ⟨wYouthfully, [50], 1, 4⟩,
         ⟨wYouthfulness, [51], 1, 4⟩]) := by decide

/-- C6 (the code at the failing input): building `{(aa,1), (aab,2)}`
produces three deduplicated suffix records — `aa`, `aab`, `ab` — but the
record range handed to the DAT builder stops before the last one, so the
trie only contains `aa` and `aab`. -/
theorem c6_builder_range :
    (dedup (buildCore ratHalf 2 dictAA).2.2.1).recs =
      [([97, 97], 0), ([97, 97, 98], 1), ([97, 98], 2)] ∧
    eAA.trie = [([97, 97], 0), ([97, 97, 98], 1)] := by decide

/-- C9 (the code against the claim): `build` never reports failure — for
every `suffix_ratio` (in particular `ratTwo = 2`, which is outside
`(0,1]`), every `min_suffix` and every input it returns status 0 and
proceeds. -/
theorem c9_build_always_succeeds :
    (1 : ℚ) < ratTwo ∧
    ∀ (ratio : ℚ) (ms : Nat) (lines : List (List Nat)), (build ratio ms lines).1 = 0 := by
  constructor
  · rw [show (1 : ℚ) = Rat.mk' 1 1 (by decide) (Nat.coprime_one_left 1) from rfl]
    decide
  · intro ratio ms lines
    rfl

/-- C10 (counterexample): with `limit = 0` the early return leaves the
caller's vector untouched, so after the call the vector does not hold the
(empty) result set this call produced. -/
theorem c10_counterexample :
    search eAA { qAA false with limit := 0 } (some [rPrior]) = (0, some [rPrior]) ∧
    [rPrior] ≠ ([] : List Result) := by decide

/-- C10 (amended): a NULL results pointer yields 0 with no effect; when
the early guards pass (`|word| ≥ min_common_len`, `limit > 0`) the vector
is cleared first and on return holds exactly this call's results,
independent of its prior contents; when a guard fails, search returns 0
leaving the prior contents in place. -/
theorem c10_output_contract (e : Engine) (q : Query) (prior : List Result) :
    search e q none = (0, none) ∧
    search e q (some prior) =
      (if q.word.length < q.min_common_len ∨ q.limit = 0 then (0, some prior)
       else search e q (some [])) := by
  refine ⟨rfl, ?_⟩
  rw [search_some, search_some]
  by_cases h : q.word.length < q.min_common_len ∨ q.limit = 0
  · simp only [if_pos h]
  · simp only [if_neg h]

/-- C7 (counterexample): on a stream with a valid DAT part, a valid DWDP
block and a garbage second tag, `read` returns 0 but the engine keeps the
trie and the word pool it had already read. -/
theorem c7_counterexample :
    (readDb eZero fBad).1 = 0 ∧
    (readDb eZero fBad).2.dwords_pool = [65, 66] ∧
    (readDb eZero fBad).2.trie = [([97], 5)] := by decide

/-- Unfolding lemma: `read` on a stream whose DAT part parses. -/
theorem readDb_some (e : Engine) (ds : Nat) (t : List TrieRec) (rest : List Nat) :
    readDb e ⟨ds, some t, rest⟩ =
      rdDWDP ds rest.length { clearE e with trie := t } rest 0 := rfl

/-- Unfolding lemma: `read` on a stream whose DAT part fails. -/
theorem readDb_none (e : Engine) (ds : Nat) (rest : List Nat) :
    readDb e ⟨ds, none, rest⟩ = (0, clearE e) := rfl

/-- Stage one consumes a well-formed DWDP block. -/
theorem rdDWDP_ok (ds tot : Nat) (e : Engine) (n : Nat) (payload rest : List Nat)
    (hn : n < 2 ^ 32) (hp : payload.length = n) (pos : Nat) :
    rdDWDP ds tot e (tagDWDP ++ le32 n ++ payload ++ rest) pos =
      rdDWAR ds tot { e with dwords_pool := payload, dwords_pool_size := n }
        rest (pos + 8 + n) := by
  subst hp
  unfold rdDWDP
  rw [if_pos (show (tagDWDP ++ le32 payload.length ++ payload ++ rest).take 4 = tagDWDP from rfl)]
  have h1 : ((tagDWDP ++ le32 payload.length ++ payload ++ rest).drop 4).take 4 =
      le32 payload.length := rfl
  have h2 : ((tagDWDP ++ le32 payload.length ++ payload ++ rest).drop 4).drop 4 =
      payload ++ rest := rfl
  rw [h1, h2, rd32_le32 _ hn, List.take_left, List.drop_left]

/-- A stage-two tag mismatch aborts, keeping the engine as passed in. -/
theorem rdDWAR_bad (ds tot : Nat) (e : Engine) (s : List Nat) (pos : Nat)
    (h : s.take 4 ≠ tagDWAR) : rdDWAR ds tot e s pos = (0, e) := by
  unfold rdDWAR
  rw [if_neg h]

/-- A stage-one tag mismatch aborts, keeping the engine as passed in. -/
theorem rdDWDP_bad (ds tot : Nat) (e : Engine) (s : List Nat) (pos : Nat)
    (h : s.take 4 ≠ tagDWDP) : rdDWDP ds tot e s pos = (0, e) := by
  unfold rdDWDP
  rw [if_neg h]

/-- A stage-three tag mismatch aborts, keeping the engine as passed in. -/
theorem rdIDAR_bad (ds tot : Nat) (e : Engine) (s : List Nat) (pos : Nat)
    (h : s.take 4 ≠ tagIDAR) : rdIDAR ds tot e s pos = (0, e) := by
  unfold rdIDAR
  rw [if_neg h]

/-- A stage-four tag mismatch aborts, keeping the engine as passed in. -/
theorem rdIIND_bad (ds tot : Nat) (e : Engine) (s : List Nat) (pos : Nat)
    (h : s.take 4 ≠ tagIIND) : rdIIND ds tot e s pos = (0, e) := by
  unfold rdIIND
  rw [if_neg h]

/-- Stage two consumes a well-formed DWAR block (forward copy used before
its later restatement for C8). -/
theorem rdDWAR_ok2 (ds tot : Nat) (e : Engine) (n : Nat) (payload rest : List Nat)
    (hn : n < 2 ^ 32) (hp : payload.length = n) (pos : Nat) :
    rdDWAR ds tot e (tagDWAR ++ le32 n ++ payload ++ rest) pos =
      rdIDAR ds tot
        { e with
          dwords_array := (parsePairs payload).map (fun p => ⟨p.1, p.2⟩)
          dwords_array_size := n / 8 }
        rest (pos + 8 + n) := by
  subst hp
  unfold rdDWAR
  rw [if_pos (show (tagDWAR ++ le32 payload.length ++ payload ++ rest).take 4 = tagDWAR from rfl)]
  have h1 : ((tagDWAR ++ le32 payload.length ++ payload ++ rest).drop 4).take 4 =
      le32 payload.length := rfl
  have h2 : ((tagDWAR ++ le32 payload.length ++ payload ++ rest).drop 4).drop 4 =
      payload ++ rest := rfl
  rw [h1, h2, rd32_le32 _ hn, List.take_left, List.drop_left]

/-- Stage three consumes a well-formed IDAR block (forward copy used before
its later restatement for C8). -/
theorem rdIDAR_ok2 (ds tot : Nat) (e : Engine) (n : Nat) (payload rest : List Nat)
    (hn : n < 2 ^ 32) (hp : payload.length = n) (pos : Nat) :
    rdIDAR ds tot e (tagIDAR ++ le32 n ++ payload ++ rest) pos =
      rdIIND ds tot
        { e with
          dwordid_pool := parse32 payload
          dwordid_pool_size := n / 4 }
        rest (pos + 8 + n) := by
  subst hp
  unfold rdIDAR
  rw [if_pos (show (tagIDAR ++ le32 payload.length ++ payload ++ rest).take 4 = tagIDAR from rfl)]
  have h1 : ((tagIDAR ++ le32 payload.length ++ payload ++ rest).drop 4).take 4 =
      le32 payload.length := rfl
  have h2 : ((tagIDAR ++ le32 payload.length ++ payload ++ rest).drop 4).drop 4 =
      payload ++ rest := rfl
  rw [h1, h2, rd32_le32 _ hn, List.take_left, List.drop_left]

/-- C7 (amended): a mismatch of any of the four block tags (DWDP, DWAR,
IDAR, IIND) makes `read` return 0, but the engine is not rolled back — it
keeps everything read before the mismatch (old contents were cleared on
entry; the base-class trie is not cleared at all): with a bad first tag
the freshly read trie stays; with a bad second tag the word pool stays
too; with a bad third tag also the dword array; with a bad fourth tag
also the dword-id pool; when the DAT read itself fails the pools are
cleared but the pre-existing trie survives. -/
theorem c7_read_keeps_loaded (e : Engine) (t : List TrieRec) (ds n n2 n3 : Nat)
    (payload p2 p3 rest2 rest3 rest4 : List Nat)
    (hn : n < 2 ^ 32) (hp : payload.length = n)
    (hn2 : n2 < 2 ^ 32) (hp2 : p2.length = n2)
    (hn3 : n3 < 2 ^ 32) (hp3 : p3.length = n3)
    (h2 : rest2.take 4 ≠ tagDWAR)
    (h3 : rest3.take 4 ≠ tagIDAR)
    (h4 : rest4.take 4 ≠ tagIIND) :
    readDb e ⟨ds, some t, tagDWDP ++ le32 n ++ payload ++ rest2⟩ =
      (0, { clearE e with trie := t, dwords_pool := payload, dwords_pool_size := n }) ∧
    (∀ rest1 : List Nat, rest1.take 4 ≠ tagDWDP →
      readDb e ⟨ds, some t, rest1⟩ = (0, { clearE e with trie := t })) ∧
    readDb e ⟨ds, none, rest2⟩ = (0, clearE e) ∧
    readDb e ⟨ds, some t,
        tagDWDP ++ le32 n ++ payload ++ (tagDWAR ++ le32 n2 ++ p2 ++ rest3)⟩ =
      (0, { clearE e with
              trie := t
              dwords_pool := payload
              dwords_pool_size := n
              dwords_array := (parsePairs p2).map (fun p => ⟨p.1, p.2⟩)
              dwords_array_size := n2 / 8 }) ∧
    readDb e ⟨ds, some t,
        tagDWDP ++ le32 n ++ payload ++
          (tagDWAR ++ le32 n2 ++ p2 ++ (tagIDAR ++ le32 n3 ++ p3 ++ rest4))⟩ =
      (0, { clearE e with
              trie := t
              dwords_pool := payload
              dwords_pool_size := n
              dwords_array := (parsePairs p2).map (fun p => ⟨p.1, p.2⟩)
              dwords_array_size := n2 / 8
              dwordid_pool := parse32 p3
              dwordid_pool_size := n3 / 4 }) := by
  refine ⟨?_, ?_, readDb_none e ds rest2, ?_, ?_⟩
  · rw [readDb_some e ds t (tagDWDP ++ le32 n ++ payload ++ rest2)]
    rw [rdDWDP_ok ds (tagDWDP ++ le32 n ++ payload ++ rest2).length
      { clearE e with trie := t } n payload rest2 hn hp 0]
    exact rdDWAR_bad _ _ _ rest2 _ h2
  · intro rest1 h1
    exact (readDb_some e ds t rest1).trans
      (rdDWDP_bad ds rest1.length { clearE e with trie := t } rest1 0 h1)
  · rw [readDb_some e ds t _]
    rw [rdDWDP_ok ds _ { clearE e with trie := t } n payload _ hn hp 0]
    rw [rdDWAR_ok2 ds _ _ n2 p2 rest3 hn2 hp2 _]
    rw [rdIDAR_bad ds _ _ rest3 _ h3]
  · rw [readDb_some e ds t _]
    rw [rdDWDP_ok ds _ { clearE e with trie := t } n payload _ hn hp 0]
    rw [rdDWAR_ok2 ds _ _ n2 p2 _ hn2 hp2 _]
    rw [rdIDAR_ok2 ds _ _ n3 p3 rest4 hn3 hp3 _]
    rw [rdIIND_bad ds _ _ rest4 _ h4]

/-- C7 witness: the amended statement at concrete bad streams — a garbage
second tag keeps the trie and word pool, and a garbage fourth tag keeps
the trie, the word pool, the dword array and the dword-id pool. -/
theorem c7_witness :
    (readDb eZero ⟨10, some [([97], 5)],
        tagDWDP ++ le32 2 ++ [65, 66] ++ [88, 88, 88, 88]⟩ =
      (0, { clearE eZero with
              trie := [([97], 5)], dwords_pool := [65, 66], dwords_pool_size := 2 })) ∧
    (readDb eZero ⟨10, some [([97], 5)],
        tagDWDP ++ le32 2 ++ [65, 66] ++
          (tagDWAR ++ le32 8 ++ (le32 7 ++ le32 3) ++
            (tagIDAR ++ le32 4 ++ le32 9 ++ [88, 88, 88, 88]))⟩ =
      (0, { clearE eZero with
              trie := [([97], 5)]
              dwords_pool := [65, 66]
              dwords_pool_size := 2
              dwords_array := [⟨7, 3⟩]
              dwords_array_size := 1
              dwordid_pool := [9]
              dwordid_pool_size := 1 })) :=
  ⟨(c7_read_keeps_loaded eZero [([97], 5)] 10 2 8 4 [65, 66] (le32 7 ++ le32 3) (le32 9)
      [88, 88, 88, 88] [88, 88, 88, 88] [88, 88, 88, 88] (by decide) (by decide) (by decide)
      (by decide) (by decide) (by decide) (by decide) (by decide) (by decide)).1,
   (c7_read_keeps_loaded eZero [([97], 5)] 10 2 8 4 [65, 66] (le32 7 ++ le32 3) (le32 9)
      [88, 88, 88, 88] [88, 88, 88, 88] [88, 88, 88, 88] (by decide) (by decide) (by decide)
      (by decide) (by decide) (by decide) (by decide) (by decide) (by decide)).2.2.2.2⟩

/-! ## Limit-cap and append-delta lemmas -/

/-- Below the cap, the retrieval loop appends a capped prefix of its
uncapped output. -/
theorem retrLoop_take (e : Engine) (q : Query) (ml sl : Nat) (ids : List Nat) :
    ∀ (acc : List Result), acc.length < q.limit →
      retrLoop e q ml sl ids acc =
        acc ++ (retrFull e q ml sl ids).take (q.limit - acc.length) := by
  induction ids with
  | nil => intro acc h; simp [retrLoop, retrFull]
  | cons id rest ih =>
    intro acc h
    by_cases hsz : (dwAt e id).size > q.max_dword_len
    · have hd : decide ((dwAt e id).size ≤ q.max_dword_len) = false := by
        simp only [decide_eq_false_iff_not]; omega
      simp [retrLoop, if_pos hsz, retrFull, List.takeWhile_cons, hd]
    · have hd : decide ((dwAt e id).size ≤ q.max_dword_len) = true := by
        simp only [decide_eq_true_eq]; omega
      have hfull : retrFull e q ml sl (id :: rest) =
          mkResult e id ml sl :: retrFull e q ml sl rest := by
        simp [retrFull, List.takeWhile_cons, hd]
      rw [hfull]
      have h1 : q.limit - acc.length = (q.limit - (acc.length + 1)) + 1 := by omega
      rw [h1, List.take_succ_cons]
      simp only [retrLoop, if_neg hsz]
      by_cases hful : (acc ++ [mkResult e id ml sl]).length ≥ q.limit
      · rw [if_pos hful]
        have h2 : q.limit - (acc.length + 1) = 0 := by
          simp only [List.length_append, List.length_cons, List.length_nil] at hful
          omega
        rw [h2]
        simp
      · rw [if_neg hful]
        rw [ih (acc ++ [mkResult e id ml sl])
          (by simp only [List.length_append, List.length_cons, List.length_nil] at hful ⊢; omega)]
        simp
  
/-- Below the cap, one retrieval appends a capped prefix of its uncapped
delta. -/
theorem retrieve_take (e : Engine) (q : Query) (ml sid sl : Nat) (acc : List Result)
    (h : acc.length < q.limit) :
    retrieve_dword e q ml sid sl acc =
      acc ++ (retrDelta e q ml sid sl).take (q.limit - acc.length) := by
  unfold retrieve_dword retrDelta
  by_cases hs : sid < e.suffix_iindex_size
  · rw [if_pos ⟨hs, h⟩, if_pos hs]
    exact retrLoop_take e q ml sl _ acc h
  · rw [if_neg (fun hh => hs hh.1), if_neg hs]
    simp

/-- At or above the cap, a retrieval is a no-op. -/
theorem retrieve_stop (e : Engine) (q : Query) (ml sid sl : Nat) (acc : List Result)
    (h : ¬ acc.length < q.limit) :
    retrieve_dword e q ml sid sl acc = acc := by
  unfold retrieve_dword
  rw [if_neg (fun hh => h hh.2)]

/-- A retrieval never grows the vector past any bound dominating both the
current length and the limit. -/
theorem retrieve_sz (e : Engine) (q : Query) (ml sid sl : Nat) (acc : List Result)
    (L : Nat) (ha : acc.length ≤ L) (hl : q.limit ≤ L) :
    (retrieve_dword e q ml sid sl acc).length ≤ L := by
  by_cases h : acc.length < q.limit
  · rw [retrieve_take e q ml sid sl acc h]
    simp only [List.length_append, List.length_take]
    omega
  · rw [retrieve_stop e q ml sid sl acc h]
    exact ha

/-- A retrieval only appends. -/
theorem retrieve_append (e : Engine) (q : Query) (ml sid sl : Nat) (acc : List Result) :
    ∃ d, retrieve_dword e q ml sid sl acc = acc ++ d := by
  by_cases h : acc.length < q.limit
  · exact ⟨_, retrieve_take e q ml sid sl acc h⟩
  · exact ⟨[], by rw [retrieve_stop e q ml sid sl acc h, List.append_nil]⟩

/-- `popTerminal` never grows the vector past such a bound. -/
theorem popTerminal_sz (e : Engine) (q : Query) (ml : Nat) (n : NodeInfo)
    (acc : List Result) (L : Nat) (ha : acc.length ≤ L) (hl : q.limit ≤ L) :
    (popTerminal e q ml n acc).length ≤ L := by
  unfold popTerminal
  split
  · exact retrieve_sz e q ml _ _ acc L ha hl
  · exact ha

/-- `popTerminal` only appends. -/
theorem popTerminal_append (e : Engine) (q : Query) (ml : Nat) (n : NodeInfo)
    (acc : List Result) : ∃ d, popTerminal e q ml n acc = acc ++ d := by
  unfold popTerminal
  split
  · exact retrieve_append e q ml _ _ acc
  · exact ⟨[], (List.append_nil acc).symm⟩

/-- The BFS loop never grows the vector past such a bound. -/
theorem bfgo_sz (e : Engine) (q : Query) (ml : Nat) (exc : Option (List Nat)) :
    ∀ (fuel : Nat) (queue : List NodeInfo) (acc : List Result) (L : Nat),
      acc.length ≤ L → q.limit ≤ L →
      (bfgo e q ml exc fuel queue acc).length ≤ L := by
  intro fuel
  induction fuel with
  | zero => intro queue acc L ha _; exact ha
  | succ fuel ih =>
    intro queue acc L ha hl
    match queue with
    | [] => exact ha
    | n :: rest =>
      simp only [bfgo]
      split
      · exact ha
      · split
        · exact ih rest _ L (popTerminal_sz e q ml n acc L ha hl) hl
        · split
          · exact ih _ acc L ha hl
          · exact ih rest acc L ha hl

/-- The DFS loop never grows the vector past such a bound. -/
theorem dfgo_sz (e : Engine) (q : Query) (ml : Nat) (exc : Option (List Nat)) :
    ∀ (fuel : Nat) (queue : List NodeInfo) (acc : List Result) (L : Nat),
      acc.length ≤ L → q.limit ≤ L →
      (dfgo e q ml exc fuel queue acc).length ≤ L := by
  intro fuel
  induction fuel with
  | zero => intro queue acc L ha _; exact ha
  | succ fuel ih =>
    intro queue acc L ha hl
    match queue with
    | [] => exact ha
    | n :: rest =>
      simp only [dfgo]
      split
      · exact ha
      · split
        · exact ih rest _ L (popTerminal_sz e q ml n acc L ha hl) hl
        · split
          · exact ih _ acc L ha hl
          · exact ih rest acc L ha hl

/-- The BFS loop only appends. -/
theorem bfgo_append (e : Engine) (q : Query) (ml : Nat) (exc : Option (List Nat)) :
    ∀ (fuel : Nat) (queue : List NodeInfo) (acc : List Result),
      ∃ d, bfgo e q ml exc fuel queue acc = acc ++ d := by
  intro fuel
  induction fuel with
  | zero => intro queue acc; exact ⟨[], (List.append_nil acc).symm⟩
  | succ fuel ih =>
    intro queue acc
    match queue with
    | [] => exact ⟨[], (List.append_nil acc).symm⟩
    | n :: rest =>
      simp only [bfgo]
      split
      · exact ⟨[], (List.append_nil acc).symm⟩
      · split
        · obtain ⟨d1, hd1⟩ := popTerminal_append e q ml n acc
          obtain ⟨d2, hd2⟩ := ih rest (popTerminal e q ml n acc)
          exact ⟨d1 ++ d2, by rw [hd2, hd1, List.append_assoc]⟩
        · split
          · exact ih _ acc
          · exact ih rest acc

/-- The DFS loop only appends. -/
theorem dfgo_append (e : Engine) (q : Query) (ml : Nat) (exc : Option (List Nat)) :
    ∀ (fuel : Nat) (queue : List NodeInfo) (acc : List Result),
      ∃ d, dfgo e q ml exc fuel queue acc = acc ++ d := by
  intro fuel
  induction fuel with
  | zero => intro queue acc; exact ⟨[], (List.append_nil acc).symm⟩
  | succ fuel ih =>
    intro queue acc
    match queue with
    | [] => exact ⟨[], (List.append_nil acc).symm⟩
    | n :: rest =>
      simp only [dfgo]
      split
      · exact ⟨[], (List.append_nil acc).symm⟩
      · split
        · obtain ⟨d1, hd1⟩ := popTerminal_append e q ml n acc
          obtain ⟨d2, hd2⟩ := ih rest (popTerminal e q ml n acc)
          exact ⟨d1 ++ d2, by rw [hd2, hd1, List.append_assoc]⟩
        · split
          · exact ih _ acc
          · exact ih rest acc

/-- Either traversal never grows the vector past such a bound. -/
theorem traversal_sz (e : Engine) (q : Query) (cur : List Nat) (ml : Nat)
    (exc : Option (List Nat)) (acc : List Result) (L : Nat)
    (ha : acc.length ≤ L) (hl : q.limit ≤ L) :
    (bf_traversal e q cur ml exc acc).length ≤ L ∧
    (df_traversal e q cur ml exc acc).length ≤ L := by
  constructor
  · unfold bf_traversal
    split
    · exact ha
    · exact bfgo_sz e q ml exc _ _ acc L ha hl
  · unfold df_traversal
    split
    · exact ha
    · exact dfgo_sz e q ml exc _ _ acc L ha hl

/-- Either traversal only appends. -/
theorem traversal_append (e : Engine) (q : Query) (cur : List Nat) (ml : Nat)
    (exc : Option (List Nat)) (acc : List Result) :
    (∃ d, bf_traversal e q cur ml exc acc = acc ++ d) ∧
    (∃ d, df_traversal e q cur ml exc acc = acc ++ d) := by
  constructor
  · unfold bf_traversal
    split
    · exact ⟨[], (List.append_nil acc).symm⟩
    · exact bfgo_append e q ml exc _ _ acc
  · unfold df_traversal
    split
    · exact ⟨[], (List.append_nil acc).symm⟩
    · exact dfgo_append e q ml exc _ _ acc

/-- The forward walk never grows the vector past such a bound. -/
theorem cwalk_sz (e : Engine) (q : Query) :
    ∀ (fuel : Nat) (cur : List Nat) (ml : Nat) (stk : List (List Nat))
      (acc : List Result) (L : Nat), acc.length ≤ L → q.limit ≤ L →
      ((cwalk e q fuel cur ml stk acc).2.2).length ≤ L := by
  intro fuel
  induction fuel with
  | zero => intro cur ml stk acc L ha _; exact ha
  | succ fuel ih =>
    intro cur ml stk acc L ha hl
    rw [cwalk]
    split
    · split
      · exact ha
      · split
        · split
          · exact retrieve_sz e q _ _ _ acc L ha hl
          · exact ha
        · exact ih _ _ _ acc L ha hl
    · exact ha

/-- The forward walk only appends. -/
theorem cwalk_append (e : Engine) (q : Query) :
    ∀ (fuel : Nat) (cur : List Nat) (ml : Nat) (stk : List (List Nat))
      (acc : List Result),
      ∃ d, (cwalk e q fuel cur ml stk acc).2.2 = acc ++ d := by
  intro fuel
  induction fuel with
  | zero => intro cur ml stk acc; exact ⟨[], (List.append_nil acc).symm⟩
  | succ fuel ih =>
    intro cur ml stk acc
    rw [cwalk]
    split
    · split
      · exact ⟨[], (List.append_nil acc).symm⟩
      · split
        · split
          · exact retrieve_append e q _ _ _ acc
          · exact ⟨[], (List.append_nil acc).symm⟩
        · exact ih _ _ _ acc
    · exact ⟨[], (List.append_nil acc).symm⟩

/-- Backtracking never grows the vector past such a bound. -/
theorem backtrack_sz (e : Engine) (q : Query) :
    ∀ (stk : List (List Nat)) (ml : Nat) (exc : Option (List Nat))
      (acc : List Result) (L : Nat), acc.length ≤ L → q.limit ≤ L →
      (backtrack e q stk ml exc acc).length ≤ L := by
  intro stk
  induction stk with
  | nil => intro ml exc acc L ha _; exact ha
  | cons cur rest ih =>
    intro ml exc acc L ha hl
    simp only [backtrack]
    split
    · exact ih _ _ _ L (traversal_sz e q cur ml exc acc L ha hl).2 hl
    · exact ih _ _ _ L (traversal_sz e q cur ml exc acc L ha hl).1 hl

/-- Backtracking only appends. -/
theorem backtrack_append (e : Engine) (q : Query) :
    ∀ (stk : List (List Nat)) (ml : Nat) (exc : Option (List Nat))
      (acc : List Result),
      ∃ d, backtrack e q stk ml exc acc = acc ++ d := by
  intro stk
  induction stk with
  | nil => intro ml exc acc; exact ⟨[], (List.append_nil acc).symm⟩
  | cons cur rest ih =>
    intro ml exc acc
    simp only [backtrack]
    split
    · obtain ⟨d1, hd1⟩ := (traversal_append e q cur ml exc acc).2
      obtain ⟨d2, hd2⟩ := ih _ _ (df_traversal e q cur ml exc acc)
      exact ⟨d1 ++ d2, by rw [hd2, hd1, List.append_assoc]⟩
    · obtain ⟨d1, hd1⟩ := (traversal_append e q cur ml exc acc).1
      obtain ⟨d2, hd2⟩ := ih _ _ (bf_traversal e q cur ml exc acc)
      exact ⟨d1 ++ d2, by rw [hd2, hd1, List.append_assoc]⟩

/-- One `compre_search` call never grows the vector past such a bound. -/
theorem compre_sz (e : Engine) (q : Query) (acc : List Result) (L : Nat)
    (ha : acc.length ≤ L) (hl : q.limit ≤ L) :
    (compre_search e q acc).length ≤ L := by
  unfold compre_search
  split
  · exact ha
  · split
    · exact ha
    · exact backtrack_sz e q _ _ none _ L (cwalk_sz e q _ _ _ _ acc L ha hl) hl

/-- One `compre_search` call only appends. -/
theorem compre_append (e : Engine) (q : Query) (acc : List Result) :
    ∃ d, compre_search e q acc = acc ++ d := by
  unfold compre_search
  split
  · exact ⟨[], (List.append_nil acc).symm⟩
  · split
    · exact ⟨[], (List.append_nil acc).symm⟩
    · obtain ⟨d1, hd1⟩ := cwalk_append e q q.word.length [] 0 [] acc
      obtain ⟨d2, hd2⟩ := backtrack_append e q _ _ none _
      refine ⟨d1 ++ d2, ?_⟩
      rw [hd2, hd1, List.append_assoc]

/-- The position fold of `search` under `average_limit`: each position may
add up to `limit` fresh results. -/
theorem spFold_avg (e : Engine) (q : Query) (hq : q.average_limit = true) :
    ∀ (l : List Nat) (acc : List Result),
      (l.foldl
        (fun acc i =>
          compre_search e
            { q with
              word := q.word.drop i
              limit := if q.average_limit then acc.length + q.limit else q.limit }
            acc)
        acc).length ≤ acc.length + q.limit * l.length := by
  intro l
  induction l with
  | nil => intro acc; simp
  | cons i rest ih =>
    intro acc
    rw [List.foldl_cons]
    refine le_trans (ih _) ?_
    have h1 : (compre_search e
        { q with
          word := q.word.drop i
          limit := if q.average_limit then acc.length + q.limit else q.limit }
        acc).length ≤ acc.length + q.limit := by
      refine compre_sz e _ acc (acc.length + q.limit) (by omega) ?_
      simp [hq]
    simp only [List.length_cons]
    calc _ ≤ (acc.length + q.limit) + q.limit * rest.length := by omega
    _ = acc.length + q.limit * (rest.length + 1) := by ring
  
/-- The position fold of `search` without `average_limit`: `limit` is one
cumulative cap. -/
theorem spFold_nav (e : Engine) (q : Query) (hq : q.average_limit = false) :
    ∀ (l : List Nat) (acc : List Result), acc.length ≤ q.limit →
      (l.foldl
        (fun acc i =>
          compre_search e
            { q with
              word := q.word.drop i
              limit := if q.average_limit then acc.length + q.limit else q.limit }
            acc)
        acc).length ≤ q.limit := by
  intro l
  induction l with
  | nil => intro acc h; simpa using h
  | cons i rest ih =>
    intro acc h
    rw [List.foldl_cons]
    refine ih _ ?_
    refine compre_sz e _ acc q.limit h ?_
    simp [hq]

/-- C2: for every loaded engine and every query with positive limit, the
results vector search produces has at most `limit` entries when
`average_limit` is false, and at most `limit * (|word| - min_common_len + 1)`
entries when it is true. -/
theorem c2_limit_cap (e : Engine) (q : Query) (hpos : 0 < q.limit) :
    ((search e q (some [])).2.getD []).length ≤
      (if q.average_limit then q.limit * (q.word.length - q.min_common_len + 1)
       else q.limit) := by
  rw [search_some]
  by_cases hg : q.word.length < q.min_common_len ∨ q.limit = 0
  · rw [if_pos hg]
    simp
  · rw [if_neg hg]
    have hcap : q.limit ≤
        (if q.average_limit then q.limit * (q.word.length - q.min_common_len + 1)
         else q.limit) := by
      split
      · exact Nat.le_mul_of_pos_right q.limit (by omega)
      · exact le_refl _
    by_cases hp : q.com_prefix_only
    · rw [if_pos hp]
      simp only [Option.getD_some]
      exact le_trans (compre_sz e q [] q.limit (by simp) (le_refl _)) hcap
    · rw [if_neg hp]
      simp only [Option.getD_some]
      rcases hav : q.average_limit with hf | ht
      · rw [if_neg (by simp [hav])]
        exact spFold_nav e q hav _ [] (by simp)
      · rw [if_pos (by simp [hav])]
        unfold searchPositions
        refine le_trans (spFold_avg e q hav _ []) ?_
        simp
  
/-- C2 witness: the limit cap at the concrete engine `eAA` and query
`qAA false`. -/
theorem c2_witness :
    0 < (qAA false).limit ∧
    ((search eAA (qAA false) (some [])).2.getD []).length ≤
      (if (qAA false).average_limit then
        (qAA false).limit * ((qAA false).word.length - (qAA false).min_common_len + 1)
       else (qAA false).limit) :=
  ⟨by decide, c2_limit_cap eAA (qAA false) (by decide)⟩

/-! ## Empty-input build and load (C8) -/

/-- `padTake` of zero bytes is empty. -/
theorem padTake_zero (l : List Nat) : padTake l 0 = [] := by
  simp [padTake]

/-- A line without a tab leaves the offset and the dword records alone. -/
theorem poolStep_no_tab (st : PoolSt) (line : List Nat) (h : 9 ∉ line) :
    poolStep st line = { st with pool := pokeList st.pool st.off line } := by
  unfold poolStep
  rw [if_neg]
  rw [List.findIdx_eq_length_of_false]
  · omega
  · intro x hx
    simp only [decide_eq_false_iff_not]
    intro hx9
    exact h (hx9 ▸ hx)

/-- A tab-free input leaves the offset and the dword records of the whole
line fold alone. -/
theorem poolFold_no_tab (lines : List (List Nat)) :
    ∀ (st : PoolSt), (∀ l ∈ lines, 9 ∉ l) →
      (lines.foldl poolStep st).off = st.off ∧
      (lines.foldl poolStep st).dws = st.dws := by
  induction lines with
  | nil => intro st _; exact ⟨rfl, rfl⟩
  | cons line rest ih =>
    intro st h
    rw [List.foldl_cons, poolStep_no_tab st line (h line (by simp))]
    exact ih _ (fun l hl => h l (by simp [hl]))

/-- On an engine whose trie is empty, `compre_search` is a no-op. -/
theorem compre_nil (e : Engine) (ht : e.trie = []) (q : Query) (acc : List Result) :
    compre_search e q acc = acc := by
  by_cases h1 : q.min_common_len > q.word.length ∨ q.min_common_len > q.max_dword_len
  · unfold compre_search
    rw [if_pos h1]
  · unfold compre_search
    rw [if_neg h1, if_pos (show baseNeg e.trie [] = true by rw [ht]; rfl)]

/-- On an engine whose trie is empty, the position fold returns its
accumulator. -/
theorem spFold_nil (e : Engine) (ht : e.trie = []) (q : Query) :
    ∀ (l : List Nat) (acc : List Result),
      (l.foldl
        (fun acc i =>
          compre_search e
            { q with
              word := q.word.drop i
              limit := if q.average_limit then acc.length + q.limit else q.limit }
            acc)
        acc) = acc := by
  intro l
  induction l with
  | nil => intro acc; rfl
  | cons i rest ih =>
    intro acc
    rw [List.foldl_cons, compre_nil e ht _ acc, ih acc]

/-- On an engine whose trie is empty, every search returns count 0. -/
theorem search_zero_of_trie_nil (e : Engine) (ht : e.trie = []) (q : Query)
    (res : Option (List Result)) : (search e q res).1 = 0 := by
  match res with
  | none => rfl
  | some old =>
    rw [search_some]
    by_cases hg : q.word.length < q.min_common_len ∨ q.limit = 0
    · rw [if_pos hg]
    · rw [if_neg hg]
      by_cases hp : q.com_prefix_only
      · rw [if_pos hp]
      · rw [if_neg hp]
        show (searchPositions e q).length = 0
        unfold searchPositions
        rw [spFold_nil e ht q _ []]
        rfl

/-- Stage two consumes a well-formed DWAR block. -/
theorem rdDWAR_ok (ds tot : Nat) (e : Engine) (n : Nat) (payload rest : List Nat)
    (hn : n < 2 ^ 32) (hp : payload.length = n) (pos : Nat) :
    rdDWAR ds tot e (tagDWAR ++ le32 n ++ payload ++ rest) pos =
      rdIDAR ds tot
        { e with
          dwords_array := (parsePairs payload).map (fun p => ⟨p.1, p.2⟩)
          dwords_array_size := n / 8 }
        rest (pos + 8 + n) := by
  subst hp
  unfold rdDWAR
  rw [if_pos (show (tagDWAR ++ le32 payload.length ++ payload ++ rest).take 4 = tagDWAR from rfl)]
  have h1 : ((tagDWAR ++ le32 payload.length ++ payload ++ rest).drop 4).take 4 =
      le32 payload.length := rfl
  have h2 : ((tagDWAR ++ le32 payload.length ++ payload ++ rest).drop 4).drop 4 =
      payload ++ rest := rfl
  rw [h1, h2, rd32_le32 _ hn, List.take_left, List.drop_left]

/-- Stage three consumes a well-formed IDAR block. -/
theorem rdIDAR_ok (ds tot : Nat) (e : Engine) (n : Nat) (payload rest : List Nat)
    (hn : n < 2 ^ 32) (hp : payload.length = n) (pos : Nat) :
    rdIDAR ds tot e (tagIDAR ++ le32 n ++ payload ++ rest) pos =
      rdIIND ds tot
        { e with
          dwordid_pool := parse32 payload
          dwordid_pool_size := n / 4 }
        rest (pos + 8 + n) := by
  subst hp
  unfold rdIDAR
  rw [if_pos (show (tagIDAR ++ le32 payload.length ++ payload ++ rest).take 4 = tagIDAR from rfl)]
  have h1 : ((tagIDAR ++ le32 payload.length ++ payload ++ rest).drop 4).take 4 =
      le32 payload.length := rfl
  have h2 : ((tagIDAR ++ le32 payload.length ++ payload ++ rest).drop 4).drop 4 =
      payload ++ rest := rfl
  rw [h1, h2, rd32_le32 _ hn, List.take_left, List.drop_left]

/-- Stage four consumes a well-formed final IIND block. -/
theorem rdIIND_ok (ds tot : Nat) (e : Engine) (n : Nat) (payload : List Nat)
    (hn : n < 2 ^ 32) (hp : payload.length = n) (pos : Nat) :
    rdIIND ds tot e (tagIIND ++ le32 n ++ payload) pos =
      (if pos + 8 + n ≤ tot then ds + pos + 8 + n else 2 ^ 64 - 1,
       { e with
         suffix_iindex := (parsePairs payload).map (fun p => ⟨p.1, p.2⟩)
         suffix_iindex_size := n / 8 }) := by
  subst hp
  unfold rdIIND
  rw [if_pos (show (tagIIND ++ le32 payload.length ++ payload).take 4 = tagIIND from rfl)]
  have h1 : ((tagIIND ++ le32 payload.length ++ payload).drop 4).take 4 =
      le32 payload.length := rfl
  have h2 : ((tagIIND ++ le32 payload.length ++ payload).drop 4).drop 4 = payload := rfl
  rw [h1, h2, rd32_le32 _ hn, List.take_length]

/-- Unfolding lemma: the block stream the write path of `build` emits. -/
theorem writeDb_rest (ratio : ℚ) (ms : Nat) (lines : List (List Nat))
    (junkI junkJ : List Nat) :
    (writeDb ratio ms lines junkI junkJ).rest =
      tagDWDP ++ le32 (lines.foldl poolStep ⟨[], 0, []⟩).off ++
        padTake (lines.foldl poolStep ⟨[], 0, []⟩).pool
          (lines.foldl poolStep ⟨[], 0, []⟩).off ++
      (tagDWAR ++
        le32 (8 * (stableSort (fun a b : Dword => a.size < b.size)
          (lines.foldl poolStep ⟨[], 0, []⟩).dws).length) ++
        serPairs ((stableSort (fun a b : Dword => a.size < b.size)
          (lines.foldl poolStep ⟨[], 0, []⟩).dws).map (fun d => (d.offset, d.size))) ++
      (tagIDAR ++
        le32 (4 * (stableSort (fun a b : TrieRec => lexLt a.1 b.1)
          (suffixCands ratio ms (lines.foldl poolStep ⟨[], 0, []⟩).pool
            (stableSort (fun a b : Dword => a.size < b.size)
              (lines.foldl poolStep ⟨[], 0, []⟩).dws))).length) ++
        (ser32 (dedup (stableSort (fun a b : TrieRec => lexLt a.1 b.1)
          (suffixCands ratio ms (lines.foldl poolStep ⟨[], 0, []⟩).pool
            (stableSort (fun a b : Dword => a.size < b.size)
              (lines.foldl poolStep ⟨[], 0, []⟩).dws)))).wpool ++ junkI) ++
      (tagIIND ++
        le32 (8 * ((dedup (stableSort (fun a b : TrieRec => lexLt a.1 b.1)
          (suffixCands ratio ms (lines.foldl poolStep ⟨[], 0, []⟩).pool
            (stableSort (fun a b : Dword => a.size < b.size)
              (lines.foldl poolStep ⟨[], 0, []⟩).dws)))).i + 1)) ++
        (serPairs (((dedup (stableSort (fun a b : TrieRec => lexLt a.1 b.1)
          (suffixCands ratio ms (lines.foldl poolStep ⟨[], 0, []⟩).pool
            (stableSort (fun a b : Dword => a.size < b.size)
              (lines.foldl poolStep ⟨[], 0, []⟩).dws)))).iidx.take
                ((dedup (stableSort (fun a b : TrieRec => lexLt a.1 b.1)
          (suffixCands ratio ms (lines.foldl poolStep ⟨[], 0, []⟩).pool
            (stableSort (fun a b : Dword => a.size < b.size)
              (lines.foldl poolStep ⟨[], 0, []⟩).dws)))).i + 1)).map
            (fun d => (d.offset, d.size))) ++ junkJ)))) := rfl

/-- C8: a dictionary input with no tab-separated line (in particular an
empty one) builds successfully into an empty database: build returns
status 0, every search on the built engine returns 0 results, writing the
database and reading it back succeeds (non-zero byte count), and every
search on the loaded engine returns 0 results.  The eight `junk` bytes are
the unspecified bytes the writer emits for the IIND block, whose size
member is 1 although no descriptor was written. -/
theorem c8_empty_build (ratio : ℚ) (ms : Nat) (lines : List (List Nat))
    (hnt : ∀ l ∈ lines, 9 ∉ l) (e0 : Engine) (junk : List Nat)
    (hj : junk.length = 8) :
    (build ratio ms lines).1 = 0 ∧
    (∀ (q : Query) (res : Option (List Result)),
      (search (build ratio ms lines).2 q res).1 = 0) ∧
    0 < (readDb e0 (writeDb ratio ms lines [] junk)).1 ∧
    (∀ (q : Query) (res : Option (List Result)),
      (search (readDb e0 (writeDb ratio ms lines [] junk)).2 q res).1 = 0) := by
  have hoff : (List.foldl poolStep ⟨[], 0, []⟩ lines).off = 0 :=
    (poolFold_no_tab lines ⟨[], 0, []⟩ hnt).1
  have hdws : (List.foldl poolStep ⟨[], 0, []⟩ lines).dws = [] :=
    (poolFold_no_tab lines ⟨[], 0, []⟩ hnt).2
  have hcands : (buildCore ratio ms lines).2.2.1 = [] := by
    show stableSort (fun a b : TrieRec => lexLt a.1 b.1)
      (suffixCands ratio ms (lines.foldl poolStep ⟨[], 0, []⟩).pool
        (stableSort (fun a b : Dword => a.size < b.size)
          (lines.foldl poolStep ⟨[], 0, []⟩).dws)) = []
    rw [hdws]
    rfl
  have htrie : (build ratio ms lines).2.trie = [] := by
    show (dedup (buildCore ratio ms lines).2.2.1).recs.dropLast = []
    rw [hcands]
    rfl
  refine ⟨rfl, fun q res => search_zero_of_trie_nil _ htrie q res, ?_, ?_⟩
  all_goals
    have hdat : (writeDb ratio ms lines [] junk).dat = some [] := by
      show some ((dedup (buildCore ratio ms lines).2.2.1).recs.dropLast) = some []
      rw [hcands]
      rfl
    have hds : (writeDb ratio ms lines [] junk).datSize = 16 := by
      show datWriteSize ((dedup (buildCore ratio ms lines).2.2.1).recs.dropLast) = 16
      rw [hcands]
      rfl
    have hrest : (writeDb ratio ms lines [] junk).rest =
        tagDWDP ++ le32 0 ++ ([] : List Nat) ++
        (tagDWAR ++ le32 0 ++ ([] : List Nat) ++
        (tagIDAR ++ le32 0 ++ ([] : List Nat) ++
        (tagIIND ++ le32 8 ++ junk))) := by
      have h0 := writeDb_rest ratio ms lines [] junk
      rw [hoff, hdws, padTake_zero] at h0
      exact h0
    have hlen : (tagDWDP ++ le32 0 ++ ([] : List Nat) ++
        (tagDWAR ++ le32 0 ++ ([] : List Nat) ++
        (tagIDAR ++ le32 0 ++ ([] : List Nat) ++
        (tagIIND ++ le32 8 ++ junk)))).length = 40 := by
      simp [tagDWDP, tagDWAR, tagIDAR, tagIIND, le32, hj]
    have hwf : writeDb ratio ms lines [] junk =
        (⟨16, some [],
          tagDWDP ++ le32 0 ++ ([] : List Nat) ++
          (tagDWAR ++ le32 0 ++ ([] : List Nat) ++
          (tagIDAR ++ le32 0 ++ ([] : List Nat) ++
          (tagIIND ++ le32 8 ++ junk)))⟩ : DbFile) := by
      show (⟨(writeDb ratio ms lines [] junk).datSize,
             (writeDb ratio ms lines [] junk).dat,
             (writeDb ratio ms lines [] junk).rest⟩ : DbFile) = _
      rw [hds, hdat, hrest]
    have hread : readDb e0 (writeDb ratio ms lines [] junk) =
        (56,
         { clearE e0 with
            trie := ([] : List TrieRec)
            dwords_pool := ([] : List Nat), dwords_pool_size := 0
            dwords_array := ([] : List Dword), dwords_array_size := 0
            dwordid_pool := ([] : List Nat), dwordid_pool_size := 0
            suffix_iindex := (parsePairs junk).map (fun p => ⟨p.1, p.2⟩)
            suffix_iindex_size := 1 }) := by
      rw [hwf, readDb_some, hlen]
      rw [rdDWDP_ok 16 40 _ 0 [] _ (by decide) rfl 0]
      rw [rdDWAR_ok 16 40 _ 0 [] _ (by decide) rfl 8]
      rw [rdIDAR_ok 16 40 _ 0 [] _ (by decide) rfl 16]
      rw [rdIIND_ok 16 40 _ 8 junk (by decide) hj 24]
      rw [if_pos (by decide : 24 + 8 + 8 ≤ 40)]
      rfl
    first
    | exact hread ▸ Nat.succ_pos 55
    | exact fun q res => search_zero_of_trie_nil _ (by rw [hread]) q res

/-- C8 witness: the empty dictionary, all-zero junk bytes. -/
theorem c8_witness :
    (build ratHalf 2 []).1 = 0 ∧
    (∀ (q : Query) (res : Option (List Result)),
      (search (build ratHalf 2 []).2 q res).1 = 0) ∧
    0 < (readDb eZero (writeDb ratHalf 2 [] [] [0, 0, 0, 0, 0, 0, 0, 0])).1 ∧
    (∀ (q : Query) (res : Option (List Result)),
      (search (readDb eZero (writeDb ratHalf 2 [] [] [0, 0, 0, 0, 0, 0, 0, 0])).2 q res).1 = 0) :=
  c8_empty_build ratHalf 2 [] (fun l hl => absurd hl (List.not_mem_nil l)) eZero
    [0, 0, 0, 0, 0, 0, 0, 0] (by decide)

/-! ## Length-filter lemmas (C3) -/

/-- Invariant of the `lower_bound` loop: everything at or beyond
`first + count` already has key length at least `m`; on a sorted slice the
returned index keeps that property. -/
theorem lbGo_ge (e : Engine) (ids : List Nat) (m : Nat)
    (hs : ∀ i j, i ≤ j → j < ids.length →
      (dwAt e (ids.getD i 0)).size ≤ (dwAt e (ids.getD j 0)).size) :
    ∀ (fuel first count : Nat), count ≤ fuel → first + count ≤ ids.length →
      (∀ j, first + count ≤ j → j < ids.length → m ≤ (dwAt e (ids.getD j 0)).size) →
      ∀ j, lbGo e ids m fuel first count ≤ j → j < ids.length →
        m ≤ (dwAt e (ids.getD j 0)).size := by
  intro fuel
  induction fuel with
  | zero =>
    intro first count hc hb hinv j hj hjl
    have hc0 : count = 0 := Nat.le_zero.mp hc
    have hj2 : first ≤ j := hj
    exact hinv j (by omega) hjl
  | succ fuel ih =>
    intro first count hc hb hinv j hj hjl
    by_cases hc0 : count = 0
    · rw [lbGo, if_pos hc0] at hj
      exact hinv j (by omega) hjl
    · by_cases hlt : (dwAt e (ids.getD (first + count / 2) 0)).size < m
      · rw [lbGo, if_neg hc0, if_pos hlt] at hj
        refine ih (first + count / 2 + 1) (count - count / 2 - 1) (by omega) (by omega)
          (fun j2 hj2 hj2l => hinv j2 (by omega) hj2l) j hj hjl
      · rw [lbGo, if_neg hc0, if_neg hlt] at hj
        refine ih first (count / 2) (by omega) (by omega) ?_ j hj hjl
        intro j2 hj2 hj2l
        rcases Nat.lt_or_ge j2 (first + count) with hlo | hhi
        · calc m ≤ (dwAt e (ids.getD (first + count / 2) 0)).size := by omega
          _ ≤ (dwAt e (ids.getD j2 0)).size := hs _ j2 (by omega) hj2l
        · exact hinv j2 hhi hj2l

/-- On a sorted slice, every id from the lower bound onward has key length
at least `m`. -/
theorem lower_bound_ge (e : Engine) (ids : List Nat) (m : Nat)
    (hs : ∀ i j, i ≤ j → j < ids.length →
      (dwAt e (ids.getD i 0)).size ≤ (dwAt e (ids.getD j 0)).size) :
    ∀ x ∈ ids.drop (lower_bound e ids m), m ≤ (dwAt e x).size := by
  intro x hx
  obtain ⟨i, hi, hget⟩ := List.mem_iff_getElem.mp hx
  have hlen := List.length_drop (lower_bound e ids m) ids
  rw [List.getElem_drop] at hget
  have hjl : lower_bound e ids m + i < ids.length := by omega
  have := lbGo_ge e ids m hs ids.length 0 ids.length (le_refl _) (by omega)
    (fun j hj hjl2 => by omega) (lower_bound e ids m + i) (Nat.le_add_right _ _) hjl
  rw [List.getD_eq_getElem ids 0 hjl] at this
  rw [← hget]
  exact this

/-- Every result the retrieval loop adds refers to a word within the
length bounds, provided every id it walks already satisfies the lower
bound. -/
theorem retrLoop_mem (e : Engine) (q : Query) (ml sl : Nat) :
    ∀ (ids : List Nat) (acc : List Result),
      (∀ x ∈ ids, q.min_dword_len ≤ (dwAt e x).size) →
      ∀ r ∈ retrLoop e q ml sl ids acc,
        r ∈ acc ∨ okLen e q.min_dword_len q.max_dword_len r := by
  intro ids
  induction ids with
  | nil => intro acc _ r hr; exact Or.inl hr
  | cons id rest ih =>
    intro acc hmin r hr
    by_cases hsz : (dwAt e id).size > q.max_dword_len
    · rw [retrLoop, if_pos hsz] at hr
      exact Or.inl hr
    · rw [retrLoop, if_neg hsz] at hr
      have hok : okLen e q.min_dword_len q.max_dword_len (mkResult e id ml sl) :=
        ⟨id, hmin id (by simp), by omega, rfl⟩
      by_cases hful : (acc ++ [mkResult e id ml sl]).length ≥ q.limit
      · rw [if_pos hful] at hr
        rcases List.mem_append.mp hr with h | h
        · exact Or.inl h
        · exact Or.inr (by rw [List.mem_singleton.mp h]; exact hok)
      · rw [if_neg hful] at hr
        rcases ih (acc ++ [mkResult e id ml sl])
          (fun x hx => hmin x (by simp [hx])) r hr with h | h
        · rcases List.mem_append.mp h with h2 | h2
          · exact Or.inl h2
          · exact Or.inr (by rw [List.mem_singleton.mp h2]; exact hok)
        · exact Or.inr h

/-- Every result one retrieval adds is within the length bounds, on an
engine whose inverted lists are sorted by key length. -/
theorem retrieve_mem (e : Engine) (hs : iindexSorted e) (q : Query)
    (ml sid sl : Nat) (acc : List Result) :
    ∀ r ∈ retrieve_dword e q ml sid sl acc,
      r ∈ acc ∨ okLen e q.min_dword_len q.max_dword_len r := by
  intro r hr
  unfold retrieve_dword at hr
  by_cases hg : sid < e.suffix_iindex_size ∧ acc.length < q.limit
  · rw [if_pos hg] at hr
    by_cases hsl : sid < e.suffix_iindex.length
    · have hmem : e.suffix_iindex.getD sid ⟨0, 0⟩ ∈ e.suffix_iindex := by
        rw [List.getD_eq_getElem e.suffix_iindex ⟨0, 0⟩ hsl]
        exact List.getElem_mem hsl
      have hp := hs _ hmem
      have hmono : ∀ i j, i ≤ j → j < (sliceOf e (e.suffix_iindex.getD sid ⟨0, 0⟩)).length →
          (dwAt e ((sliceOf e (e.suffix_iindex.getD sid ⟨0, 0⟩)).getD i 0)).size ≤
          (dwAt e ((sliceOf e (e.suffix_iindex.getD sid ⟨0, 0⟩)).getD j 0)).size := by
        intro i j hij hjl
        rcases Nat.eq_or_lt_of_le hij with heq | hlt
        · rw [heq]
        · have h1 : i < (sliceOf e (e.suffix_iindex.getD sid ⟨0, 0⟩)).length := by omega
          have h3 := (List.pairwise_iff_getElem.mp hp) i j
            (by simp only [List.length_map]; omega) (by simp only [List.length_map]; omega) hlt
          rw [List.getElem_map, List.getElem_map] at h3
          rw [List.getD_eq_getElem _ 0 h1, List.getD_eq_getElem _ 0 hjl]
          exact h3
      exact retrLoop_mem e q ml sl _ acc
        (fun x hx => lower_bound_ge e _ q.min_dword_len hmono x hx) r hr
    · have hr2 : r ∈ retrLoop e q ml sl
          ((sliceOf e (e.suffix_iindex.getD sid ⟨0, 0⟩)).drop
            (lower_bound e (sliceOf e (e.suffix_iindex.getD sid ⟨0, 0⟩)) q.min_dword_len))
          acc := hr
      have hslice : sliceOf e (e.suffix_iindex.getD sid ⟨0, 0⟩) = [] := by
        rw [List.getD_eq_default e.suffix_iindex ⟨0, 0⟩ (by omega)]
        rfl
      rw [hslice] at hr2
      exact Or.inl hr2
  · rw [if_neg hg] at hr
    exact Or.inl hr

/-- A terminal pop only adds results within the length bounds. -/
theorem popTerminal_mem (e : Engine) (hs : iindexSorted e) (q : Query) (ml : Nat)
    (n : NodeInfo) (acc : List Result) :
    ∀ r ∈ popTerminal e q ml n acc,
      r ∈ acc ∨ okLen e q.min_dword_len q.max_dword_len r := by
  intro r hr
  unfold popTerminal at hr
  split at hr
  · exact retrieve_mem e hs q _ _ _ acc r hr
  · exact Or.inl hr

/-- The BFS loop only adds results within the length bounds. -/
theorem bfgo_mem (e : Engine) (hs : iindexSorted e) (q : Query) (ml : Nat)
    (exc : Option (List Nat)) :
    ∀ (fuel : Nat) (queue : List NodeInfo) (acc : List Result),
      ∀ r ∈ bfgo e q ml exc fuel queue acc,
        r ∈ acc ∨ okLen e q.min_dword_len q.max_dword_len r := by
  intro fuel
  induction fuel with
  | zero => intro queue acc r hr; exact Or.inl hr
  | succ fuel ih =>
    intro queue acc
    cases queue with
    | nil => intro r hr; exact Or.inl hr
    | cons n rest =>
      intro r hr
      simp only [bfgo] at hr
      split at hr
      · exact Or.inl hr
      · split at hr
        · rcases ih rest _ r hr with h | h
          · exact popTerminal_mem e hs q ml n acc r h
          · exact Or.inr h
        · split at hr
          · exact ih _ acc r hr
          · exact ih rest acc r hr

/-- The DFS loop only adds results within the length bounds. -/
theorem dfgo_mem (e : Engine) (hs : iindexSorted e) (q : Query) (ml : Nat)
    (exc : Option (List Nat)) :
    ∀ (fuel : Nat) (queue : List NodeInfo) (acc : List Result),
      ∀ r ∈ dfgo e q ml exc fuel queue acc,
        r ∈ acc ∨ okLen e q.min_dword_len q.max_dword_len r := by
  intro fuel
  induction fuel with
  | zero => intro queue acc r hr; exact Or.inl hr
  | succ fuel ih =>
    intro queue acc
    cases queue with
    | nil => intro r hr; exact Or.inl hr
    | cons n rest =>
      intro r hr
      simp only [dfgo] at hr
      split at hr
      · exact Or.inl hr
      · split at hr
        · rcases ih rest _ r hr with h | h
          · exact popTerminal_mem e hs q ml n acc r h
          · exact Or.inr h
        · split at hr
          · exact ih _ acc r hr
          · exact ih rest acc r hr

/-- Either traversal only adds results within the length bounds. -/
theorem traversal_mem (e : Engine) (hs : iindexSorted e) (q : Query)
    (cur : List Nat) (ml : Nat) (exc : Option (List Nat)) (acc : List Result) :
    (∀ r ∈ bf_traversal e q cur ml exc acc,
      r ∈ acc ∨ okLen e q.min_dword_len q.max_dword_len r) ∧
    (∀ r ∈ df_traversal e q cur ml exc acc,
      r ∈ acc ∨ okLen e q.min_dword_len q.max_dword_len r) := by
  constructor
  · intro r hr
    unfold bf_traversal at hr
    split at hr
    · exact Or.inl hr
    · exact bfgo_mem e hs q ml exc _ _ acc r hr
  · intro r hr
    unfold df_traversal at hr
    split at hr
    · exact Or.inl hr
    · exact dfgo_mem e hs q ml exc _ _ acc r hr

/-- The forward walk only adds results within the length bounds. -/
theorem cwalk_mem (e : Engine) (hs : iindexSorted e) (q : Query) :
    ∀ (fuel : Nat) (cur : List Nat) (ml : Nat) (stk : List (List Nat))
      (acc : List Result),
      ∀ r ∈ (cwalk e q fuel cur ml stk acc).2.2,
        r ∈ acc ∨ okLen e q.min_dword_len q.max_dword_len r := by
  intro fuel
  induction fuel with
  | zero => intro cur ml stk acc r hr; exact Or.inl hr
  | succ fuel ih =>
    intro cur ml stk acc r hr
    rw [cwalk] at hr
    split at hr
    · split at hr
      · exact Or.inl hr
      · split at hr
        · split at hr
          · exact retrieve_mem e hs q _ _ _ acc r hr
          · exact Or.inl hr
        · exact ih _ _ _ acc r hr
    · exact Or.inl hr

/-- Backtracking only adds results within the length bounds. -/
theorem backtrack_mem (e : Engine) (hs : iindexSorted e) (q : Query) :
    ∀ (stk : List (List Nat)) (ml : Nat) (exc : Option (List Nat))
      (acc : List Result),
      ∀ r ∈ backtrack e q stk ml exc acc,
        r ∈ acc ∨ okLen e q.min_dword_len q.max_dword_len r := by
  intro stk
  induction stk with
  | nil => intro ml exc acc r hr; exact Or.inl hr
  | cons cur rest ih =>
    intro ml exc acc r hr
    simp only [backtrack] at hr
    split at hr
    · rcases ih _ _ _ r hr with h | h
      · exact (traversal_mem e hs q cur ml exc acc).2 r h
      · exact Or.inr h
    · rcases ih _ _ _ r hr with h | h
      · exact (traversal_mem e hs q cur ml exc acc).1 r h
      · exact Or.inr h

/-- One `compre_search` call only adds results within the length bounds. -/
theorem compre_mem (e : Engine) (hs : iindexSorted e) (q : Query)
    (acc : List Result) :
    ∀ r ∈ compre_search e q acc,
      r ∈ acc ∨ okLen e q.min_dword_len q.max_dword_len r := by
  intro r hr
  unfold compre_search at hr
  split at hr
  · exact Or.inl hr
  · split at hr
    · exact Or.inl hr
    · rcases backtrack_mem e hs q _ _ none _ r hr with h | h
      · exact cwalk_mem e hs q q.word.length [] 0 [] acc r h
      · exact Or.inr h

/-- The position fold of `search` only adds results within the length
bounds (the per-position subqueries change only `word` and `limit`). -/
theorem spFold_mem (e : Engine) (hs : iindexSorted e) (q : Query) :
    ∀ (l : List Nat) (acc : List Result),
      ∀ r ∈ l.foldl
          (fun acc i =>
            compre_search e
              { q with
                word := q.word.drop i
                limit := if q.average_limit then acc.length + q.limit else q.limit }
              acc)
          acc,
        r ∈ acc ∨ okLen e q.min_dword_len q.max_dword_len r := by
  intro l
  induction l with
  | nil => intro acc r hr; exact Or.inl hr
  | cons i rest ih =>
    intro acc r hr
    rw [List.foldl_cons] at hr
    rcases ih _ r hr with h | h
    · rcases compre_mem e hs _ acc r h with h2 | h2
      · exact Or.inl h2
      · exact Or.inr h2
    · exact Or.inr h

/-- C3: on a loaded engine whose inverted lists are sorted ascending by key
length (the invariant `build` establishes), every result `search` returns
refers to a dictionary word whose key length is at least `min_dword_len`
and at most `max_dword_len`. -/
theorem c3_length_filter (e : Engine) (q : Query) (hs : iindexSorted e) :
    ∀ r ∈ (search e q (some [])).2.getD [],
      okLen e q.min_dword_len q.max_dword_len r := by
  intro r hr
  rw [search_some] at hr
  split at hr
  · exact absurd hr (List.not_mem_nil r)
  · split at hr
    · rcases compre_mem e hs q [] r hr with h | h
      · exact absurd h (List.not_mem_nil r)
      · exact h
    · rcases spFold_mem e hs q (List.range (q.word.length - q.min_common_len + 1)) [] r hr
        with h | h
      · exact absurd h (List.not_mem_nil r)
      · exact h

/-- Witness for C3: the `dictAA` engine satisfies the sortedness invariant,
and its one search result for `word = "aa"` is within the length bounds. -/
theorem c3_witness :
    iindexSorted eAA ∧
    okLen eAA (qAA false).min_dword_len (qAA false).max_dword_len
      ⟨[97, 97], [49], 0, 2⟩ :=
  ⟨by unfold iindexSorted; decide,
   c3_length_filter eAA (qAA false) (by unfold iindexSorted; decide)
     ⟨[97, 97], [49], 0, 2⟩ (by decide)⟩

/-! ## Stable-sort lemmas (towards C5) -/

/-- Inserting only adds the inserted element. -/
theorem insAfter_mem (lt : α → α → Bool) (x : α) :
    ∀ l, ∀ w ∈ insAfter lt x l, w = x ∨ w ∈ l := by
  intro l
  induction l with
  | nil =>
    intro w hw
    simp only [insAfter, List.mem_singleton] at hw
    exact Or.inl hw
  | cons y ys ih =>
    intro w hw
    rw [insAfter] at hw
    split at hw
    · rcases List.mem_cons.mp hw with h | h
      · exact Or.inl h
      · exact Or.inr h
    · rcases List.mem_cons.mp hw with h | h
      · exact Or.inr (by rw [h]; exact List.mem_cons_self y ys)
      · rcases ih w h with h2 | h2
        · exact Or.inl h2
        · exact Or.inr (List.mem_cons_of_mem y h2)

/-- Inserting grows the length by one. -/
theorem insAfter_length (lt : α → α → Bool) (x : α) :
    ∀ l, (insAfter lt x l).length = l.length + 1 := by
  intro l
  induction l with
  | nil => rfl
  | cons y ys ih =>
    rw [insAfter]
    split
    · rfl
    · simp only [List.length_cons, ih]

/-- The stable sort preserves the length. -/
theorem stableSort_length (lt : α → α → Bool) (l : List α) :
    (stableSort lt l).length = l.length := by
  suffices h : ∀ (l acc : List α),
      (l.foldl (fun acc x => insAfter lt x acc) acc).length = acc.length + l.length by
    simpa using h l []
  intro l
  induction l with
  | nil => intro acc; simp
  | cons x xs ih =>
    intro acc
    rw [List.foldl_cons, ih, insAfter_length]
    simp only [List.length_cons]
    omega

/-- The stable sort only has elements of the input. -/
theorem stableSort_mem (lt : α → α → Bool) (l : List α) :
    ∀ w ∈ stableSort lt l, w ∈ l := by
  suffices h : ∀ (l acc : List α), ∀ w ∈ l.foldl (fun acc x => insAfter lt x acc) acc,
      w ∈ acc ∨ w ∈ l by
    intro w hw
    rcases h l [] w hw with h2 | h2
    · exact absurd h2 (List.not_mem_nil w)
    · exact h2
  intro l
  induction l with
  | nil => intro acc w hw; exact Or.inl hw
  | cons x xs ih =>
    intro acc w hw
    rw [List.foldl_cons] at hw
    rcases ih _ w hw with h | h
    · rcases insAfter_mem lt x acc w h with h2 | h2
      · exact Or.inr (by rw [h2]; exact List.mem_cons_self x xs)
      · exact Or.inl h2
    · exact Or.inr (List.mem_cons_of_mem x h)

/-- Inserting into a list sorted by the strict comparator `lt` keeps it
sorted, and the inserted element lands after every element it does not
strictly precede (stability). -/
theorem insAfter_pw (lt : α → α → Bool) (S : α → α → Prop)
    (hasym : ∀ a b, lt a b = true → lt b a = false)
    (htrans : ∀ a b c, lt b a = false → lt c b = false → lt c a = false)
    (hmix : ∀ a b c, lt a b = true → lt c b = false → lt a c = true)
    (x : α) :
    ∀ l, l.Pairwise (fun a b => lt b a = false ∧ (lt a b = false → S a b)) →
      (∀ y ∈ l, S y x) →
      (insAfter lt x l).Pairwise
        (fun a b => lt b a = false ∧ (lt a b = false → S a b)) := by
  intro l
  induction l with
  | nil => intro _ _; exact List.pairwise_singleton _ x
  | cons y ys ih =>
    intro hpw hS
    rcases List.pairwise_cons.mp hpw with ⟨hy, hys⟩
    rw [insAfter]
    split
    · rename_i hxy
      refine List.pairwise_cons.mpr ⟨?_, hpw⟩
      intro w hw
      rcases List.mem_cons.mp hw with h | h
      · rw [h]
        exact ⟨hasym _ _ hxy, fun hf => absurd (hf.symm.trans hxy) Bool.false_ne_true⟩
      · refine ⟨htrans x y w (hasym _ _ hxy) (hy w h).1, fun hf => ?_⟩
        exact absurd (hf.symm.trans (hmix x y w hxy (hy w h).1)) Bool.false_ne_true
    · rename_i hxy
      refine List.pairwise_cons.mpr ⟨?_, ih hys (fun z hz => hS z (List.mem_cons_of_mem y hz))⟩
      intro w hw
      rcases insAfter_mem lt x ys w hw with h | h
      · rw [h]
        exact ⟨Bool.of_not_eq_true hxy, fun _ => hS y (List.mem_cons_self y ys)⟩
      · exact hy w h

/-- Sorting a stream whose original order satisfies `S` yields a list that
is sorted by `lt` and in which elements the comparator cannot tell apart
still satisfy `S` (the stability contract of the insertion sort). -/
theorem stableSort_pw (lt : α → α → Bool) (S : α → α → Prop)
    (hasym : ∀ a b, lt a b = true → lt b a = false)
    (htrans : ∀ a b c, lt b a = false → lt c b = false → lt c a = false)
    (hmix : ∀ a b c, lt a b = true → lt c b = false → lt a c = true)
    (l : List α) (hl : l.Pairwise S) :
    (stableSort lt l).Pairwise
      (fun a b => lt b a = false ∧ (lt a b = false → S a b)) := by
  suffices h : ∀ (l acc : List α), l.Pairwise S →
      acc.Pairwise (fun a b => lt b a = false ∧ (lt a b = false → S a b)) →
      (∀ a ∈ acc, ∀ b ∈ l, S a b) →
      (l.foldl (fun acc x => insAfter lt x acc) acc).Pairwise
        (fun a b => lt b a = false ∧ (lt a b = false → S a b)) by
    exact h l [] hl List.Pairwise.nil (fun a ha => absurd ha (List.not_mem_nil a))
  intro l
  induction l with
  | nil => intro acc _ hacc _; exact hacc
  | cons x xs ih =>
    intro acc hl hacc hcross
    rcases List.pairwise_cons.mp hl with ⟨hx, hxs⟩
    rw [List.foldl_cons]
    refine ih _ hxs
      (insAfter_pw lt S hasym htrans hmix x acc hacc
        (fun y hy => hcross y hy x (List.mem_cons_self x xs))) ?_
    intro a ha b hb
    rcases insAfter_mem lt x acc a ha with h | h
    · rw [h]; exact hx b hb
    · exact hcross a h b (List.mem_cons_of_mem x hb)

/-- `strcmp < 0` is irreflexive. -/
theorem lexLt_irrefl : ∀ a : List Nat, lexLt a a = false := by
  intro a
  induction a with
  | nil => rfl
  | cons x xs ih =>
    rw [lexLt, if_neg (lt_irrefl x), if_neg (lt_irrefl x)]
    exact ih

/-- `strcmp < 0` is transitive. -/
theorem lexLt_trans : ∀ a b c : List Nat,
    lexLt a b = true → lexLt b c = true → lexLt a c = true := by
  intro a
  induction a with
  | nil =>
    intro b c hab hbc
    cases b with
    | nil => exact absurd hab (by simp [lexLt])
    | cons y ys =>
      cases c with
      | nil => exact absurd hbc (by simp [lexLt])
      | cons z zs => rfl
  | cons x xs ih =>
    intro b c hab hbc
    cases b with
    | nil => exact absurd hab (by simp [lexLt])
    | cons y ys =>
      cases c with
      | nil => exact absurd hbc (by simp [lexLt])
      | cons z zs =>
        rw [lexLt] at hab hbc ⊢
        by_cases hxy : x < y
        · rw [if_pos hxy] at hab
          by_cases hyz : y < z
          · rw [if_pos (by omega : x < z)]
          · rw [if_neg hyz] at hbc
            by_cases hzy : z < y
            · rw [if_pos hzy] at hbc
              exact absurd hbc Bool.false_ne_true
            · rw [if_pos (by omega : x < z)]
        · rw [if_neg hxy] at hab
          by_cases hyx : y < x
          · rw [if_pos hyx] at hab
            exact absurd hab Bool.false_ne_true
          · rw [if_neg hyx] at hab
            by_cases hyz : y < z
            · rw [if_pos (by omega : x < z)]
            · rw [if_neg hyz] at hbc
              by_cases hzy : z < y
              · rw [if_pos hzy] at hbc
                exact absurd hbc Bool.false_ne_true
              · rw [if_neg hzy] at hbc
                rw [if_neg (by omega : ¬ x < z), if_neg (by omega : ¬ z < x)]
                exact ih ys zs hab hbc

/-- Two byte strings neither of which `strcmp`-precedes the other are
equal. -/
theorem lexLt_antisymm : ∀ a b : List Nat,
    lexLt a b = false → lexLt b a = false → a = b := by
  intro a
  induction a with
  | nil =>
    intro b hab _
    cases b with
    | nil => rfl
    | cons y ys => exact absurd hab (by simp [lexLt])
  | cons x xs ih =>
    intro b hab hba
    cases b with
    | nil => exact absurd hba (by simp [lexLt])
    | cons y ys =>
      rw [lexLt] at hab hba
      by_cases hxy : x < y
      · rw [if_pos hxy] at hab
        exact absurd hab.symm Bool.false_ne_true
      · by_cases hyx : y < x
        · rw [if_pos hyx] at hba
          exact absurd hba.symm Bool.false_ne_true
        · rw [if_neg hxy, if_neg hyx] at hab
          rw [if_neg hyx, if_neg hxy] at hba
          rw [ih ys hab hba, (by omega : x = y)]

/-- `strcmp < 0` is asymmetric. -/
theorem lexLt_asym (a b : List Nat) (h : lexLt a b = true) : lexLt b a = false := by
  cases h2 : lexLt b a
  · rfl
  · exact absurd (lexLt_trans a b a h h2) (by rw [lexLt_irrefl a]; exact Bool.false_ne_true)

/-- `strcmp ≥ 0` is transitive. -/
theorem lexLt_negtrans (a b c : List Nat)
    (h1 : lexLt b a = false) (h2 : lexLt c b = false) : lexLt c a = false := by
  cases h3 : lexLt c a
  · rfl
  · cases h4 : lexLt a b
    · rw [lexLt_antisymm a b h4 h1] at h3
      rw [h3] at h2
      exact absurd h2.symm Bool.false_ne_true
    · rw [lexLt_trans c a b h3 h4] at h2
      exact absurd h2.symm Bool.false_ne_true

/-- `a < b ≤ c` gives `a < c` for `strcmp` order. -/
theorem lexLt_mixtrans (a b c : List Nat)
    (h1 : lexLt a b = true) (h2 : lexLt c b = false) : lexLt a c = true := by
  cases h3 : lexLt b c
  · rw [lexLt_antisymm b c h3 h2] at h1
    exact h1
  · exact lexLt_trans a b c h1 h3

/-- The dword array sort leaves key lengths nondecreasing. -/
theorem dwords_sorted (dws : List Dword) :
    (stableSort (fun a b : Dword => a.size < b.size) dws).Pairwise
      (fun a b => a.size ≤ b.size) := by
  have h := stableSort_pw (fun a b : Dword => a.size < b.size) (fun _ _ => True)
    (by intro a b h; simp only [decide_eq_true_eq] at h
        simp only [decide_eq_false_iff_not]; omega)
    (by intro a b c h1 h2
        simp only [decide_eq_false_iff_not] at h1 h2 ⊢; omega)
    (by intro a b c h1 h2
        simp only [decide_eq_true_eq] at h1
        simp only [decide_eq_false_iff_not] at h2
        simp only [decide_eq_true_eq]; omega)
    dws (List.pairwise_iff_getElem.mpr (fun _ _ _ _ _ => trivial))
  refine h.imp ?_
  intro a b hab
  have := hab.1
  simp only [decide_eq_false_iff_not] at this
  omega

/-- Key lengths along the sorted dword array are monotone in the index. -/
theorem dwords_size_mono (dws : List Dword) (a b : Nat) (hab : a ≤ b)
    (hb : b < (stableSort (fun x y : Dword => x.size < y.size) dws).length) :
    ((stableSort (fun x y : Dword => x.size < y.size) dws).getD a ⟨0, 0⟩).size ≤
    ((stableSort (fun x y : Dword => x.size < y.size) dws).getD b ⟨0, 0⟩).size := by
  rcases Nat.eq_or_lt_of_le hab with heq | hlt
  · rw [heq]
  · rw [List.getD_eq_getElem _ _ (by omega), List.getD_eq_getElem _ _ hb]
    exact List.pairwise_iff_getElem.mp (dwords_sorted dws) a b (by omega) hb hlt

/-- The suffix-candidate stream has nondecreasing word ids. -/
theorem suffixCands_val_mono (ratio : ℚ) (ms : Nat) (pool : List Nat)
    (dws : List Dword) :
    (suffixCands ratio ms pool dws).Pairwise (fun a b => a.2 ≤ b.2) := by
  refine List.pairwise_flatMap.mpr ⟨?_, ?_⟩
  · intro i _
    refine List.pairwise_map.mpr ?_
    exact List.pairwise_iff_getElem.mpr (fun _ _ _ _ _ => le_refl i)
  · refine (List.pairwise_lt_range _).imp ?_
    intro i j hij x hx y hy
    rcases List.mem_map.mp hx with ⟨j1, _, hj1⟩
    rcases List.mem_map.mp hy with ⟨j2, _, hj2⟩
    rw [← hj1, ← hj2]
    omega

/-- Every suffix-candidate value is a valid index into the dword array. -/
theorem suffixCands_val_lt (ratio : ℚ) (ms : Nat) (pool : List Nat)
    (dws : List Dword) :
    ∀ c ∈ suffixCands ratio ms pool dws, c.2 < dws.length := by
  intro c hc
  rcases List.mem_flatMap.mp hc with ⟨i, hi, hci⟩
  rcases List.mem_map.mp hci with ⟨j, _, hj⟩
  rw [← hj]
  exact List.mem_range.mp hi

/-- The sorted candidate stream: nondecreasing by `strcmp`, and stable, so
equal suffixes keep their nondecreasing word ids. -/
theorem cands_pw (ratio : ℚ) (ms : Nat) (pool : List Nat) (dws : List Dword) :
    (stableSort (fun a b : TrieRec => lexLt a.1 b.1)
        (suffixCands ratio ms pool dws)).Pairwise
      (fun a b => lexLt b.1 a.1 = false ∧ (lexLt a.1 b.1 = false → a.2 ≤ b.2)) :=
  stableSort_pw (fun a b : TrieRec => lexLt a.1 b.1) (fun a b => a.2 ≤ b.2)
    (fun a b h => lexLt_asym a.1 b.1 h)
    (fun a b c h1 h2 => lexLt_negtrans a.1 b.1 c.1 h1 h2)
    (fun a b c h1 h2 => lexLt_mixtrans a.1 b.1 c.1 h1 h2)
    (suffixCands ratio ms pool dws) (suffixCands_val_mono ratio ms pool dws)

/-- A slice wholly inside the prefix is unaffected by what follows it. -/
theorem slice_append_frozen (A B : List Nat) (o s : Nat) (h : o + s ≤ A.length) :
    ((A ++ B).drop o).take s = (A.drop o).take s := by
  rw [List.drop_append_of_le_length (by omega),
    List.take_append_of_le_length (by rw [List.length_drop]; omega)]

/-- Appending one element to the pool extends the slice that ends at the
pool's end. -/
theorem slice_snoc (A : List Nat) (x o s : Nat) (h : o + s = A.length) :
    ((A ++ [x]).drop o).take (s + 1) = A.drop o ++ [x] := by
  rw [List.drop_append_of_le_length (by omega)]
  refine List.take_of_length_le ?_
  rw [List.length_append, List.length_drop]
  simp
  omega

/-- The per-list id sort of `build` leaves the ids nondecreasing. -/
theorem natSort_sorted (l : List Nat) :
    (stableSort (fun a b : Nat => a < b) l).Pairwise (fun a b => a ≤ b) := by
  have h := stableSort_pw (fun a b : Nat => a < b) (fun _ _ => True)
    (by intro a b h; simp only [decide_eq_true_eq] at h
        simp only [decide_eq_false_iff_not]; omega)
    (by intro a b c h1 h2
        simp only [decide_eq_false_iff_not] at h1 h2 ⊢; omega)
    (by intro a b c h1 h2
        simp only [decide_eq_true_eq] at h1
        simp only [decide_eq_false_iff_not] at h2
        simp only [decide_eq_true_eq]; omega)
    l (List.pairwise_iff_getElem.mpr (fun _ _ _ _ _ => trivial))
  refine h.imp ?_
  intro a b hab
  have := hab.1
  simp only [decide_eq_false_iff_not] at this
  omega

/-- The dedup/inverted-list loop invariant: starting from a state whose
runs are contiguous in the pool with the current run at the pool's end,
all run slices sorted, and every id the current run may still receive (a
coming candidate of the same suffix) at least as large as its content,
every descriptor's slice stays sorted and every pooled id stays below `N`. -/
theorem dedup_fold_inv (N : Nat) :
    ∀ (rem : List TrieRec) (st : DedupSt),
      rem.Pairwise (fun a b => lexLt b.1 a.1 = false ∧ (lexLt a.1 b.1 = false → a.2 ≤ b.2)) →
      (∀ c ∈ rem, c.2 < N) →
      st.recs.length = st.i + 1 →
      st.i + rem.length < st.iidx.length →
      (st.iidx.getD st.i ⟨0, 0⟩).offset + (st.iidx.getD st.i ⟨0, 0⟩).size =
        st.wpool.length →
      (∀ k, k < st.iidx.length → k ≠ st.i →
        (st.iidx.getD k ⟨0, 0⟩).offset + (st.iidx.getD k ⟨0, 0⟩).size ≤
          (st.iidx.getD st.i ⟨0, 0⟩).offset) →
      (∀ k, k < st.iidx.length →
        ((st.wpool.drop (st.iidx.getD k ⟨0, 0⟩).offset).take
          (st.iidx.getD k ⟨0, 0⟩).size).Pairwise (fun a b => a ≤ b)) →
      (∀ x ∈ st.wpool, x < N) →
      (∀ x ∈ (st.wpool.drop (st.iidx.getD st.i ⟨0, 0⟩).offset).take
          (st.iidx.getD st.i ⟨0, 0⟩).size,
        ∀ c ∈ rem, c.1 = (st.recs.getD st.i ([], 0)).1 → x ≤ c.2) →
      (rem.foldl dedupStep st).iidx.length = st.iidx.length ∧
      (∀ k, k < (rem.foldl dedupStep st).iidx.length →
        (((rem.foldl dedupStep st).wpool.drop
            ((rem.foldl dedupStep st).iidx.getD k ⟨0, 0⟩).offset).take
          ((rem.foldl dedupStep st).iidx.getD k ⟨0, 0⟩).size).Pairwise
          (fun a b => a ≤ b)) ∧
      (∀ x ∈ (rem.foldl dedupStep st).wpool, x < N) := by
  intro rem
  induction rem with
  | nil =>
    intro st _ _ _ _ _ _ hsort hwp _
    exact ⟨rfl, hsort, hwp⟩
  | cons c rem ih =>
    intro st hpw hbnd hrecs hcount hcur hclosed hsort hwp hfut
    rcases List.pairwise_cons.mp hpw with ⟨hcrem, hpw2⟩
    simp only [List.length_cons] at hcount
    have hii : st.i < st.iidx.length := by omega
    rw [List.foldl_cons]
    by_cases hkey : c.1 = (st.recs.getD st.i ([], 0)).1
    · -- same suffix: the candidate id joins the current run
      have hst1 : dedupStep st c =
          { recs := st.recs
            wpool := st.wpool ++ [c.2]
            iidx := st.iidx.set st.i
              ⟨(st.iidx.getD st.i ⟨0, 0⟩).offset,
               (st.iidx.getD st.i ⟨0, 0⟩).size + 1⟩
            i := st.i } := by
        rw [dedupStep, if_pos hkey]
      rw [hst1]
      have hLset : (st.iidx.set st.i
          ⟨(st.iidx.getD st.i ⟨0, 0⟩).offset,
           (st.iidx.getD st.i ⟨0, 0⟩).size + 1⟩).length = st.iidx.length :=
        List.length_set _ _ _
      have hself : (st.iidx.set st.i
          ⟨(st.iidx.getD st.i ⟨0, 0⟩).offset,
           (st.iidx.getD st.i ⟨0, 0⟩).size + 1⟩).getD st.i ⟨0, 0⟩ =
          ⟨(st.iidx.getD st.i ⟨0, 0⟩).offset,
           (st.iidx.getD st.i ⟨0, 0⟩).size + 1⟩ := by
        rw [List.getD_eq_getElem _ _ (by rw [hLset]; exact hii), List.getElem_set,
          if_pos rfl]
      have hother : ∀ k, k < st.iidx.length → k ≠ st.i →
          (st.iidx.set st.i
            ⟨(st.iidx.getD st.i ⟨0, 0⟩).offset,
             (st.iidx.getD st.i ⟨0, 0⟩).size + 1⟩).getD k ⟨0, 0⟩ =
          st.iidx.getD k ⟨0, 0⟩ := by
        intro k hk hne
        rw [List.getD_eq_getElem _ _ (by rw [hLset]; exact hk), List.getElem_set,
          if_neg (fun h => hne h.symm), List.getD_eq_getElem _ _ hk]
      have hfull : (st.wpool.drop (st.iidx.getD st.i ⟨0, 0⟩).offset).take
          (st.iidx.getD st.i ⟨0, 0⟩).size =
          st.wpool.drop (st.iidx.getD st.i ⟨0, 0⟩).offset :=
        List.take_of_length_le (by rw [List.length_drop]; omega)
      have hbnd1 : ∀ d ∈ rem, d.2 < N := fun d hd => hbnd d (List.mem_cons_of_mem c hd)
      have hcount1 : st.i + rem.length < (st.iidx.set st.i
          ⟨(st.iidx.getD st.i ⟨0, 0⟩).offset,
           (st.iidx.getD st.i ⟨0, 0⟩).size + 1⟩).length := by
        rw [hLset]; omega
      have hcur1 : ((st.iidx.set st.i
            ⟨(st.iidx.getD st.i ⟨0, 0⟩).offset,
             (st.iidx.getD st.i ⟨0, 0⟩).size + 1⟩).getD st.i ⟨0, 0⟩).offset +
          ((st.iidx.set st.i
            ⟨(st.iidx.getD st.i ⟨0, 0⟩).offset,
             (st.iidx.getD st.i ⟨0, 0⟩).size + 1⟩).getD st.i ⟨0, 0⟩).size =
          (st.wpool ++ [c.2]).length := by
        rw [hself, List.length_append]
        show (st.iidx.getD st.i ⟨0, 0⟩).offset +
          ((st.iidx.getD st.i ⟨0, 0⟩).size + 1) = st.wpool.length + 1
        omega
      have hclosed1 : ∀ k, k < (st.iidx.set st.i
            ⟨(st.iidx.getD st.i ⟨0, 0⟩).offset,
             (st.iidx.getD st.i ⟨0, 0⟩).size + 1⟩).length → k ≠ st.i →
          ((st.iidx.set st.i
            ⟨(st.iidx.getD st.i ⟨0, 0⟩).offset,
             (st.iidx.getD st.i ⟨0, 0⟩).size + 1⟩).getD k ⟨0, 0⟩).offset +
          ((st.iidx.set st.i
            ⟨(st.iidx.getD st.i ⟨0, 0⟩).offset,
             (st.iidx.getD st.i ⟨0, 0⟩).size + 1⟩).getD k ⟨0, 0⟩).size ≤
          ((st.iidx.set st.i
            ⟨(st.iidx.getD st.i ⟨0, 0⟩).offset,
             (st.iidx.getD st.i ⟨0, 0⟩).size + 1⟩).getD st.i ⟨0, 0⟩).offset := by
        intro k hk hne
        rw [hLset] at hk
        rw [hother k hk hne, hself]
        show _ ≤ (st.iidx.getD st.i ⟨0, 0⟩).offset
        exact hclosed k hk hne
      have hsort1 : ∀ k, k < (st.iidx.set st.i
            ⟨(st.iidx.getD st.i ⟨0, 0⟩).offset,
             (st.iidx.getD st.i ⟨0, 0⟩).size + 1⟩).length →
          (((st.wpool ++ [c.2]).drop
              ((st.iidx.set st.i
                ⟨(st.iidx.getD st.i ⟨0, 0⟩).offset,
                 (st.iidx.getD st.i ⟨0, 0⟩).size + 1⟩).getD k ⟨0, 0⟩).offset).take
            ((st.iidx.set st.i
              ⟨(st.iidx.getD st.i ⟨0, 0⟩).offset,
               (st.iidx.getD st.i ⟨0, 0⟩).size + 1⟩).getD k ⟨0, 0⟩).size).Pairwise
            (fun a b => a ≤ b) := by
        intro k hk
        rw [hLset] at hk
        by_cases hki : k = st.i
        · subst hki
          rw [hself]
          show (((st.wpool ++ [c.2]).drop (st.iidx.getD st.i ⟨0, 0⟩).offset).take
            ((st.iidx.getD st.i ⟨0, 0⟩).size + 1)).Pairwise (fun a b => a ≤ b)
          rw [slice_snoc _ _ _ _ hcur]
          refine List.pairwise_append.mpr ⟨?_, List.pairwise_singleton _ _, ?_⟩
          · rw [← hfull]; exact hsort st.i hii
          · intro a ha b hb
            rw [List.mem_singleton.mp hb]
            refine hfut a ?_ c (List.mem_cons_self c rem) hkey
            rw [hfull]; exact ha
        · rw [hother k hk hki]
          rw [slice_append_frozen _ _ _ _
            (le_trans (hclosed k hk hki) (by omega))]
          exact hsort k hk
      have hwp1 : ∀ x ∈ st.wpool ++ [c.2], x < N := by
        intro x hx
        rcases List.mem_append.mp hx with h | h
        · exact hwp x h
        · rw [List.mem_singleton.mp h]
          exact hbnd c (List.mem_cons_self c rem)
      have hfut1 : ∀ x ∈ ((st.wpool ++ [c.2]).drop
            ((st.iidx.set st.i
              ⟨(st.iidx.getD st.i ⟨0, 0⟩).offset,
               (st.iidx.getD st.i ⟨0, 0⟩).size + 1⟩).getD st.i ⟨0, 0⟩).offset).take
          ((st.iidx.set st.i
            ⟨(st.iidx.getD st.i ⟨0, 0⟩).offset,
             (st.iidx.getD st.i ⟨0, 0⟩).size + 1⟩).getD st.i ⟨0, 0⟩).size,
          ∀ d ∈ rem, d.1 = (st.recs.getD st.i ([], 0)).1 → x ≤ d.2 := by
        intro x hx d hd hdkey
        rw [hself] at hx
        have hx2 : x ∈ ((st.wpool ++ [c.2]).drop
            (st.iidx.getD st.i ⟨0, 0⟩).offset).take
            ((st.iidx.getD st.i ⟨0, 0⟩).size + 1) := hx
        rw [slice_snoc _ _ _ _ hcur] at hx2
        rcases List.mem_append.mp hx2 with h | h
        · refine hfut x ?_ d (List.mem_cons_of_mem c hd) hdkey
          rw [hfull]; exact h
        · rw [List.mem_singleton.mp h]
          refine (hcrem d hd).2 ?_
          rw [hkey, hdkey]
          exact lexLt_irrefl _
      obtain ⟨ihA, ihB, ihC⟩ :=
        ih { recs := st.recs
             wpool := st.wpool ++ [c.2]
             iidx := st.iidx.set st.i
               ⟨(st.iidx.getD st.i ⟨0, 0⟩).offset,
                (st.iidx.getD st.i ⟨0, 0⟩).size + 1⟩
             i := st.i }
          hpw2 hbnd1 hrecs hcount1 hcur1 hclosed1 hsort1 hwp1 hfut1
      exact ⟨ihA.trans hLset, ihB, ihC⟩
    · -- new suffix: sort the current run and open a new one
      have hsw0 : (sortRun st).wpool =
          st.wpool.take (st.iidx.getD st.i ⟨0, 0⟩).offset ++
            stableSort (fun a b : Nat => a < b)
              (st.wpool.drop (st.iidx.getD st.i ⟨0, 0⟩).offset) := rfl
      have hslen : (stableSort (fun a b : Nat => a < b)
          (st.wpool.drop (st.iidx.getD st.i ⟨0, 0⟩).offset)).length =
          st.wpool.length - (st.iidx.getD st.i ⟨0, 0⟩).offset := by
        rw [stableSort_length, List.length_drop]
      have hto : (st.wpool.take (st.iidx.getD st.i ⟨0, 0⟩).offset).length =
          (st.iidx.getD st.i ⟨0, 0⟩).offset := by
        rw [List.length_take]; omega
      have hsw : (sortRun st).wpool.length = st.wpool.length := by
        rw [hsw0, List.length_append, hslen, hto]
        omega
      have hst1 : dedupStep st c =
          { recs := st.recs ++ [(c.1, st.i + 1)]
            wpool := (sortRun st).wpool ++ [c.2]
            iidx := st.iidx.set (st.i + 1) ⟨st.wpool.length, 1⟩
            i := st.i + 1 } := by
        rw [dedupStep, if_neg hkey, hsw]
        rfl
      rw [hst1]
      have hi1 : st.i + 1 < st.iidx.length := by omega
      have hLset : (st.iidx.set (st.i + 1) ⟨st.wpool.length, 1⟩).length =
          st.iidx.length := List.length_set _ _ _
      have hself : (st.iidx.set (st.i + 1) ⟨st.wpool.length, 1⟩).getD (st.i + 1)
          ⟨0, 0⟩ = ⟨st.wpool.length, 1⟩ := by
        rw [List.getD_eq_getElem _ _ (by rw [hLset]; exact hi1), List.getElem_set,
          if_pos rfl]
      have hother : ∀ k, k < st.iidx.length → k ≠ st.i + 1 →
          (st.iidx.set (st.i + 1) ⟨st.wpool.length, 1⟩).getD k ⟨0, 0⟩ =
          st.iidx.getD k ⟨0, 0⟩ := by
        intro k hk hne
        rw [List.getD_eq_getElem _ _ (by rw [hLset]; exact hk), List.getElem_set,
          if_neg (fun h => hne h.symm), List.getD_eq_getElem _ _ hk]
      have hslice_new : (((sortRun st).wpool ++ [c.2]).drop st.wpool.length).take 1 =
          [c.2] := by
        rw [List.drop_append_of_le_length (le_of_eq hsw.symm)]
        rw [show (sortRun st).wpool.drop st.wpool.length = [] from
          List.drop_eq_nil_of_le (le_of_eq hsw)]
        rfl
      have hslice_i : (((sortRun st).wpool ++ [c.2]).drop
            (st.iidx.getD st.i ⟨0, 0⟩).offset).take
          (st.iidx.getD st.i ⟨0, 0⟩).size =
          stableSort (fun a b : Nat => a < b)
            (st.wpool.drop (st.iidx.getD st.i ⟨0, 0⟩).offset) := by
        rw [hsw0, List.append_assoc]
        rw [List.drop_append_of_le_length (le_of_eq hto.symm)]
        rw [show (st.wpool.take (st.iidx.getD st.i ⟨0, 0⟩).offset).drop
            (st.iidx.getD st.i ⟨0, 0⟩).offset = [] from
          List.drop_eq_nil_of_le (le_of_eq hto)]
        rw [List.nil_append]
        rw [List.take_append_of_le_length (by rw [hslen]; omega)]
        exact List.take_of_length_le (by rw [hslen]; omega)
      have hfrozen : ∀ o2 s2, o2 + s2 ≤ (st.iidx.getD st.i ⟨0, 0⟩).offset →
          (((sortRun st).wpool ++ [c.2]).drop o2).take s2 =
          (st.wpool.drop o2).take s2 := by
        intro o2 s2 h2
        rw [hsw0, List.append_assoc]
        rw [slice_append_frozen _ _ _ _ (by rw [hto]; exact h2)]
        conv_rhs => rw [← List.take_append_drop (st.iidx.getD st.i ⟨0, 0⟩).offset
          st.wpool]
        rw [slice_append_frozen _ _ _ _ (by rw [hto]; exact h2)]
      have hrecsD : (st.recs ++ [(c.1, st.i + 1)]).getD (st.i + 1) ([], 0) =
          (c.1, st.i + 1) := by
        rw [← hrecs, List.getD_eq_getElem _ _
          (by rw [List.length_append]; simp),
          List.getElem_concat_length _ _ _ rfl]
      have hbnd1 : ∀ d ∈ rem, d.2 < N := fun d hd => hbnd d (List.mem_cons_of_mem c hd)
      have hrecs1 : (st.recs ++ [(c.1, st.i + 1)]).length = (st.i + 1) + 1 := by
        rw [List.length_append, hrecs]
        rfl
      have hcount1 : (st.i + 1) + rem.length <
          (st.iidx.set (st.i + 1) ⟨st.wpool.length, 1⟩).length := by
        rw [hLset]; omega
      have hcur1 : ((st.iidx.set (st.i + 1) ⟨st.wpool.length, 1⟩).getD (st.i + 1)
            ⟨0, 0⟩).offset +
          ((st.iidx.set (st.i + 1) ⟨st.wpool.length, 1⟩).getD (st.i + 1)
            ⟨0, 0⟩).size = ((sortRun st).wpool ++ [c.2]).length := by
        rw [hself, List.length_append, hsw]
        rfl
      have hclosed1 : ∀ k, k < (st.iidx.set (st.i + 1)
            ⟨st.wpool.length, 1⟩).length → k ≠ st.i + 1 →
          ((st.iidx.set (st.i + 1) ⟨st.wpool.length, 1⟩).getD k ⟨0, 0⟩).offset +
          ((st.iidx.set (st.i + 1) ⟨st.wpool.length, 1⟩).getD k ⟨0, 0⟩).size ≤
          ((st.iidx.set (st.i + 1) ⟨st.wpool.length, 1⟩).getD (st.i + 1)
            ⟨0, 0⟩).offset := by
        intro k hk hne
        rw [hLset] at hk
        rw [hother k hk hne, hself]
        show _ ≤ st.wpool.length
        by_cases hki : k = st.i
        · subst hki; omega
        · exact le_trans (hclosed k hk hki) (by omega)
      have hsort1 : ∀ k, k < (st.iidx.set (st.i + 1)
            ⟨st.wpool.length, 1⟩).length →
          ((((sortRun st).wpool ++ [c.2]).drop
              ((st.iidx.set (st.i + 1) ⟨st.wpool.length, 1⟩).getD k
                ⟨0, 0⟩).offset).take
            ((st.iidx.set (st.i + 1) ⟨st.wpool.length, 1⟩).getD k
              ⟨0, 0⟩).size).Pairwise (fun a b => a ≤ b) := by
        intro k hk
        rw [hLset] at hk
        by_cases hk1 : k = st.i + 1
        · subst hk1
          rw [hself]
          show ((((sortRun st).wpool ++ [c.2]).drop st.wpool.length).take 1).Pairwise
            (fun a b => a ≤ b)
          rw [hslice_new]
          exact List.pairwise_singleton _ _
        · rw [hother k hk hk1]
          by_cases hki : k = st.i
          · subst hki
            rw [hslice_i]
            exact natSort_sorted _
          · rw [hfrozen _ _ (hclosed k hk hki)]
            exact hsort k hk
      have hwp1 : ∀ x ∈ (sortRun st).wpool ++ [c.2], x < N := by
        intro x hx
        rcases List.mem_append.mp hx with h | h
        · rw [hsw0] at h
          rcases List.mem_append.mp h with h2 | h2
          · exact hwp x (List.mem_of_mem_take h2)
          · exact hwp x (List.mem_of_mem_drop (stableSort_mem _ _ x h2))
        · rw [List.mem_singleton.mp h]
          exact hbnd c (List.mem_cons_self c rem)
      have hfut1 : ∀ x ∈ (((sortRun st).wpool ++ [c.2]).drop
            ((st.iidx.set (st.i + 1) ⟨st.wpool.length, 1⟩).getD (st.i + 1)
              ⟨0, 0⟩).offset).take
          ((st.iidx.set (st.i + 1) ⟨st.wpool.length, 1⟩).getD (st.i + 1)
            ⟨0, 0⟩).size,
          ∀ d ∈ rem,
            d.1 = ((st.recs ++ [(c.1, st.i + 1)]).getD (st.i + 1) ([], 0)).1 →
            x ≤ d.2 := by
        intro x hx d hd hdkey
        rw [hself] at hx
        have hx2 : x ∈ (((sortRun st).wpool ++ [c.2]).drop st.wpool.length).take 1 :=
          hx
        rw [hslice_new] at hx2
        rw [List.mem_singleton.mp hx2]
        refine (hcrem d hd).2 ?_
        rw [hrecsD] at hdkey
        rw [hdkey]
        exact lexLt_irrefl _
      obtain ⟨ihA, ihB, ihC⟩ :=
        ih { recs := st.recs ++ [(c.1, st.i + 1)]
             wpool := (sortRun st).wpool ++ [c.2]
             iidx := st.iidx.set (st.i + 1) ⟨st.wpool.length, 1⟩
             i := st.i + 1 }
          hpw2 hbnd1 hrecs1 hcount1 hcur1 hclosed1 hsort1 hwp1 hfut1
      exact ⟨ihA.trans hLset, ihB, ihC⟩

/-- The dedup loop of `build` leaves every descriptor's slice sorted
ascending by word id, and every pooled id below the candidate value
bound. -/
theorem dedup_slices_sorted (N : Nat) (cands : List TrieRec)
    (hpw : cands.Pairwise
      (fun a b => lexLt b.1 a.1 = false ∧ (lexLt a.1 b.1 = false → a.2 ≤ b.2)))
    (hbnd : ∀ c ∈ cands, c.2 < N) :
    (∀ k, k < (dedup cands).iidx.length →
      (((dedup cands).wpool.drop ((dedup cands).iidx.getD k ⟨0, 0⟩).offset).take
        ((dedup cands).iidx.getD k ⟨0, 0⟩).size).Pairwise (fun a b => a ≤ b)) ∧
    (∀ x ∈ (dedup cands).wpool, x < N) := by
  match cands, hpw, hbnd with
  | [], _, _ =>
    constructor
    · intro k hk
      rw [show (dedup []).wpool = ([] : List Nat) from rfl, List.drop_nil,
        List.take_nil]
      exact List.Pairwise.nil
    · intro x hx
      rw [show (dedup []).wpool = ([] : List Nat) from rfl] at hx
      exact absurd hx (List.not_mem_nil x)
  | c0 :: rest, hpw, hbnd =>
    by_cases hr : rest = []
    · subst hr
      constructor
      · intro k hk
        rw [show (dedup [c0]).wpool = ([] : List Nat) from rfl, List.drop_nil,
          List.take_nil]
        exact List.Pairwise.nil
      · intro x hx
        rw [show (dedup [c0]).wpool = ([] : List Nat) from rfl] at hx
        exact absurd hx (List.not_mem_nil x)
    · have hd : dedup (c0 :: rest) = rest.foldl dedupStep
          { recs := [(c0.1, 0)]
            wpool := [c0.2]
            iidx := (List.replicate (c0 :: rest).length (⟨0, 0⟩ : DwList)).set 0 ⟨0, 1⟩
            i := 0 } := by
        rw [dedup, if_neg hr]
      have hlen0 : ((List.replicate (c0 :: rest).length (⟨0, 0⟩ : DwList)).set 0
          ⟨0, 1⟩).length = rest.length + 1 := by
        rw [List.length_set, List.length_replicate, List.length_cons]
      have hg0 : ((List.replicate (c0 :: rest).length (⟨0, 0⟩ : DwList)).set 0 ⟨0, 1⟩).getD 0
          ⟨0, 0⟩ = ⟨0, 1⟩ := by
        rw [List.getD_eq_getElem _ _ (by rw [hlen0]; omega), List.getElem_set,
          if_pos rfl]
      have hgk : ∀ k, k < ((List.replicate (c0 :: rest).length (⟨0, 0⟩ : DwList)).set 0
            ⟨0, 1⟩).length → k ≠ 0 →
          ((List.replicate (c0 :: rest).length (⟨0, 0⟩ : DwList)).set 0 ⟨0, 1⟩).getD k ⟨0, 0⟩ =
          ⟨0, 0⟩ := by
        intro k hk hne
        rw [List.getD_eq_getElem _ _ hk, List.getElem_set,
          if_neg (fun h => hne h.symm), List.getElem_replicate]
      rcases List.pairwise_cons.mp hpw with ⟨hc0, hpw2⟩
      have h4 : (0 : Nat) + rest.length < ((List.replicate (c0 :: rest).length
          (⟨0, 0⟩ : DwList)).set 0 ⟨0, 1⟩).length := by
        rw [hlen0]; omega
      have h5 : (((List.replicate (c0 :: rest).length (⟨0, 0⟩ : DwList)).set 0 ⟨0, 1⟩).getD 0
            ⟨0, 0⟩).offset +
          (((List.replicate (c0 :: rest).length (⟨0, 0⟩ : DwList)).set 0 ⟨0, 1⟩).getD 0
            ⟨0, 0⟩).size = ([c0.2] : List Nat).length := by
        rw [hg0]
        rfl
      have h6 : ∀ k, k < ((List.replicate (c0 :: rest).length (⟨0, 0⟩ : DwList)).set 0
            ⟨0, 1⟩).length → k ≠ 0 →
          (((List.replicate (c0 :: rest).length (⟨0, 0⟩ : DwList)).set 0 ⟨0, 1⟩).getD k
            ⟨0, 0⟩).offset +
          (((List.replicate (c0 :: rest).length (⟨0, 0⟩ : DwList)).set 0 ⟨0, 1⟩).getD k
            ⟨0, 0⟩).size ≤
          (((List.replicate (c0 :: rest).length (⟨0, 0⟩ : DwList)).set 0 ⟨0, 1⟩).getD 0
            ⟨0, 0⟩).offset := by
        intro k hk hne
        rw [hgk k hk hne, hg0]
        exact Nat.le_refl 0
      have h7 : ∀ k, k < ((List.replicate (c0 :: rest).length (⟨0, 0⟩ : DwList)).set 0
            ⟨0, 1⟩).length →
          ((([c0.2] : List Nat).drop
              (((List.replicate (c0 :: rest).length (⟨0, 0⟩ : DwList)).set 0 ⟨0, 1⟩).getD k
                ⟨0, 0⟩).offset).take
            (((List.replicate (c0 :: rest).length (⟨0, 0⟩ : DwList)).set 0 ⟨0, 1⟩).getD k
              ⟨0, 0⟩).size).Pairwise (fun a b => a ≤ b) := by
        intro k hk
        by_cases hk0 : k = 0
        · subst hk0
          rw [hg0]
          exact List.pairwise_singleton _ _
        · rw [hgk k hk hk0]
          exact List.Pairwise.nil
      have h8 : ∀ x ∈ ([c0.2] : List Nat), x < N := by
        intro x hx
        rw [List.mem_singleton.mp hx]
        exact hbnd c0 (List.mem_cons_self c0 rest)
      have h9 : ∀ x ∈ (([c0.2] : List Nat).drop
            (((List.replicate (c0 :: rest).length (⟨0, 0⟩ : DwList)).set 0 ⟨0, 1⟩).getD 0
              ⟨0, 0⟩).offset).take
          (((List.replicate (c0 :: rest).length (⟨0, 0⟩ : DwList)).set 0 ⟨0, 1⟩).getD 0
            ⟨0, 0⟩).size,
          ∀ d ∈ rest, d.1 = (([(c0.1, 0)] : List TrieRec).getD 0 ([], 0)).1 →
            x ≤ d.2 := by
        intro x hx d hd hdkey
        rw [hg0] at hx
        rw [List.mem_singleton.mp hx]
        refine (hc0 d hd).2 ?_
        rw [hdkey]
        exact lexLt_irrefl _
      obtain ⟨ihA, ihB, ihC⟩ := dedup_fold_inv N rest
        { recs := [(c0.1, 0)]
          wpool := [c0.2]
          iidx := (List.replicate (c0 :: rest).length (⟨0, 0⟩ : DwList)).set 0 ⟨0, 1⟩
          i := 0 }
        hpw2 (fun d hd => hbnd d (List.mem_cons_of_mem c0 hd)) rfl h4 h5 h6 h7 h8 h9
      rw [hd]
      exact ⟨ihB, ihC⟩

/-- Under the stable tie order that `buildCore` fixes for the suffix
`std::sort` — one legal refinement of the unspecified equal-suffix
order — every slice of the dword-id pool that an inverted-index
descriptor denotes after `build` is sorted ascending by the key length of
the dictionary word each id points at, including the slice of the last
deduplicated suffix, which the dedup loop never sorts: the stable
lexicographic sort keeps equal suffixes in word-id order and ids
enumerate the length-sorted dword array.  (This relies on the stability
choice; `c5_last_run_unsorted` shows the other tie orders do not grant
it.) -/
theorem c5_inverted_sorted (ratio : ℚ) (ms : Nat) (lines : List (List Nat)) :
    iindexSorted (build ratio ms lines).2 := by
  intro dl hdl
  obtain ⟨k, hk, hget⟩ := List.mem_iff_getElem.mp hdl
  obtain ⟨hslices, hbound⟩ := dedup_slices_sorted
    (stableSort (fun a b : Dword => a.size < b.size)
      (lines.foldl poolStep ⟨[], 0, []⟩).dws).length
    (stableSort (fun a b : TrieRec => lexLt a.1 b.1)
      (suffixCands ratio ms (lines.foldl poolStep ⟨[], 0, []⟩).pool
        (stableSort (fun a b : Dword => a.size < b.size)
          (lines.foldl poolStep ⟨[], 0, []⟩).dws)))
    (cands_pw ratio ms (lines.foldl poolStep ⟨[], 0, []⟩).pool
      (stableSort (fun a b : Dword => a.size < b.size)
        (lines.foldl poolStep ⟨[], 0, []⟩).dws))
    (fun c hc => suffixCands_val_lt ratio ms _ _ c (stableSort_mem _ _ c hc))
  have hk2 : k < (dedup (stableSort (fun a b : TrieRec => lexLt a.1 b.1)
      (suffixCands ratio ms (lines.foldl poolStep ⟨[], 0, []⟩).pool
        (stableSort (fun a b : Dword => a.size < b.size)
          (lines.foldl poolStep ⟨[], 0, []⟩).dws)))).iidx.length := hk
  have hget2 : (dedup (stableSort (fun a b : TrieRec => lexLt a.1 b.1)
      (suffixCands ratio ms (lines.foldl poolStep ⟨[], 0, []⟩).pool
        (stableSort (fun a b : Dword => a.size < b.size)
          (lines.foldl poolStep ⟨[], 0, []⟩).dws)))).iidx.getD k ⟨0, 0⟩ = dl := by
    rw [List.getD_eq_getElem _ _ hk2]
    exact hget
  have hsl := hslices k hk2
  rw [hget2] at hsl
  rw [List.pairwise_map]
  have hp : (sliceOf (build ratio ms lines).2 dl).Pairwise (fun a b => a ≤ b) := hsl
  refine List.Pairwise.imp_of_mem ?_ hp
  intro a b ha hb hab
  have hbN : b < (stableSort (fun a b : Dword => a.size < b.size)
      (lines.foldl poolStep ⟨[], 0, []⟩).dws).length :=
    hbound b (List.mem_of_mem_drop (List.mem_of_mem_take hb))
  exact dwords_size_mono (lines.foldl poolStep ⟨[], 0, []⟩).dws a b hab hbN

/-- C5: the slice-sortedness invariant is not guaranteed by the program —
it depends on how `std::sort` ordered equal suffixes, which C++ leaves
unspecified, because the dedup loop never sorts the final inverted run.
On the dictionary {"zz", "azz"} (ratio 1/2, min suffix 2): (1) `build` is
exactly `buildWith` applied to the stable tie order, the one the
embedding fixes; (2) `candsZZalt` is a permutation of those sorted
candidates that (3) is itself sorted by the suffix comparison — hence an
equally legal `std::sort` output, differing only in the order of the two
equal "zz" suffixes; yet (4) in the engine the rest of the pipeline
builds from it, the slice of the last descriptor written (index `i = 1`)
maps to key lengths [3, 2], so (5) the inverted index is not sorted.  A
conforming `std::sort` is free to produce this order, so the invariant
claimed for every slice fails on the last one. -/
theorem c5_last_run_unsorted :
    (build ratHalf 2 dictZZ).2 =
      buildWith ratHalf 2 dictZZ
        (stableSort (fun a b : TrieRec => lexLt a.1 b.1)
          (suffixCands ratHalf 2 (dictZZ.foldl poolStep ⟨[], 0, []⟩).pool
            (stableSort (fun a b : Dword => a.size < b.size)
              (dictZZ.foldl poolStep ⟨[], 0, []⟩).dws))) ∧
    candsZZalt.Perm
      (stableSort (fun a b : TrieRec => lexLt a.1 b.1)
        (suffixCands ratHalf 2 (dictZZ.foldl poolStep ⟨[], 0, []⟩).pool
          (stableSort (fun a b : Dword => a.size < b.size)
            (dictZZ.foldl poolStep ⟨[], 0, []⟩).dws))) ∧
    candsZZalt.Pairwise (fun a b => lexLt b.1 a.1 = false) ∧
    ((sliceOf (buildWith ratHalf 2 dictZZ candsZZalt)
          ((buildWith ratHalf 2 dictZZ candsZZalt).suffix_iindex.getD 1 ⟨0, 0⟩)).map
        (fun id => (dwAt (buildWith ratHalf 2 dictZZ candsZZalt) id).size)) = [3, 2] ∧
    ¬ iindexSorted (buildWith ratHalf 2 dictZZ candsZZalt) := by
  refine ⟨rfl, by decide, by decide, by decide, ?_⟩
  intro h
  have h2 := h ((buildWith ratHalf 2 dictZZ candsZZalt).suffix_iindex.getD 1 ⟨0, 0⟩)
    (by decide)
  revert h2
  decide

/-! ## Traversal fuel measure (towards C4) -/

/-- Pointwise bound on mapped sums. -/
theorem sum_map_le_of_mem (l : List α) (f g : α → Nat)
    (h : ∀ r ∈ l, f r ≤ g r) : (l.map f).sum ≤ (l.map g).sum := by
  induction l with
  | nil => exact Nat.le_refl 0
  | cons a l ih =>
    simp only [List.map_cons, List.sum_cons]
    exact Nat.add_le_add (h a (List.mem_cons_self a l))
      (ih (fun r hr => h r (List.mem_cons_of_mem a hr)))

/-- A filtered sum is at most the full sum. -/
theorem sum_filter_le_sum (l : List α) (p : α → Bool) (f : α → Nat) :
    ((l.filter p).map f).sum ≤ (l.map f).sum := by
  induction l with
  | nil => exact Nat.le_refl 0
  | cons a l ih =>
    by_cases hp : p a
    · rw [List.filter_cons_of_pos hp]
      simp only [List.map_cons, List.sum_cons]
      exact Nat.add_le_add_left ih _
    · rw [List.filter_cons_of_neg hp]
      simp only [List.map_cons, List.sum_cons]
      exact le_trans ih (Nat.le_add_left _ _)

/-- A sum over a stronger filter is at most the sum over a weaker one. -/
theorem sum_filter_mono (l : List α) (p1 p2 : α → Bool) (f : α → Nat)
    (h : ∀ r, p1 r = true → p2 r = true) :
    ((l.filter p1).map f).sum ≤ ((l.filter p2).map f).sum := by
  induction l with
  | nil => exact Nat.le_refl 0
  | cons a l ih =>
    by_cases h1 : p1 a
    · rw [List.filter_cons_of_pos h1, List.filter_cons_of_pos (h a h1)]
      simp only [List.map_cons, List.sum_cons]
      exact Nat.add_le_add_left ih _
    · rw [List.filter_cons_of_neg h1]
      by_cases h2 : p2 a
      · rw [List.filter_cons_of_pos h2]
        simp only [List.map_cons, List.sum_cons]
        exact le_trans ih (Nat.le_add_left _ _)
      · rw [List.filter_cons_of_neg h2]
        exact ih

/-- Scaling a pointwise-dominated sum. -/
theorem sum_scale_le (l : List α) (f g : α → Nat) (c : Nat)
    (h : ∀ r ∈ l, g r * c ≤ f r) : (l.map g).sum * c ≤ (l.map f).sum := by
  induction l with
  | nil => simp
  | cons a l ih =>
    simp only [List.map_cons, List.sum_cons, Nat.add_mul]
    exact Nat.add_le_add (h a (List.mem_cons_self a l))
      (ih (fun r hr => h r (List.mem_cons_of_mem a hr)))

/-- A nonempty sum of positive terms is positive. -/
theorem sum_one_le (l : List α) (f : α → Nat) (hne : l ≠ [])
    (h : ∀ r ∈ l, 1 ≤ f r) : 1 ≤ (l.map f).sum := by
  cases l with
  | nil => exact absurd rfl hne
  | cons a l =>
    simp only [List.map_cons, List.sum_cons]
    exact le_trans (h a (List.mem_cons_self a l)) (Nat.le_add_right _ _)

/-- Records below a child node lie below its parent. -/
theorem keysAt_child_sub (t : List TrieRec) (p : List Nat) (c : Nat) (r : TrieRec)
    (h : r ∈ keysAt t (p ++ [c])) : r ∈ keysAt t p := by
  rcases List.mem_filter.mp h with ⟨ht, hp⟩
  refine List.mem_filter.mpr ⟨ht, ?_⟩
  exact List.isPrefixOf_iff_prefix.mpr
    ((List.prefix_append p [c]).trans (List.isPrefixOf_iff_prefix.mp hp))

/-- Depth bound of a record below a node. -/
theorem keysAt_mem_len (t : List TrieRec) (p : List Nat) (r : TrieRec)
    (h : r ∈ keysAt t p) : p.length ≤ r.1.length + 1 := by
  rcases List.mem_filter.mp h with ⟨_, hp⟩
  have := (List.isPrefixOf_iff_prefix.mp hp).length_le
  simp only [List.length_append, List.length_cons, List.length_nil] at this
  omega

/-- A node without records has no children in the trie. -/
theorem keysAt_child_nil (t : List TrieRec) (p : List Nat) (c : Nat)
    (h : keysAt t p = []) : keysAt t (p ++ [c]) = [] := by
  rw [List.eq_nil_iff_forall_not_mem]
  intro r hr
  rw [List.eq_nil_iff_forall_not_mem] at h
  exact h r (keysAt_child_sub t p c r hr)

/-- With no records below a node, `childrenOf` is empty for any table. -/
theorem childrenOf_nil (e : Engine) (n : NodeInfo) (exc : Option (List Nat))
    (h : keysAt e.trie n.cur = []) :
    ∀ tab, childrenOf e tab n exc = [] := by
  intro tab
  rw [List.eq_nil_iff_forall_not_mem]
  intro m hm
  rcases List.mem_filterMap.mp hm with ⟨c, _, hc⟩
  rw [descend, if_pos (keysAt_child_nil e.trie n.cur c h)] at hc
  exact absurd hc (by simp)

/-- The measure of one node's children, over any char table, is bounded by
the table length times the shifted record sum. -/
theorem childrenW_le (e : Engine) (n : NodeInfo) (exc : Option (List Nat)) :
    ∀ tab : List Nat,
      queueW e.trie e.char_table.length (childrenOf e tab n exc) ≤
      tab.length * (((keysAt e.trie n.cur).map
        (fun r => (2 * e.char_table.length + 2) ^
          (r.1.length + 2 - (n.cur.length + 1)))).sum + 1) := by
  intro tab
  induction tab with
  | nil => exact Nat.zero_le _
  | cons c tab ih =>
    have hsub : nodeW e.trie e.char_table.length (n.cur ++ [c]) ≤
        ((keysAt e.trie n.cur).map
          (fun r => (2 * e.char_table.length + 2) ^
            (r.1.length + 2 - (n.cur.length + 1)))).sum + 1 := by
      rw [nodeW]
      refine Nat.add_le_add_right ?_ 1
      have heq : ((keysAt e.trie (n.cur ++ [c])).map
          (fun r => (2 * e.char_table.length + 2) ^
            (r.1.length + 2 - (n.cur ++ [c]).length))).sum =
          ((keysAt e.trie (n.cur ++ [c])).map
          (fun r => (2 * e.char_table.length + 2) ^
            (r.1.length + 2 - (n.cur.length + 1)))).sum := by
        simp only [List.length_append, List.length_cons, List.length_nil]
      rw [heq]
      exact sum_filter_mono e.trie _ _ _
        (fun r hr => List.isPrefixOf_iff_prefix.mpr
          ((List.prefix_append n.cur [c]).trans (List.isPrefixOf_iff_prefix.mp hr)))
    have hsplit : queueW e.trie e.char_table.length (childrenOf e (c :: tab) n exc) ≤
        nodeW e.trie e.char_table.length (n.cur ++ [c]) +
        queueW e.trie e.char_table.length (childrenOf e tab n exc) := by
      cases hdd : descend e.trie n.cur c with
      | none =>
        simp only [childrenOf, List.filterMap_cons, hdd]
        exact Nat.le_add_left _ _
      | some p =>
        have hp : p = n.cur ++ [c] := by
          rw [descend] at hdd
          by_cases h2 : keysAt e.trie (n.cur ++ [c]) = []
          · rw [if_pos h2] at hdd
            exact absurd hdd (by simp)
          · rw [if_neg h2] at hdd
            exact (Option.some_inj.mp hdd).symm
        subst hp
        by_cases hx : some (n.cur ++ [c]) = exc
        · simp only [childrenOf, List.filterMap_cons, hdd, if_pos hx]
          exact Nat.le_add_left _ _
        · simp only [childrenOf, List.filterMap_cons, hdd, if_neg hx]
          rw [queueW]
          simp only [List.map_cons, List.sum_cons]
          exact le_refl _
    refine le_trans hsplit ?_
    rw [List.length_cons, Nat.add_mul, Nat.one_mul]
    omega

/-- A node weighs at least the pop it pays for. -/
theorem nodeW_pos (t : List TrieRec) (k : Nat) (p : List Nat) :
    1 ≤ nodeW t k p := by
  rw [nodeW]
  omega

/-- Queue measure of a cons. -/
theorem queueW_cons (t : List TrieRec) (k : Nat) (n : NodeInfo) (ns : List NodeInfo) :
    queueW t k (n :: ns) = nodeW t k n.cur + queueW t k ns := rfl

/-- Queue measure of an append. -/
theorem queueW_append (t : List TrieRec) (k : Nat) (l1 l2 : List NodeInfo) :
    queueW t k (l1 ++ l2) = queueW t k l1 + queueW t k l2 := by
  rw [queueW, queueW, queueW, List.map_append, List.sum_append]

/-- The children of a node, over any table no longer than the engine's,
weigh strictly less than the node: the fuel invariant of both traversal
loops. -/
theorem childrenW_lt (e : Engine) (n : NodeInfo) (exc : Option (List Nat))
    (tab : List Nat) (htab : tab.length ≤ e.char_table.length) :
    queueW e.trie e.char_table.length (childrenOf e tab n exc) <
      nodeW e.trie e.char_table.length n.cur := by
  by_cases hk : keysAt e.trie n.cur = []
  · rw [childrenOf_nil e n exc hk tab]
    exact nodeW_pos _ _ _
  · have hS1 : 1 ≤ ((keysAt e.trie n.cur).map
        (fun r => (2 * e.char_table.length + 2) ^
          (r.1.length + 2 - (n.cur.length + 1)))).sum :=
      sum_one_le _ _ hk (fun r hr => Nat.one_le_pow _ _ (by omega))
    have hscale : ((keysAt e.trie n.cur).map
        (fun r => (2 * e.char_table.length + 2) ^
          (r.1.length + 2 - (n.cur.length + 1)))).sum * (2 * e.char_table.length + 2) ≤
        ((keysAt e.trie n.cur).map
        (fun r => (2 * e.char_table.length + 2) ^
          (r.1.length + 2 - n.cur.length))).sum := by
      refine sum_scale_le _ _ _ _ ?_
      intro r hr
      have hlen := keysAt_mem_len e.trie n.cur r hr
      rw [← pow_succ]
      rw [show r.1.length + 2 - (n.cur.length + 1) + 1 =
        r.1.length + 2 - n.cur.length from by omega]
    have h1 := childrenW_le e n exc tab
    have h2 : tab.length * (((keysAt e.trie n.cur).map
        (fun r => (2 * e.char_table.length + 2) ^
          (r.1.length + 2 - (n.cur.length + 1)))).sum + 1) ≤
        e.char_table.length * (((keysAt e.trie n.cur).map
        (fun r => (2 * e.char_table.length + 2) ^
          (r.1.length + 2 - (n.cur.length + 1)))).sum + 1) :=
      Nat.mul_le_mul_right _ htab
    have h3 : e.char_table.length * (((keysAt e.trie n.cur).map
        (fun r => (2 * e.char_table.length + 2) ^
          (r.1.length + 2 - (n.cur.length + 1)))).sum + 1) =
        e.char_table.length * ((keysAt e.trie n.cur).map
        (fun r => (2 * e.char_table.length + 2) ^
          (r.1.length + 2 - (n.cur.length + 1)))).sum + e.char_table.length := by
      rw [Nat.mul_add, Nat.mul_one]
    have h5 : e.char_table.length + 2 ≤ (e.char_table.length + 2) *
        ((keysAt e.trie n.cur).map
        (fun r => (2 * e.char_table.length + 2) ^
          (r.1.length + 2 - (n.cur.length + 1)))).sum :=
      Nat.le_mul_of_pos_right _ hS1
    have hAB : e.char_table.length * ((keysAt e.trie n.cur).map
        (fun r => (2 * e.char_table.length + 2) ^
          (r.1.length + 2 - (n.cur.length + 1)))).sum +
        (e.char_table.length + 2) * ((keysAt e.trie n.cur).map
        (fun r => (2 * e.char_table.length + 2) ^
          (r.1.length + 2 - (n.cur.length + 1)))).sum ≤
        ((keysAt e.trie n.cur).map
        (fun r => (2 * e.char_table.length + 2) ^
          (r.1.length + 2 - n.cur.length))).sum := by
      rw [← Nat.add_mul]
      rw [show e.char_table.length + (e.char_table.length + 2) =
        2 * e.char_table.length + 2 from by omega]
      rw [Nat.mul_comm]
      exact hscale
    have hnode : nodeW e.trie e.char_table.length n.cur =
        ((keysAt e.trie n.cur).map
        (fun r => (2 * e.char_table.length + 2) ^
          (r.1.length + 2 - n.cur.length))).sum + 1 := rfl
    omega

/-- `goFuel` dominates the measure of any single node of the trie. -/
theorem goFuel_ge (t : List TrieRec) (k : Nat) (p : List Nat) :
    nodeW t k p ≤ goFuel t k := by
  rw [nodeW, goFuel]
  refine Nat.add_le_add_right ?_ 1
  rw [keysAt]
  refine le_trans (sum_map_le_of_mem _ _
    (fun r => (2 * k + 2) ^ (r.1.length + 2)) ?_) ?_
  · intro r hr
    exact Nat.pow_le_pow_right (by omega) (by omega)
  · exact sum_filter_le_sum t _ _

/-- Shape of a `childrenOf` member. -/
theorem childrenOf_shape (e : Engine) (tab : List Nat) (n : NodeInfo)
    (exc : Option (List Nat)) (m : NodeInfo) (h : m ∈ childrenOf e tab n exc) :
    ∃ c ∈ tab, keysAt e.trie (n.cur ++ [c]) ≠ [] ∧ some (n.cur ++ [c]) ≠ exc ∧
      m = ⟨n.cur ++ [c], if c ≠ 0 then n.suffix_len + 1 else n.suffix_len⟩ := by
  rcases List.mem_filterMap.mp h with ⟨c, hctab, hc⟩
  refine ⟨c, hctab, ?_⟩
  cases hdd : descend e.trie n.cur c with
  | none =>
    simp only [hdd] at hc
    exact absurd hc (by simp)
  | some p =>
    have hne : keysAt e.trie (n.cur ++ [c]) ≠ [] := by
      intro hnil
      rw [descend, if_pos hnil] at hdd
      exact absurd hdd (by simp)
    have hp : p = n.cur ++ [c] := by
      rw [descend, if_neg hne] at hdd
      exact (Option.some_inj.mp hdd).symm
    subst hp
    simp only [hdd] at hc
    by_cases hx : some (n.cur ++ [c]) = exc
    · rw [if_pos hx] at hc
      exact absurd hc (by simp)
    · rw [if_neg hx] at hc
      exact ⟨hne, hx, (Option.some_inj.mp hc).symm⟩

/-- Construction of a `childrenOf` member. -/
theorem childrenOf_of_shape (e : Engine) (tab : List Nat) (n : NodeInfo)
    (exc : Option (List Nat)) (c : Nat) (hctab : c ∈ tab)
    (hne : keysAt e.trie (n.cur ++ [c]) ≠ []) (hx : some (n.cur ++ [c]) ≠ exc) :
    (⟨n.cur ++ [c], if c ≠ 0 then n.suffix_len + 1 else n.suffix_len⟩ : NodeInfo) ∈
      childrenOf e tab n exc := by
  refine List.mem_filterMap.mpr ⟨c, hctab, ?_⟩
  simp only [show descend e.trie n.cur c = some (n.cur ++ [c]) from by
    rw [descend, if_neg hne]]
  rw [if_neg hx]

/-- Reachability is transitive. -/
theorem reach_trans (e : Engine) (maxd : Nat) (exc : Option (List Nat))
    (a b c : NodeInfo) (h1 : Reach e maxd exc a b) (h2 : Reach e maxd exc b c) :
    Reach e maxd exc a c := by
  induction h2 with
  | refl => exact h1
  | step m m' hr hb hs hm ih => exact Reach.step _ _ _ ih hb hs hm

/-- Suffix lengths never decrease along reachability. -/
theorem reach_suffix_le (e : Engine) (maxd : Nat) (exc : Option (List Nat))
    (a b : NodeInfo) (h : Reach e maxd exc a b) :
    a.suffix_len ≤ b.suffix_len := by
  induction h with
  | refl => exact le_refl _
  | step m m' hr hb hs hm ih =>
    rcases childrenOf_shape e _ m exc m' hm with ⟨c, _, _, _, hmeq⟩
    have hproj : m'.suffix_len =
        if c ≠ 0 then m.suffix_len + 1 else m.suffix_len := by rw [hmeq]
    rw [hproj]
    split
    · omega
    · exact ih

/-- First-step decomposition of a nontrivial reachability. -/
theorem reach_first (e : Engine) (maxd : Nat) (exc : Option (List Nat))
    (n m : NodeInfo) (h : Reach e maxd exc n m) :
    m = n ∨ (baseNeg e.trie n.cur = false ∧ n.suffix_len ≤ maxd ∧
      ∃ k ∈ childrenOf e e.char_table n exc, Reach e maxd exc k m) := by
  induction h with
  | refl => exact Or.inl rfl
  | step m m' hr hb hs hm ih =>
    rcases ih with heq | ⟨hb0, hs0, k, hk, hrk⟩
    · subst heq
      exact Or.inr ⟨hb, hs, m', hm, Reach.refl m'⟩
    · exact Or.inr ⟨hb0, hs0, k, hk, Reach.step k m m' hrk hb hs hm⟩

/-- A terminal start node reaches only itself. -/
theorem reach_terminal (e : Engine) (maxd : Nat) (exc : Option (List Nat))
    (n m : NodeInfo) (h : Reach e maxd exc n m)
    (hb : baseNeg e.trie n.cur = true) : m = n := by
  rcases reach_first e maxd exc n m h with heq | ⟨hb0, _, _⟩
  · exact heq
  · rw [hb] at hb0
    exact absurd hb0 (by simp)

/-- Below the depth boundary nothing changes; at it, with a NUL-headed char
table, the child a bounded path can continue through is the NUL child, and
it survives the truncation of the table to its first entry. -/
theorem child_take1 (e : Engine) (n : NodeInfo) (exc : Option (List Nat))
    (hc : e.char_table.head? = some 0) (k : NodeInfo)
    (hk : k ∈ childrenOf e e.char_table n exc)
    (hsuf : k.suffix_len ≤ n.suffix_len) :
    k ∈ childrenOf e (e.char_table.take 1) n exc := by
  rcases childrenOf_shape e _ n exc k hk with ⟨c, hctab, hne, hx, hkeq⟩
  by_cases hc0 : c = 0
  · subst hc0
    obtain ⟨t2, ht2⟩ : ∃ t2, e.char_table = 0 :: t2 := by
      cases htab : e.char_table with
      | nil => rw [htab] at hc; exact absurd hc (by simp)
      | cons a t2 =>
        rw [htab, List.head?_cons] at hc
        exact ⟨t2, by rw [Option.some_inj.mp hc]⟩
    rw [ht2, hkeq]
    exact childrenOf_of_shape e ((0 :: t2).take 1) n exc 0 (by simp) hne hx
  · exfalso
    have hproj : k.suffix_len = if c ≠ 0 then n.suffix_len + 1 else n.suffix_len := by
      rw [hkeq]
    rw [hproj, if_pos hc0] at hsuf
    omega

/-- An existential over an appended queue splits. -/
theorem exists_mem_append (P : NodeInfo → Prop) (l1 l2 : List NodeInfo) :
    (∃ x ∈ l1 ++ l2, P x) ↔ (∃ x ∈ l1, P x) ∨ (∃ x ∈ l2, P x) := by
  constructor
  · rintro ⟨x, hx, hp⟩
    rcases List.mem_append.mp hx with h | h
    · exact Or.inl ⟨x, h, hp⟩
    · exact Or.inr ⟨x, h, hp⟩
  · rintro (⟨x, hx, hp⟩ | ⟨x, hx, hp⟩)
    · exact ⟨x, List.mem_append.mpr (Or.inl hx), hp⟩
    · exact ⟨x, List.mem_append.mpr (Or.inr hx), hp⟩

/-- Contributions reachable through the children of an expanded node are
exactly the contributions reachable from the node, for the full char table,
and also for the table truncated to its NUL head when the node sits at the
depth boundary. -/
theorem children_exists_iff (e : Engine) (q : Query) (ml : Nat)
    (exc : Option (List Nat)) (hc : e.char_table.head? = some 0) (n : NodeInfo)
    (tab : List Nat) (hb : baseNeg e.trie n.cur = false)
    (hs : n.suffix_len ≤ q.max_dword_len)
    (htab : tab = e.char_table ∨
      (tab = e.char_table.take 1 ∧ n.suffix_len = q.max_dword_len))
    (r : Result) :
    (∃ k ∈ childrenOf e tab n exc, ∃ m, Reach e q.max_dword_len exc k m ∧
      baseNeg e.trie m.cur = true ∧ r ∈ nodeDelta e q ml m) ↔
    (∃ m, Reach e q.max_dword_len exc n m ∧
      baseNeg e.trie m.cur = true ∧ r ∈ nodeDelta e q ml m) := by
  constructor
  · rintro ⟨k, hk, m, hr1, hr2, hr3⟩
    have hkfull : k ∈ childrenOf e e.char_table n exc := by
      rcases htab with h | ⟨h, _⟩
      · rw [← h]
        exact hk
      · rw [h] at hk
        rcases childrenOf_shape e _ n exc k hk with ⟨c, hctab, hne, hx, hkeq⟩
        rw [hkeq]
        exact childrenOf_of_shape e _ n exc c (List.mem_of_mem_take hctab) hne hx
    exact ⟨m, reach_trans e _ exc n k m
      (Reach.step n n k (Reach.refl n) hb hs hkfull) hr1, hr2, hr3⟩
  · rintro ⟨m, hr1, hr2, hr3⟩
    rcases reach_first e _ exc n m hr1 with heq | ⟨_, _, k, hk, hrk⟩
    · rw [heq, hb] at hr2
      exact absurd hr2 (by simp)
    · refine ⟨k, ?_, m, hrk, hr2, hr3⟩
      rcases htab with h | ⟨h, hsmax⟩
      · rw [h]
        exact hk
      · rw [h]
        refine child_take1 e n exc hc k hk ?_
        have h5 := reach_suffix_le e _ exc k m hrk
        have h6 : m.suffix_len + tailLen e.trie m.cur ≤ q.max_dword_len := by
          by_contra h7
          rw [nodeDelta, if_neg h7] at hr3
          exact absurd hr3 (List.not_mem_nil r)
        omega

/-- Contributions of a node past the depth bound are impossible. -/
theorem deep_no_contrib (e : Engine) (q : Query) (ml : Nat)
    (exc : Option (List Nat)) (n : NodeInfo)
    (hs : ¬ n.suffix_len ≤ q.max_dword_len) (r : Result) :
    ¬ ∃ m, Reach e q.max_dword_len exc n m ∧
      baseNeg e.trie m.cur = true ∧ r ∈ nodeDelta e q ml m := by
  rintro ⟨m, hr1, _, hr3⟩
  have h5 := reach_suffix_le e _ exc n m hr1
  have h6 : m.suffix_len + tailLen e.trie m.cur ≤ q.max_dword_len := by
    by_contra h7
    rw [nodeDelta, if_neg h7] at hr3
    exact absurd hr3 (List.not_mem_nil r)
  omega

/-- With no result cut anywhere (the final vector stays below the limit),
a terminal pop appends exactly the node's uncapped contribution. -/
theorem popTerminal_full (e : Engine) (q : Query) (ml : Nat) (n : NodeInfo)
    (acc : List Result) (hlen : (popTerminal e q ml n acc).length < q.limit) :
    popTerminal e q ml n acc = acc ++ nodeDelta e q ml n := by
  have hacc : acc.length < q.limit := by
    obtain ⟨d, hd⟩ := popTerminal_append e q ml n acc
    rw [hd, List.length_append] at hlen
    omega
  rw [popTerminal, nodeDelta]
  by_cases h3 : n.suffix_len + tailLen e.trie n.cur ≤ q.max_dword_len
  · rw [if_pos h3, if_pos h3]
    rw [retrieve_take e q ml _ _ acc hacc]
    congr 1
    refine List.take_of_length_le ?_
    rw [popTerminal, if_pos h3, retrieve_take e q ml _ _ acc hacc] at hlen
    rw [List.length_append, List.length_take] at hlen
    omega
  · rw [if_neg h3, if_neg h3, List.append_nil]

/-- Characterization of the BFS loop under a NUL-headed char table, enough
fuel and a non-binding limit: a result is in the output exactly when it was
already accumulated or a node reachable from the queue contributes it. -/
theorem bfgo_mem_iff (e : Engine) (q : Query) (ml : Nat) (exc : Option (List Nat))
    (hc : e.char_table.head? = some 0) :
    ∀ (fuel : Nat) (queue : List NodeInfo) (acc : List Result),
      queueW e.trie e.char_table.length queue ≤ fuel →
      (bfgo e q ml exc fuel queue acc).length < q.limit →
      ∀ r, r ∈ bfgo e q ml exc fuel queue acc ↔
        r ∈ acc ∨ ∃ n ∈ queue, ∃ m, Reach e q.max_dword_len exc n m ∧
          baseNeg e.trie m.cur = true ∧ r ∈ nodeDelta e q ml m := by
  intro fuel
  induction fuel with
  | zero =>
    intro queue acc hw hfin r
    have hQ : queue = [] := by
      cases queue with
      | nil => rfl
      | cons n ns =>
        exfalso
        have h1 := nodeW_pos e.trie e.char_table.length n.cur
        rw [queueW_cons] at hw
        omega
    subst hQ
    constructor
    · exact Or.inl
    · rintro (h | ⟨n, hn, _⟩)
      · exact h
      · exact absurd hn (List.not_mem_nil n)
  | succ fuel ih =>
    intro queue acc hw hfin r
    cases queue with
    | nil =>
      constructor
      · exact Or.inl
      · rintro (h | ⟨n, hn, _⟩)
        · exact h
        · exact absurd hn (List.not_mem_nil n)
    | cons n rest =>
      rw [queueW_cons] at hw
      by_cases h1 : acc.length ≥ q.limit
      · exfalso
        simp only [bfgo] at hfin
        rw [if_pos h1] at hfin
        omega
      · simp only [bfgo] at hfin ⊢
        rw [if_neg h1] at hfin ⊢
        by_cases h2 : baseNeg e.trie n.cur = true
        · rw [if_pos h2] at hfin ⊢
          have hwrest : queueW e.trie e.char_table.length rest ≤ fuel := by
            have := nodeW_pos e.trie e.char_table.length n.cur
            omega
          rw [ih rest (popTerminal e q ml n acc) hwrest hfin r]
          have hlen : (popTerminal e q ml n acc).length < q.limit := by
            obtain ⟨d, hd⟩ := bfgo_append e q ml exc fuel rest (popTerminal e q ml n acc)
            rw [hd, List.length_append] at hfin
            omega
          rw [popTerminal_full e q ml n acc hlen]
          constructor
          · rintro (h | ⟨n2, hn2, m, hr1, hr2, hr3⟩)
            · rcases List.mem_append.mp h with h | h
              · exact Or.inl h
              · exact Or.inr ⟨n, List.mem_cons_self n rest, n, Reach.refl n, h2, h⟩
            · exact Or.inr ⟨n2, List.mem_cons_of_mem n hn2, m, hr1, hr2, hr3⟩
          · rintro (h | ⟨n2, hn2, m, hr1, hr2, hr3⟩)
            · exact Or.inl (List.mem_append.mpr (Or.inl h))
            · rcases List.mem_cons.mp hn2 with heq | hn3
              · subst heq
                have hmn := reach_terminal e _ exc n2 m hr1 h2
                subst hmn
                exact Or.inl (List.mem_append.mpr (Or.inr hr3))
              · exact Or.inr ⟨n2, hn3, m, hr1, hr2, hr3⟩
        · rw [if_neg h2] at hfin ⊢
          have hb2 : baseNeg e.trie n.cur = false := by
            cases hbb : baseNeg e.trie n.cur
            · rfl
            · exact absurd hbb h2
          by_cases h3 : n.suffix_len ≤ q.max_dword_len
          · rw [if_pos h3] at hfin ⊢
            by_cases h4 : n.suffix_len = q.max_dword_len
            · rw [if_pos h4] at hfin ⊢
              have hwnew : queueW e.trie e.char_table.length
                  (rest ++ childrenOf e (e.char_table.take 1) n exc) ≤ fuel := by
                rw [queueW_append]
                have := childrenW_lt e n exc (e.char_table.take 1)
                  (by rw [List.length_take]; omega)
                omega
              rw [ih _ acc hwnew hfin r]
              rw [exists_mem_append]
              rw [children_exists_iff e q ml exc hc n _ hb2 h3 (Or.inr ⟨rfl, h4⟩) r]
              rw [List.exists_mem_cons_iff]
              constructor
              · rintro (h | (h | h))
                · exact Or.inl h
                · exact Or.inr (Or.inr h)
                · exact Or.inr (Or.inl h)
              · rintro (h | (h | h))
                · exact Or.inl h
                · exact Or.inr (Or.inr h)
                · exact Or.inr (Or.inl h)
            · rw [if_neg h4] at hfin ⊢
              have hwnew : queueW e.trie e.char_table.length
                  (rest ++ childrenOf e e.char_table n exc) ≤ fuel := by
                rw [queueW_append]
                have := childrenW_lt e n exc e.char_table (le_refl _)
                omega
              rw [ih _ acc hwnew hfin r]
              rw [exists_mem_append]
              rw [children_exists_iff e q ml exc hc n _ hb2 h3 (Or.inl rfl) r]
              rw [List.exists_mem_cons_iff]
              constructor
              · rintro (h | (h | h))
                · exact Or.inl h
                · exact Or.inr (Or.inr h)
                · exact Or.inr (Or.inl h)
              · rintro (h | (h | h))
                · exact Or.inl h
                · exact Or.inr (Or.inr h)
                · exact Or.inr (Or.inl h)
          · rw [if_neg h3] at hfin ⊢
            have hwrest : queueW e.trie e.char_table.length rest ≤ fuel := by
              have := nodeW_pos e.trie e.char_table.length n.cur
              omega
            rw [ih rest acc hwrest hfin r]
            rw [List.exists_mem_cons_iff]
            constructor
            · rintro (h | h)
              · exact Or.inl h
              · exact Or.inr (Or.inr h)
            · rintro (h | (h | h))
              · exact Or.inl h
              · exact absurd h (deep_no_contrib e q ml exc n h3 r)
              · exact Or.inr h

/-- Characterization of the DFS loop under enough fuel and a non-binding
limit: same contribution set as the BFS loop. -/
theorem dfgo_mem_iff (e : Engine) (q : Query) (ml : Nat) (exc : Option (List Nat))
    (hc : e.char_table.head? = some 0) :
    ∀ (fuel : Nat) (queue : List NodeInfo) (acc : List Result),
      queueW e.trie e.char_table.length queue ≤ fuel →
      (dfgo e q ml exc fuel queue acc).length < q.limit →
      ∀ r, r ∈ dfgo e q ml exc fuel queue acc ↔
        r ∈ acc ∨ ∃ n ∈ queue, ∃ m, Reach e q.max_dword_len exc n m ∧
          baseNeg e.trie m.cur = true ∧ r ∈ nodeDelta e q ml m := by
  intro fuel
  induction fuel with
  | zero =>
    intro queue acc hw hfin r
    have hQ : queue = [] := by
      cases queue with
      | nil => rfl
      | cons n ns =>
        exfalso
        have h1 := nodeW_pos e.trie e.char_table.length n.cur
        rw [queueW_cons] at hw
        omega
    subst hQ
    constructor
    · exact Or.inl
    · rintro (h | ⟨n, hn, _⟩)
      · exact h
      · exact absurd hn (List.not_mem_nil n)
  | succ fuel ih =>
    intro queue acc hw hfin r
    cases queue with
    | nil =>
      constructor
      · exact Or.inl
      · rintro (h | ⟨n, hn, _⟩)
        · exact h
        · exact absurd hn (List.not_mem_nil n)
    | cons n rest =>
      rw [queueW_cons] at hw
      by_cases h1 : acc.length ≥ q.limit
      · exfalso
        simp only [dfgo] at hfin
        rw [if_pos h1] at hfin
        omega
      · simp only [dfgo] at hfin ⊢
        rw [if_neg h1] at hfin ⊢
        by_cases h2 : baseNeg e.trie n.cur = true
        · rw [if_pos h2] at hfin ⊢
          have hwrest : queueW e.trie e.char_table.length rest ≤ fuel := by
            have := nodeW_pos e.trie e.char_table.length n.cur
            omega
          rw [ih rest (popTerminal e q ml n acc) hwrest hfin r]
          have hlen : (popTerminal e q ml n acc).length < q.limit := by
            obtain ⟨d, hd⟩ := dfgo_append e q ml exc fuel rest (popTerminal e q ml n acc)
            rw [hd, List.length_append] at hfin
            omega
          rw [popTerminal_full e q ml n acc hlen]
          constructor
          · rintro (h | ⟨n2, hn2, m, hr1, hr2, hr3⟩)
            · rcases List.mem_append.mp h with h | h
              · exact Or.inl h
              · exact Or.inr ⟨n, List.mem_cons_self n rest, n, Reach.refl n, h2, h⟩
            · exact Or.inr ⟨n2, List.mem_cons_of_mem n hn2, m, hr1, hr2, hr3⟩
          · rintro (h | ⟨n2, hn2, m, hr1, hr2, hr3⟩)
            · exact Or.inl (List.mem_append.mpr (Or.inl h))
            · rcases List.mem_cons.mp hn2 with heq | hn3
              · subst heq
                have hmn := reach_terminal e _ exc n2 m hr1 h2
                subst hmn
                exact Or.inl (List.mem_append.mpr (Or.inr hr3))
              · exact Or.inr ⟨n2, hn3, m, hr1, hr2, hr3⟩
        · rw [if_neg h2] at hfin ⊢
          have hb2 : baseNeg e.trie n.cur = false := by
            cases hbb : baseNeg e.trie n.cur
            · rfl
            · exact absurd hbb h2
          by_cases h3 : n.suffix_len ≤ q.max_dword_len
          · rw [if_pos h3] at hfin ⊢
            have hwnew : queueW e.trie e.char_table.length
                (childrenOf e e.char_table n exc ++ rest) ≤ fuel := by
              rw [queueW_append]
              have := childrenW_lt e n exc e.char_table (le_refl _)
              omega
            rw [ih _ acc hwnew hfin r]
            rw [exists_mem_append]
            rw [children_exists_iff e q ml exc hc n _ hb2 h3 (Or.inl rfl) r]
            rw [List.exists_mem_cons_iff]
          · rw [if_neg h3] at hfin ⊢
            have hwrest : queueW e.trie e.char_table.length rest ≤ fuel := by
              have := nodeW_pos e.trie e.char_table.length n.cur
              omega
            rw [ih rest acc hwrest hfin r]
            rw [List.exists_mem_cons_iff]
            constructor
            · rintro (h | h)
              · exact Or.inl h
              · exact Or.inr (Or.inr h)
            · rintro (h | (h | h))
              · exact Or.inl h
              · exact absurd h (deep_no_contrib e q ml exc n h3 r)
              · exact Or.inr h

/-- Measure of a singleton start queue. -/
theorem queueW_single (t : List TrieRec) (k : Nat) (n : NodeInfo) :
    queueW t k [n] = nodeW t k n.cur := by
  rw [queueW_cons]
  rw [show queueW t k [] = 0 from rfl]
  omega

/-- Characterization of `bf_traversal` under a NUL-headed char table and a
non-binding limit. -/
theorem bft_mem_iff (e : Engine) (q : Query) (cur : List Nat) (ml : Nat)
    (exc : Option (List Nat)) (acc : List Result)
    (hc : e.char_table.head? = some 0)
    (hfin : (bf_traversal e q cur ml exc acc).length < q.limit) :
    ∀ r, r ∈ bf_traversal e q cur ml exc acc ↔
      r ∈ acc ∨ ∃ m, Reach e q.max_dword_len exc ⟨cur, ml⟩ m ∧
        baseNeg e.trie m.cur = true ∧ r ∈ nodeDelta e q ml m := by
  intro r
  unfold bf_traversal at hfin ⊢
  by_cases hg : ml > q.max_dword_len ∨ acc.length ≥ q.limit
  · rw [if_pos hg] at hfin ⊢
    rcases hg with hg | hg
    · constructor
      · exact Or.inl
      · rintro (h | h)
        · exact h
        · exact absurd h
            (deep_no_contrib e q ml exc ⟨cur, ml⟩ (by omega : ¬ ml ≤ q.max_dword_len) r)
    · exfalso
      omega
  · rw [if_neg hg] at hfin ⊢
    have hwq : queueW e.trie e.char_table.length [⟨cur, ml⟩] ≤
        goFuel e.trie e.char_table.length := by
      rw [queueW_single]
      exact goFuel_ge e.trie e.char_table.length cur
    rw [bfgo_mem_iff e q ml exc hc (goFuel e.trie e.char_table.length)
      [⟨cur, ml⟩] acc hwq hfin r]
    rw [List.exists_mem_cons_iff]
    constructor
    · rintro (h | (h | ⟨x, hx, _⟩))
      · exact Or.inl h
      · exact Or.inr h
      · exact absurd hx (List.not_mem_nil x)
    · rintro (h | h)
      · exact Or.inl h
      · exact Or.inr (Or.inl h)

/-- Characterization of `df_traversal` under a NUL-headed char table and a
non-binding limit: the same set as `bf_traversal`. -/
theorem dft_mem_iff (e : Engine) (q : Query) (cur : List Nat) (ml : Nat)
    (exc : Option (List Nat)) (acc : List Result)
    (hc : e.char_table.head? = some 0)
    (hfin : (df_traversal e q cur ml exc acc).length < q.limit) :
    ∀ r, r ∈ df_traversal e q cur ml exc acc ↔
      r ∈ acc ∨ ∃ m, Reach e q.max_dword_len exc ⟨cur, ml⟩ m ∧
        baseNeg e.trie m.cur = true ∧ r ∈ nodeDelta e q ml m := by
  intro r
  unfold df_traversal at hfin ⊢
  by_cases hg : ml > q.max_dword_len ∨ acc.length ≥ q.limit
  · rw [if_pos hg] at hfin ⊢
    rcases hg with hg | hg
    · constructor
      · exact Or.inl
      · rintro (h | h)
        · exact h
        · exact absurd h
            (deep_no_contrib e q ml exc ⟨cur, ml⟩ (by omega : ¬ ml ≤ q.max_dword_len) r)
    · exfalso
      omega
  · rw [if_neg hg] at hfin ⊢
    have hwq : queueW e.trie e.char_table.length [⟨cur, ml⟩] ≤
        goFuel e.trie e.char_table.length := by
      rw [queueW_single]
      exact goFuel_ge e.trie e.char_table.length cur
    rw [dfgo_mem_iff e q ml exc hc (goFuel e.trie e.char_table.length)
      [⟨cur, ml⟩] acc hwq hfin r]
    rw [List.exists_mem_cons_iff]
    constructor
    · rintro (h | (h | ⟨x, hx, _⟩))
      · exact Or.inl h
      · exact Or.inr h
      · exact absurd hx (List.not_mem_nil x)
    · rintro (h | h)
      · exact Or.inl h
      · exact Or.inr (Or.inl h)

/-- The retrieval loop reads only `max_dword_len` and `limit` from the
query. -/
theorem retrLoop_cong (e : Engine) (q1 q2 : Query) (ml sl : Nat)
    (hmax : q1.max_dword_len = q2.max_dword_len) (hlim : q1.limit = q2.limit) :
    ∀ (ids : List Nat) (acc : List Result),
      retrLoop e q1 ml sl ids acc = retrLoop e q2 ml sl ids acc := by
  intro ids
  induction ids with
  | nil => intro acc; rfl
  | cons id rest ih =>
    intro acc
    rw [retrLoop, retrLoop, hmax, hlim]
    simp only [ih]

/-- A retrieval reads only the length bounds and the limit from the query. -/
theorem retrieve_cong (e : Engine) (q1 q2 : Query)
    (hmin : q1.min_dword_len = q2.min_dword_len)
    (hmax : q1.max_dword_len = q2.max_dword_len) (hlim : q1.limit = q2.limit) :
    ∀ (ml sid sl : Nat) (acc : List Result),
      retrieve_dword e q1 ml sid sl acc = retrieve_dword e q2 ml sid sl acc := by
  intro ml sid sl acc
  rw [retrieve_dword, retrieve_dword, hlim, hmin]
  simp only [retrLoop_cong e q1 q2 ml sl hmax hlim]

/-- The forward walk never reads the `depth_first_search` flag. -/
theorem cwalk_cong (e : Engine) (q1 q2 : Query)
    (hw : q1.word = q2.word) (hmc : q1.min_common_len = q2.min_common_len)
    (hmin : q1.min_dword_len = q2.min_dword_len)
    (hmax : q1.max_dword_len = q2.max_dword_len) (hlim : q1.limit = q2.limit) :
    ∀ (fuel : Nat) (cur : List Nat) (ml : Nat) (stk : List (List Nat))
      (acc : List Result),
      cwalk e q1 fuel cur ml stk acc = cwalk e q2 fuel cur ml stk acc := by
  intro fuel
  induction fuel with
  | zero => intro cur ml stk acc; rfl
  | succ fuel ih =>
    intro cur ml stk acc
    rw [cwalk, cwalk, hw, hmc, hmax]
    simp only [ih, retrieve_cong e q1 q2 hmin hmax hlim]

/-- The forward walk's final `match_len` and node stack do not depend on
the accumulated results. -/
theorem cwalk_state (e : Engine) (q : Query) :
    ∀ (fuel : Nat) (cur : List Nat) (ml : Nat) (stk : List (List Nat))
      (acc1 acc2 : List Result),
      (cwalk e q fuel cur ml stk acc1).1 = (cwalk e q fuel cur ml stk acc2).1 ∧
      (cwalk e q fuel cur ml stk acc1).2.1 = (cwalk e q fuel cur ml stk acc2).2.1 := by
  intro fuel
  induction fuel with
  | zero => intro cur ml stk acc1 acc2; exact ⟨rfl, rfl⟩
  | succ fuel ih =>
    intro cur ml stk acc1 acc2
    rw [cwalk, cwalk]
    split
    · split
      · exact ⟨rfl, rfl⟩
      · split
        · exact ⟨rfl, rfl⟩
        · exact ih _ _ _ acc1 acc2
    · exact ⟨rfl, rfl⟩

/-- Take-form of the forward walk's results: the capped run appends a
prefix of the uncapped contribution. -/
theorem cwalk_take (e : Engine) (q : Query) :
    ∀ (fuel : Nat) (cur : List Nat) (ml : Nat) (stk : List (List Nat))
      (acc : List Result), acc.length < q.limit →
      (cwalk e q fuel cur ml stk acc).2.2 =
        acc ++ (cwalkDelta e q fuel cur ml).take (q.limit - acc.length) := by
  intro fuel
  induction fuel with
  | zero =>
    intro cur ml stk acc _
    rw [cwalk, cwalkDelta]
    simp
  | succ fuel ih =>
    intro cur ml stk acc hacc
    rw [cwalk, cwalkDelta]
    split
    · split
      · simp
      · split
        · split
          · exact retrieve_take e q _ _ _ acc hacc
          · simp
        · exact ih _ _ _ acc hacc
    · simp

/-- The uncapped retrieval loop reads only `max_dword_len` from the
query. -/
theorem retrFull_cong (e : Engine) (q1 q2 : Query)
    (hmax : q1.max_dword_len = q2.max_dword_len) :
    ∀ (ml sl : Nat) (ids : List Nat),
      retrFull e q1 ml sl ids = retrFull e q2 ml sl ids := by
  intro ml sl ids
  unfold retrFull
  rw [hmax]

/-- An uncapped retrieval reads only the two length bounds from the
query — in particular not the limit. -/
theorem retrDelta_cong (e : Engine) (q1 q2 : Query)
    (hmin : q1.min_dword_len = q2.min_dword_len)
    (hmax : q1.max_dword_len = q2.max_dword_len) :
    ∀ (ml sid sl : Nat), retrDelta e q1 ml sid sl = retrDelta e q2 ml sid sl := by
  intro ml sid sl
  unfold retrDelta
  by_cases hs : sid < e.suffix_iindex_size
  · rw [if_pos hs, if_pos hs, hmin]
    simp only [retrFull_cong e q1 q2 hmax]
  · rw [if_neg hs, if_neg hs]

/-- A terminal's uncapped contribution reads only the two length bounds. -/
theorem nodeDelta_cong (e : Engine) (q1 q2 : Query)
    (hmin : q1.min_dword_len = q2.min_dword_len)
    (hmax : q1.max_dword_len = q2.max_dword_len) :
    ∀ (ml : Nat) (n : NodeInfo), nodeDelta e q1 ml n = nodeDelta e q2 ml n := by
  intro ml n
  unfold nodeDelta
  rw [hmax]
  simp only [retrDelta_cong e q1 q2 hmin hmax]

/-- The forward walk's uncapped delta reads neither the limit nor any
flag. -/
theorem cwalkDelta_cong (e : Engine) (q1 q2 : Query) (hw : q1.word = q2.word)
    (hmc : q1.min_common_len = q2.min_common_len)
    (hmin : q1.min_dword_len = q2.min_dword_len)
    (hmax : q1.max_dword_len = q2.max_dword_len) :
    ∀ (fuel : Nat) (cur : List Nat) (ml : Nat),
      cwalkDelta e q1 fuel cur ml = cwalkDelta e q2 fuel cur ml := by
  intro fuel
  induction fuel with
  | zero => intro cur ml; rfl
  | succ fuel ih =>
    intro cur ml
    rw [cwalkDelta, cwalkDelta, hw, hmc, hmax]
    simp only [ih, retrDelta_cong e q1 q2 hmin hmax]

/-- The forward walk's final `match_len` and node stack depend neither on
the accumulator nor on the limit or the flags. -/
theorem cwalk_state2 (e : Engine) (q1 q2 : Query) (hw : q1.word = q2.word)
    (hmc : q1.min_common_len = q2.min_common_len)
    (hmax : q1.max_dword_len = q2.max_dword_len) :
    ∀ (fuel : Nat) (cur : List Nat) (ml : Nat) (stk : List (List Nat))
      (acc1 acc2 : List Result),
      (cwalk e q1 fuel cur ml stk acc1).1 = (cwalk e q2 fuel cur ml stk acc2).1 ∧
      (cwalk e q1 fuel cur ml stk acc1).2.1 = (cwalk e q2 fuel cur ml stk acc2).2.1 := by
  intro fuel
  induction fuel with
  | zero => intro cur ml stk acc1 acc2; exact ⟨rfl, rfl⟩
  | succ fuel ih =>
    intro cur ml stk acc1 acc2
    rw [cwalk, cwalk, hw, hmc, hmax]
    split
    · split
      · exact ⟨rfl, rfl⟩
      · split
        · exact ⟨rfl, rfl⟩
        · exact ih _ _ _ acc1 acc2
    · exact ⟨rfl, rfl⟩

/-- The backtracking contribution set reads only the two length bounds. -/
theorem backtrackSet_cong (e : Engine) (q1 q2 : Query)
    (hmin : q1.min_dword_len = q2.min_dword_len)
    (hmax : q1.max_dword_len = q2.max_dword_len) :
    ∀ (stk : List (List Nat)) (ml : Nat) (exc : Option (List Nat)) (r : Result),
      backtrackSet e q1 stk ml exc r = backtrackSet e q2 stk ml exc r := by
  intro stk
  induction stk with
  | nil => intro ml exc r; rfl
  | cons cur rest ih =>
    intro ml exc r
    show ((∃ m, Reach e q1.max_dword_len exc ⟨cur, ml⟩ m ∧
        baseNeg e.trie m.cur = true ∧ r ∈ nodeDelta e q1 ml m) ∨
      backtrackSet e q1 rest (ml - 1) (some cur) r) =
      ((∃ m, Reach e q2.max_dword_len exc ⟨cur, ml⟩ m ∧
        baseNeg e.trie m.cur = true ∧ r ∈ nodeDelta e q2 ml m) ∨
      backtrackSet e q2 rest (ml - 1) (some cur) r)
    rw [hmax, ih]
    simp only [nodeDelta_cong e q1 q2 hmin hmax]

/-- The `compre_search` contribution set reads only the word and the three
length bounds. -/
theorem compreSet_cong (e : Engine) (q1 q2 : Query) (hw : q1.word = q2.word)
    (hmc : q1.min_common_len = q2.min_common_len)
    (hmin : q1.min_dword_len = q2.min_dword_len)
    (hmax : q1.max_dword_len = q2.max_dword_len) (r : Result) :
    compreSet e q1 r = compreSet e q2 r := by
  unfold compreSet
  rw [hw, hmc, hmax]
  have hst := cwalk_state2 e q1 q2 hw hmc hmax q2.word.length [] 0 [] [] []
  rw [hst.1, hst.2]
  rw [cwalkDelta_cong e q1 q2 hw hmc hmin hmax q2.word.length [] 0]
  rw [backtrackSet_cong e q1 q2 hmin hmax]

/-- Soundness of one retrieval against its uncapped delta, with no side
conditions. -/
theorem retrieve_sub (e : Engine) (q : Query) (ml sid sl : Nat)
    (acc : List Result) (r : Result) (hr : r ∈ retrieve_dword e q ml sid sl acc) :
    r ∈ acc ∨ r ∈ retrDelta e q ml sid sl := by
  by_cases h : acc.length < q.limit
  · rw [retrieve_take e q ml sid sl acc h] at hr
    rcases List.mem_append.mp hr with h2 | h2
    · exact Or.inl h2
    · exact Or.inr (List.take_subset _ _ h2)
  · rw [retrieve_stop e q ml sid sl acc h] at hr
    exact Or.inl hr

/-- Soundness of one terminal pop against its uncapped contribution. -/
theorem popTerminal_sub (e : Engine) (q : Query) (ml : Nat) (n : NodeInfo)
    (acc : List Result) (r : Result) (hr : r ∈ popTerminal e q ml n acc) :
    r ∈ acc ∨ r ∈ nodeDelta e q ml n := by
  by_cases h : n.suffix_len + tailLen e.trie n.cur ≤ q.max_dword_len
  · rw [popTerminal, if_pos h] at hr
    rw [nodeDelta, if_pos h]
    exact retrieve_sub e q ml _ _ acc r hr
  · rw [popTerminal, if_neg h] at hr
    exact Or.inl hr

/-- Children over a truncated char table are children over the full
table. -/
theorem childrenOf_take_sub (e : Engine) (tab : List Nat) (k : Nat)
    (n : NodeInfo) (exc : Option (List Nat)) (m : NodeInfo)
    (hm : m ∈ childrenOf e (tab.take k) n exc) : m ∈ childrenOf e tab n exc := by
  unfold childrenOf at hm ⊢
  rcases List.mem_filterMap.mp hm with ⟨c, hc, hfc⟩
  exact List.mem_filterMap.mpr ⟨c, List.take_subset _ _ hc, hfc⟩

/-- Soundness half of the BFS loop characterization, with no fuel or
limit hypotheses: every output result was already accumulated or is
contributed by a terminal reachable (over the full char table) from a
queued node. -/
theorem bfgo_sub (e : Engine) (q : Query) (ml : Nat) (exc : Option (List Nat)) :
    ∀ (fuel : Nat) (queue : List NodeInfo) (acc : List Result) (r : Result),
      r ∈ bfgo e q ml exc fuel queue acc →
      r ∈ acc ∨ ∃ n ∈ queue, ∃ m, Reach e q.max_dword_len exc n m ∧
        baseNeg e.trie m.cur = true ∧ r ∈ nodeDelta e q ml m := by
  intro fuel
  induction fuel with
  | zero => intro queue acc r hr; exact Or.inl hr
  | succ fuel ih =>
    intro queue acc r hr
    cases queue with
    | nil => exact Or.inl hr
    | cons n rest =>
      simp only [bfgo] at hr
      by_cases h1 : acc.length ≥ q.limit
      · rw [if_pos h1] at hr
        exact Or.inl hr
      · rw [if_neg h1] at hr
        by_cases h2 : baseNeg e.trie n.cur = true
        · rw [if_pos h2] at hr
          rcases ih rest (popTerminal e q ml n acc) r hr with h | ⟨n2, hn2, m, hm1, hm2, hm3⟩
          · rcases popTerminal_sub e q ml n acc r h with h4 | h4
            · exact Or.inl h4
            · exact Or.inr ⟨n, List.mem_cons_self n rest, n, Reach.refl n, h2, h4⟩
          · exact Or.inr ⟨n2, List.mem_cons_of_mem n hn2, m, hm1, hm2, hm3⟩
        · rw [if_neg h2] at hr
          have hb2 : baseNeg e.trie n.cur = false := by
            cases hbb : baseNeg e.trie n.cur
            · rfl
            · exact absurd hbb h2
          by_cases h3 : n.suffix_len ≤ q.max_dword_len
          · rw [if_pos h3] at hr
            by_cases h4 : n.suffix_len = q.max_dword_len
            · rw [if_pos h4] at hr
              rcases ih _ acc r hr with h | ⟨n2, hn2, m, hm1, hm2, hm3⟩
              · exact Or.inl h
              · rcases List.mem_append.mp hn2 with hn3 | hn3
                · exact Or.inr ⟨n2, List.mem_cons_of_mem n hn3, m, hm1, hm2, hm3⟩
                · have hn4 : n2 ∈ childrenOf e e.char_table n exc :=
                    childrenOf_take_sub e e.char_table 1 n exc n2 hn3
                  refine Or.inr ⟨n, List.mem_cons_self n rest, m, ?_, hm2, hm3⟩
                  exact reach_trans e q.max_dword_len exc n n2 m
                    (Reach.step n n n2 (Reach.refl n) hb2 h3 hn4) hm1
            · rw [if_neg h4] at hr
              rcases ih _ acc r hr with h | ⟨n2, hn2, m, hm1, hm2, hm3⟩
              · exact Or.inl h
              · rcases List.mem_append.mp hn2 with hn3 | hn3
                · exact Or.inr ⟨n2, List.mem_cons_of_mem n hn3, m, hm1, hm2, hm3⟩
                · refine Or.inr ⟨n, List.mem_cons_self n rest, m, ?_, hm2, hm3⟩
                  exact reach_trans e q.max_dword_len exc n n2 m
                    (Reach.step n n n2 (Reach.refl n) hb2 h3 hn3) hm1
          · rw [if_neg h3] at hr
            rcases ih rest acc r hr with h | ⟨n2, hn2, m, hm1, hm2, hm3⟩
            · exact Or.inl h
            · exact Or.inr ⟨n2, List.mem_cons_of_mem n hn2, m, hm1, hm2, hm3⟩

/-- Soundness half of the DFS loop characterization, with no fuel or limit
hypotheses. -/
theorem dfgo_sub (e : Engine) (q : Query) (ml : Nat) (exc : Option (List Nat)) :
    ∀ (fuel : Nat) (queue : List NodeInfo) (acc : List Result) (r : Result),
      r ∈ dfgo e q ml exc fuel queue acc →
      r ∈ acc ∨ ∃ n ∈ queue, ∃ m, Reach e q.max_dword_len exc n m ∧
        baseNeg e.trie m.cur = true ∧ r ∈ nodeDelta e q ml m := by
  intro fuel
  induction fuel with
  | zero => intro queue acc r hr; exact Or.inl hr
  | succ fuel ih =>
    intro queue acc r hr
    cases queue with
    | nil => exact Or.inl hr
    | cons n rest =>
      simp only [dfgo] at hr
      by_cases h1 : acc.length ≥ q.limit
      · rw [if_pos h1] at hr
        exact Or.inl hr
      · rw [if_neg h1] at hr
        by_cases h2 : baseNeg e.trie n.cur = true
        · rw [if_pos h2] at hr
          rcases ih rest (popTerminal e q ml n acc) r hr with h | ⟨n2, hn2, m, hm1, hm2, hm3⟩
          · rcases popTerminal_sub e q ml n acc r h with h4 | h4
            · exact Or.inl h4
            · exact Or.inr ⟨n, List.mem_cons_self n rest, n, Reach.refl n, h2, h4⟩
          · exact Or.inr ⟨n2, List.mem_cons_of_mem n hn2, m, hm1, hm2, hm3⟩
        · rw [if_neg h2] at hr
          have hb2 : baseNeg e.trie n.cur = false := by
            cases hbb : baseNeg e.trie n.cur
            · rfl
            · exact absurd hbb h2
          by_cases h3 : n.suffix_len ≤ q.max_dword_len
          · rw [if_pos h3] at hr
            rcases ih _ acc r hr with h | ⟨n2, hn2, m, hm1, hm2, hm3⟩
            · exact Or.inl h
            · rcases List.mem_append.mp hn2 with hn3 | hn3
              · refine Or.inr ⟨n, List.mem_cons_self n rest, m, ?_, hm2, hm3⟩
                exact reach_trans e q.max_dword_len exc n n2 m
                  (Reach.step n n n2 (Reach.refl n) hb2 h3 hn3) hm1
              · exact Or.inr ⟨n2, List.mem_cons_of_mem n hn3, m, hm1, hm2, hm3⟩
          · rw [if_neg h3] at hr
            rcases ih rest acc r hr with h | ⟨n2, hn2, m, hm1, hm2, hm3⟩
            · exact Or.inl h
            · exact Or.inr ⟨n2, List.mem_cons_of_mem n hn2, m, hm1, hm2, hm3⟩

/-- Soundness of `bf_traversal` against the reachability set, with no side
conditions. -/
theorem bft_sub (e : Engine) (q : Query) (cur : List Nat) (ml : Nat)
    (exc : Option (List Nat)) (acc : List Result) (r : Result)
    (hr : r ∈ bf_traversal e q cur ml exc acc) :
    r ∈ acc ∨ ∃ m, Reach e q.max_dword_len exc ⟨cur, ml⟩ m ∧
      baseNeg e.trie m.cur = true ∧ r ∈ nodeDelta e q ml m := by
  unfold bf_traversal at hr
  by_cases hg : ml > q.max_dword_len ∨ acc.length ≥ q.limit
  · rw [if_pos hg] at hr
    exact Or.inl hr
  · rw [if_neg hg] at hr
    rcases bfgo_sub e q ml exc _ _ acc r hr with h | ⟨n, hn, m, hm1, hm2, hm3⟩
    · exact Or.inl h
    · rcases List.mem_cons.mp hn with heq | habs
      · subst heq
        exact Or.inr ⟨m, hm1, hm2, hm3⟩
      · exact absurd habs (List.not_mem_nil n)

/-- Soundness of `df_traversal` against the reachability set, with no side
conditions. -/
theorem dft_sub (e : Engine) (q : Query) (cur : List Nat) (ml : Nat)
    (exc : Option (List Nat)) (acc : List Result) (r : Result)
    (hr : r ∈ df_traversal e q cur ml exc acc) :
    r ∈ acc ∨ ∃ m, Reach e q.max_dword_len exc ⟨cur, ml⟩ m ∧
      baseNeg e.trie m.cur = true ∧ r ∈ nodeDelta e q ml m := by
  unfold df_traversal at hr
  by_cases hg : ml > q.max_dword_len ∨ acc.length ≥ q.limit
  · rw [if_pos hg] at hr
    exact Or.inl hr
  · rw [if_neg hg] at hr
    rcases dfgo_sub e q ml exc _ _ acc r hr with h | ⟨n, hn, m, hm1, hm2, hm3⟩
    · exact Or.inl h
    · rcases List.mem_cons.mp hn with heq | habs
      · subst heq
        exact Or.inr ⟨m, hm1, hm2, hm3⟩
      · exact absurd habs (List.not_mem_nil n)

/-- Soundness of the forward walk's results against its uncapped delta,
with no side conditions. -/
theorem cwalk_sub (e : Engine) (q : Query) :
    ∀ (fuel : Nat) (cur : List Nat) (ml : Nat) (stk : List (List Nat))
      (acc : List Result) (r : Result),
      r ∈ (cwalk e q fuel cur ml stk acc).2.2 →
      r ∈ acc ∨ r ∈ cwalkDelta e q fuel cur ml := by
  intro fuel
  induction fuel with
  | zero => intro cur ml stk acc r hr; exact Or.inl hr
  | succ fuel ih =>
    intro cur ml stk acc r hr
    rw [cwalk] at hr
    rw [cwalkDelta]
    by_cases h1 : ml < q.word.length ∧ ml ≤ q.max_dword_len
    · rw [if_pos h1] at hr
      rw [if_pos h1]
      cases hd : descend e.trie cur (q.word.getD ml 0) with
      | none =>
        rw [hd] at hr
        exact Or.inl hr
      | some cur1 =>
        rw [hd] at hr
        have hrA : r ∈ (if baseNeg e.trie cur1 = true then
            (ml, stk,
              if ml + 1 + commonPre (tailRem e.trie cur1) (q.word.drop (ml + 1)) ≥
                  q.min_common_len then
                retrieve_dword e q
                  (ml + 1 + commonPre (tailRem e.trie cur1) (q.word.drop (ml + 1)))
                  (termVal e.trie cur1) (ml + 1 + tailLen e.trie cur1) acc
              else acc)
          else cwalk e q fuel cur1 (ml + 1)
            (if ml + 1 ≥ q.min_common_len then cur1 :: stk else stk) acc).2.2 := hr
        show r ∈ acc ∨ r ∈ (if baseNeg e.trie cur1 = true then
            (if ml + 1 + commonPre (tailRem e.trie cur1) (q.word.drop (ml + 1)) ≥
                q.min_common_len then
              retrDelta e q
                (ml + 1 + commonPre (tailRem e.trie cur1) (q.word.drop (ml + 1)))
                (termVal e.trie cur1) (ml + 1 + tailLen e.trie cur1)
            else [])
          else cwalkDelta e q fuel cur1 (ml + 1))
        by_cases h2 : baseNeg e.trie cur1 = true
        · rw [if_pos h2] at hrA
          rw [if_pos h2]
          by_cases h3 : ml + 1 + commonPre (tailRem e.trie cur1) (q.word.drop (ml + 1)) ≥
              q.min_common_len
          · rw [if_pos h3] at hrA
            rw [if_pos h3]
            have hr2 : r ∈ retrieve_dword e q
                (ml + 1 + commonPre (tailRem e.trie cur1) (q.word.drop (ml + 1)))
                (termVal e.trie cur1) (ml + 1 + tailLen e.trie cur1) acc := hrA
            exact retrieve_sub e q _ _ _ acc r hr2
          · rw [if_neg h3] at hrA
            rw [if_neg h3]
            exact Or.inl hrA
        · rw [if_neg h2] at hrA
          rw [if_neg h2]
          exact ih cur1 (ml + 1) _ acc r hrA
    · rw [if_neg h1] at hr
      rw [if_neg h1]
      exact Or.inl hr

/-- Soundness of the backtracking loop against its contribution set, with
no side conditions. -/
theorem backtrack_sub (e : Engine) (q : Query) :
    ∀ (stk : List (List Nat)) (ml : Nat) (exc : Option (List Nat))
      (acc : List Result) (r : Result),
      r ∈ backtrack e q stk ml exc acc →
      r ∈ acc ∨ backtrackSet e q stk ml exc r := by
  intro stk
  induction stk with
  | nil => intro ml exc acc r hr; exact Or.inl hr
  | cons cur rest ih =>
    intro ml exc acc r hr
    have hred : backtrack e q (cur :: rest) ml exc acc =
        backtrack e q rest (ml - 1) (some cur)
          (if q.depth_first_search then df_traversal e q cur ml exc acc
           else bf_traversal e q cur ml exc acc) := rfl
    rw [hred] at hr
    rcases ih (ml - 1) (some cur) _ r hr with h | h
    · by_cases hdfs : q.depth_first_search = true
      · rw [if_pos hdfs] at h
        rcases dft_sub e q cur ml exc acc r h with h2 | h2
        · exact Or.inl h2
        · exact Or.inr (Or.inl h2)
      · rw [if_neg hdfs] at h
        rcases bft_sub e q cur ml exc acc r h with h2 | h2
        · exact Or.inl h2
        · exact Or.inr (Or.inl h2)
    · exact Or.inr (Or.inr h)

/-- Soundness of one `compre_search` against its contribution set, with no
side conditions. -/
theorem compre_sub (e : Engine) (q : Query) (acc : List Result) (r : Result)
    (hr : r ∈ compre_search e q acc) : r ∈ acc ∨ compreSet e q r := by
  unfold compre_search at hr
  unfold compreSet
  by_cases hg : q.min_common_len > q.word.length ∨ q.min_common_len > q.max_dword_len
  · rw [if_pos hg] at hr
    rw [if_pos hg]
    exact Or.inl hr
  · rw [if_neg hg] at hr
    rw [if_neg hg]
    by_cases hb0 : baseNeg e.trie [] = true
    · rw [if_pos hb0] at hr
      rw [if_pos hb0]
      exact Or.inl hr
    · rw [if_neg hb0] at hr
      rw [if_neg hb0]
      have hr2 : r ∈ backtrack e q (cwalk e q q.word.length [] 0 [] acc).2.1
          (cwalk e q q.word.length [] 0 [] acc).1 none
          (cwalk e q q.word.length [] 0 [] acc).2.2 := hr
      rcases backtrack_sub e q _ _ none _ r hr2 with h | h
      · rcases cwalk_sub e q q.word.length [] 0 [] acc r h with h2 | h2
        · exact Or.inl h2
        · exact Or.inr (Or.inl h2)
      · have hst := cwalk_state e q q.word.length [] 0 [] acc []
        rw [hst.1, hst.2] at h
        exact Or.inr (Or.inr h)

/-- Soundness of the position fold of `search` against the per-position
contribution sets, with no side conditions (any `average_limit`). -/
theorem spFold_sub (e : Engine) (q : Query) :
    ∀ (l : List Nat) (acc : List Result) (r : Result),
      r ∈ l.foldl
        (fun acc i =>
          compre_search e
            { q with
              word := q.word.drop i
              limit := if q.average_limit then acc.length + q.limit else q.limit }
            acc)
        acc →
      r ∈ acc ∨ ∃ i ∈ l, compreSet e { q with word := q.word.drop i } r := by
  intro l
  induction l with
  | nil => intro acc r hr; exact Or.inl hr
  | cons i rest ih =>
    intro acc r hr
    rw [List.foldl_cons] at hr
    rcases ih _ r hr with h | ⟨j, hj, hc2⟩
    · rcases compre_sub e _ acc r h with h2 | h2
      · exact Or.inl h2
      · refine Or.inr ⟨i, List.mem_cons_self i rest, ?_⟩
        have hcong : compreSet e
            { q with
              word := q.word.drop i
              limit := if q.average_limit then acc.length + q.limit else q.limit } r =
            compreSet e { q with word := q.word.drop i } r :=
          compreSet_cong e
            { q with
              word := q.word.drop i
              limit := if q.average_limit then acc.length + q.limit else q.limit }
            { q with word := q.word.drop i } rfl rfl rfl rfl r
        rw [hcong] at h2
        exact h2
    · exact Or.inr ⟨j, List.mem_cons_of_mem i hj, hc2⟩

/-- Backtracking with BFS traversals and backtracking with DFS traversals
over the same stack produce the same result set, given a NUL-headed char
table, membership-equivalent accumulators and non-binding limits; the two
runs may carry different limits and different `com_prefix_only` /
`average_limit` flags, none of which the contribution sets read. -/
theorem backtrack_cmp (e : Engine) (w : List Nat) (mcl mindl maxdl lim1 lim2 : Nat)
    (cpo1 cpo2 avg1 avg2 : Bool) (hc : e.char_table.head? = some 0) :
    ∀ (stk : List (List Nat)) (ml : Nat) (exc : Option (List Nat))
      (acc1 acc2 : List Result),
      (∀ r, r ∈ acc1 ↔ r ∈ acc2) →
      (backtrack e ⟨w, mcl, mindl, maxdl, lim1, false, cpo1, avg1⟩ stk ml exc acc1).length < lim1 →
      (backtrack e ⟨w, mcl, mindl, maxdl, lim2, true, cpo2, avg2⟩ stk ml exc acc2).length < lim2 →
      ∀ r, r ∈ backtrack e ⟨w, mcl, mindl, maxdl, lim1, false, cpo1, avg1⟩ stk ml exc acc1 ↔
        r ∈ backtrack e ⟨w, mcl, mindl, maxdl, lim2, true, cpo2, avg2⟩ stk ml exc acc2 := by
  intro stk
  induction stk with
  | nil => intro ml exc acc1 acc2 hiff _ _ r; exact hiff r
  | cons cur rest ih =>
    intro ml exc acc1 acc2 hiff hh1 hh2 r
    have hred1 : backtrack e ⟨w, mcl, mindl, maxdl, lim1, false, cpo1, avg1⟩ (cur :: rest) ml exc acc1 =
        backtrack e ⟨w, mcl, mindl, maxdl, lim1, false, cpo1, avg1⟩ rest (ml - 1) (some cur)
          (bf_traversal e ⟨w, mcl, mindl, maxdl, lim1, false, cpo1, avg1⟩ cur ml exc acc1) := rfl
    have hred2 : backtrack e ⟨w, mcl, mindl, maxdl, lim2, true, cpo2, avg2⟩ (cur :: rest) ml exc acc2 =
        backtrack e ⟨w, mcl, mindl, maxdl, lim2, true, cpo2, avg2⟩ rest (ml - 1) (some cur)
          (df_traversal e ⟨w, mcl, mindl, maxdl, lim2, true, cpo2, avg2⟩ cur ml exc acc2) := rfl
    rw [hred1] at hh1 ⊢
    rw [hred2] at hh2 ⊢
    have hta1 : (bf_traversal e ⟨w, mcl, mindl, maxdl, lim1, false, cpo1, avg1⟩ cur ml exc acc1).length < lim1 := by
      obtain ⟨d, hd⟩ := backtrack_append e ⟨w, mcl, mindl, maxdl, lim1, false, cpo1, avg1⟩ rest (ml - 1) (some cur)
        (bf_traversal e ⟨w, mcl, mindl, maxdl, lim1, false, cpo1, avg1⟩ cur ml exc acc1)
      rw [hd, List.length_append] at hh1
      omega
    have hta2 : (df_traversal e ⟨w, mcl, mindl, maxdl, lim2, true, cpo2, avg2⟩ cur ml exc acc2).length < lim2 := by
      obtain ⟨d, hd⟩ := backtrack_append e ⟨w, mcl, mindl, maxdl, lim2, true, cpo2, avg2⟩ rest (ml - 1) (some cur)
        (df_traversal e ⟨w, mcl, mindl, maxdl, lim2, true, cpo2, avg2⟩ cur ml exc acc2)
      rw [hd, List.length_append] at hh2
      omega
    refine ih (ml - 1) (some cur) _ _ ?_ hh1 hh2 r
    intro r2
    rw [bft_mem_iff e ⟨w, mcl, mindl, maxdl, lim1, false, cpo1, avg1⟩ cur ml exc acc1 hc hta1 r2]
    rw [dft_mem_iff e ⟨w, mcl, mindl, maxdl, lim2, true, cpo2, avg2⟩ cur ml exc acc2 hc hta2 r2]
    constructor
    · rintro (h | h)
      · exact Or.inl ((hiff r2).mp h)
      · exact Or.inr h
    · rintro (h | h)
      · exact Or.inl ((hiff r2).mpr h)
      · exact Or.inr h

/-- One `compre_search` with BFS and one with DFS, from
membership-equivalent accumulators and non-binding limits (possibly
different for the two runs, any flags), produce the same result set. -/
theorem compre_cmp (e : Engine) (w : List Nat) (mcl mindl maxdl lim1 lim2 : Nat)
    (cpo1 cpo2 avg1 avg2 : Bool) (hc : e.char_table.head? = some 0)
    (acc1 acc2 : List Result) (hiff : ∀ r, r ∈ acc1 ↔ r ∈ acc2)
    (hh1 : (compre_search e ⟨w, mcl, mindl, maxdl, lim1, false, cpo1, avg1⟩ acc1).length < lim1)
    (hh2 : (compre_search e ⟨w, mcl, mindl, maxdl, lim2, true, cpo2, avg2⟩ acc2).length < lim2) :
    ∀ r, r ∈ compre_search e ⟨w, mcl, mindl, maxdl, lim1, false, cpo1, avg1⟩ acc1 ↔
      r ∈ compre_search e ⟨w, mcl, mindl, maxdl, lim2, true, cpo2, avg2⟩ acc2 := by
  intro r
  unfold compre_search at hh1 hh2 ⊢
  by_cases hg : mcl > w.length ∨ mcl > maxdl
  · rw [if_pos hg] at hh1 ⊢
    rw [if_pos hg] at hh2 ⊢
    exact hiff r
  · rw [if_neg hg] at hh1 ⊢
    rw [if_neg hg] at hh2 ⊢
    by_cases hb0 : baseNeg e.trie [] = true
    · rw [if_pos hb0] at hh1 ⊢
      rw [if_pos hb0] at hh2 ⊢
      exact hiff r
    · rw [if_neg hb0] at hh1 ⊢
      rw [if_neg hb0] at hh2 ⊢
      have hh1b : (backtrack e ⟨w, mcl, mindl, maxdl, lim1, false, cpo1, avg1⟩ (cwalk e ⟨w, mcl, mindl, maxdl, lim1, false, cpo1, avg1⟩ w.length [] 0 [] acc1).2.1
          (cwalk e ⟨w, mcl, mindl, maxdl, lim1, false, cpo1, avg1⟩ w.length [] 0 [] acc1).1 none
          (cwalk e ⟨w, mcl, mindl, maxdl, lim1, false, cpo1, avg1⟩ w.length [] 0 [] acc1).2.2).length < lim1 := hh1
      have hh2b : (backtrack e ⟨w, mcl, mindl, maxdl, lim2, true, cpo2, avg2⟩ (cwalk e ⟨w, mcl, mindl, maxdl, lim2, true, cpo2, avg2⟩ w.length [] 0 [] acc2).2.1
          (cwalk e ⟨w, mcl, mindl, maxdl, lim2, true, cpo2, avg2⟩ w.length [] 0 [] acc2).1 none
          (cwalk e ⟨w, mcl, mindl, maxdl, lim2, true, cpo2, avg2⟩ w.length [] 0 [] acc2).2.2).length < lim2 := hh2
      have hst := cwalk_state2 e ⟨w, mcl, mindl, maxdl, lim2, true, cpo2, avg2⟩
        ⟨w, mcl, mindl, maxdl, lim1, false, cpo1, avg1⟩ rfl rfl rfl w.length [] 0 [] acc2 acc1
      rw [hst.1, hst.2] at hh2b
      have hcw1 : ((cwalk e ⟨w, mcl, mindl, maxdl, lim1, false, cpo1, avg1⟩ w.length [] 0 [] acc1).2.2).length < lim1 := by
        obtain ⟨d, hd⟩ := backtrack_append e ⟨w, mcl, mindl, maxdl, lim1, false, cpo1, avg1⟩
          (cwalk e ⟨w, mcl, mindl, maxdl, lim1, false, cpo1, avg1⟩ w.length [] 0 [] acc1).2.1
          (cwalk e ⟨w, mcl, mindl, maxdl, lim1, false, cpo1, avg1⟩ w.length [] 0 [] acc1).1 none
          (cwalk e ⟨w, mcl, mindl, maxdl, lim1, false, cpo1, avg1⟩ w.length [] 0 [] acc1).2.2
        rw [hd, List.length_append] at hh1b
        omega
      have hcw2 : ((cwalk e ⟨w, mcl, mindl, maxdl, lim2, true, cpo2, avg2⟩ w.length [] 0 [] acc2).2.2).length < lim2 := by
        obtain ⟨d, hd⟩ := backtrack_append e ⟨w, mcl, mindl, maxdl, lim2, true, cpo2, avg2⟩
          (cwalk e ⟨w, mcl, mindl, maxdl, lim1, false, cpo1, avg1⟩ w.length [] 0 [] acc1).2.1
          (cwalk e ⟨w, mcl, mindl, maxdl, lim1, false, cpo1, avg1⟩ w.length [] 0 [] acc1).1 none
          (cwalk e ⟨w, mcl, mindl, maxdl, lim2, true, cpo2, avg2⟩ w.length [] 0 [] acc2).2.2
        rw [hd, List.length_append] at hh2b
        omega
      have hacc1 : acc1.length < lim1 := by
        obtain ⟨d, hd⟩ := cwalk_append e ⟨w, mcl, mindl, maxdl, lim1, false, cpo1, avg1⟩ w.length [] 0 [] acc1
        rw [hd, List.length_append] at hcw1
        omega
      have hacc2 : acc2.length < lim2 := by
        obtain ⟨d, hd⟩ := cwalk_append e ⟨w, mcl, mindl, maxdl, lim2, true, cpo2, avg2⟩ w.length [] 0 [] acc2
        rw [hd, List.length_append] at hcw2
        omega
      have ht1 : (cwalk e ⟨w, mcl, mindl, maxdl, lim1, false, cpo1, avg1⟩ w.length [] 0 [] acc1).2.2 =
          acc1 ++ (cwalkDelta e ⟨w, mcl, mindl, maxdl, lim1, false, cpo1, avg1⟩ w.length [] 0).take (lim1 - acc1.length) :=
        cwalk_take e ⟨w, mcl, mindl, maxdl, lim1, false, cpo1, avg1⟩ w.length [] 0 [] acc1 hacc1
      have ht2 : (cwalk e ⟨w, mcl, mindl, maxdl, lim2, true, cpo2, avg2⟩ w.length [] 0 [] acc2).2.2 =
          acc2 ++ (cwalkDelta e ⟨w, mcl, mindl, maxdl, lim2, true, cpo2, avg2⟩ w.length [] 0).take (lim2 - acc2.length) :=
        cwalk_take e ⟨w, mcl, mindl, maxdl, lim2, true, cpo2, avg2⟩ w.length [] 0 [] acc2 hacc2
      have hfull1 : (cwalkDelta e ⟨w, mcl, mindl, maxdl, lim1, false, cpo1, avg1⟩ w.length [] 0).take (lim1 - acc1.length) =
          cwalkDelta e ⟨w, mcl, mindl, maxdl, lim1, false, cpo1, avg1⟩ w.length [] 0 := by
        refine List.take_of_length_le ?_
        rw [ht1, List.length_append, List.length_take] at hcw1
        omega
      have hfull2 : (cwalkDelta e ⟨w, mcl, mindl, maxdl, lim2, true, cpo2, avg2⟩ w.length [] 0).take (lim2 - acc2.length) =
          cwalkDelta e ⟨w, mcl, mindl, maxdl, lim2, true, cpo2, avg2⟩ w.length [] 0 := by
        refine List.take_of_length_le ?_
        rw [ht2, List.length_append, List.length_take] at hcw2
        omega
      have hD : cwalkDelta e ⟨w, mcl, mindl, maxdl, lim1, false, cpo1, avg1⟩ w.length [] 0 =
          cwalkDelta e ⟨w, mcl, mindl, maxdl, lim2, true, cpo2, avg2⟩ w.length [] 0 :=
        cwalkDelta_cong e ⟨w, mcl, mindl, maxdl, lim1, false, cpo1, avg1⟩
          ⟨w, mcl, mindl, maxdl, lim2, true, cpo2, avg2⟩ rfl rfl rfl rfl w.length [] 0
      have hiff2 : ∀ r2, r2 ∈ (cwalk e ⟨w, mcl, mindl, maxdl, lim1, false, cpo1, avg1⟩ w.length [] 0 [] acc1).2.2 ↔
          r2 ∈ (cwalk e ⟨w, mcl, mindl, maxdl, lim2, true, cpo2, avg2⟩ w.length [] 0 [] acc2).2.2 := by
        intro r2
        rw [ht1, ht2, hfull1, hfull2, hD]
        constructor
        · intro h
          rcases List.mem_append.mp h with h | h
          · exact List.mem_append.mpr (Or.inl ((hiff r2).mp h))
          · exact List.mem_append.mpr (Or.inr h)
        · intro h
          rcases List.mem_append.mp h with h | h
          · exact List.mem_append.mpr (Or.inl ((hiff r2).mpr h))
          · exact List.mem_append.mpr (Or.inr h)
      have hmain := backtrack_cmp e w mcl mindl maxdl lim1 lim2 cpo1 cpo2 avg1 avg2 hc
        (cwalk e ⟨w, mcl, mindl, maxdl, lim1, false, cpo1, avg1⟩ w.length [] 0 [] acc1).2.1
        (cwalk e ⟨w, mcl, mindl, maxdl, lim1, false, cpo1, avg1⟩ w.length [] 0 [] acc1).1 none
        (cwalk e ⟨w, mcl, mindl, maxdl, lim1, false, cpo1, avg1⟩ w.length [] 0 [] acc1).2.2
        (cwalk e ⟨w, mcl, mindl, maxdl, lim2, true, cpo2, avg2⟩ w.length [] 0 [] acc2).2.2
        hiff2 hh1b hh2b r
      show r ∈ backtrack e ⟨w, mcl, mindl, maxdl, lim1, false, cpo1, avg1⟩ (cwalk e ⟨w, mcl, mindl, maxdl, lim1, false, cpo1, avg1⟩ w.length [] 0 [] acc1).2.1
          (cwalk e ⟨w, mcl, mindl, maxdl, lim1, false, cpo1, avg1⟩ w.length [] 0 [] acc1).1 none
          (cwalk e ⟨w, mcl, mindl, maxdl, lim1, false, cpo1, avg1⟩ w.length [] 0 [] acc1).2.2 ↔
        r ∈ backtrack e ⟨w, mcl, mindl, maxdl, lim2, true, cpo2, avg2⟩ (cwalk e ⟨w, mcl, mindl, maxdl, lim2, true, cpo2, avg2⟩ w.length [] 0 [] acc2).2.1
          (cwalk e ⟨w, mcl, mindl, maxdl, lim2, true, cpo2, avg2⟩ w.length [] 0 [] acc2).1 none
          (cwalk e ⟨w, mcl, mindl, maxdl, lim2, true, cpo2, avg2⟩ w.length [] 0 [] acc2).2.2
      rw [hst.1, hst.2]
      exact hmain

/-- The position fold only appends (fixed-field query form, any
`average_limit`). -/
theorem spFold_append2 (e : Engine) (w0 : List Nat) (mcl mindl maxdl lim : Nat)
    (cpo avg dfs : Bool) :
    ∀ (l : List Nat) (acc : List Result),
      ∃ d, l.foldl (fun acc i => compre_search e
        ⟨w0.drop i, mcl, mindl, maxdl,
          (if avg then acc.length + lim else lim), dfs, cpo, avg⟩ acc) acc = acc ++ d := by
  intro l
  induction l with
  | nil => intro acc; exact ⟨[], (List.append_nil acc).symm⟩
  | cons i rest ih =>
    intro acc
    rw [List.foldl_cons]
    obtain ⟨d1, hd1⟩ := compre_append e
      ⟨w0.drop i, mcl, mindl, maxdl, (if avg then acc.length + lim else lim), dfs, cpo, avg⟩ acc
    obtain ⟨d2, hd2⟩ := ih (compre_search e
      ⟨w0.drop i, mcl, mindl, maxdl, (if avg then acc.length + lim else lim), dfs, cpo, avg⟩ acc)
    exact ⟨d1 ++ d2, by rw [hd2, hd1, List.append_assoc]⟩

/-- The position folds of the BFS and DFS runs, from membership-equivalent
accumulators and a non-binding overall limit, produce the same result set —
for either value of `average_limit`: every position's cap is at least
`lim`, so a final length below `lim` means no position's cap was hit. -/
theorem spFold_cmp (e : Engine) (w0 : List Nat) (mcl mindl maxdl lim : Nat)
    (cpo avg : Bool) (hc : e.char_table.head? = some 0) :
    ∀ (l : List Nat) (acc1 acc2 : List Result),
      (∀ r, r ∈ acc1 ↔ r ∈ acc2) →
      (l.foldl (fun acc i => compre_search e
        ⟨w0.drop i, mcl, mindl, maxdl,
          (if avg then acc.length + lim else lim), false, cpo, avg⟩ acc) acc1).length < lim →
      (l.foldl (fun acc i => compre_search e
        ⟨w0.drop i, mcl, mindl, maxdl,
          (if avg then acc.length + lim else lim), true, cpo, avg⟩ acc) acc2).length < lim →
      ∀ r, r ∈ l.foldl (fun acc i => compre_search e
          ⟨w0.drop i, mcl, mindl, maxdl,
            (if avg then acc.length + lim else lim), false, cpo, avg⟩ acc) acc1 ↔
        r ∈ l.foldl (fun acc i => compre_search e
          ⟨w0.drop i, mcl, mindl, maxdl,
            (if avg then acc.length + lim else lim), true, cpo, avg⟩ acc) acc2 := by
  intro l
  induction l with
  | nil => intro acc1 acc2 hiff _ _ r; exact hiff r
  | cons i rest ih =>
    intro acc1 acc2 hiff hh1 hh2 r
    rw [List.foldl_cons] at hh1 hh2 ⊢
    have ha1 : (compre_search e
        ⟨w0.drop i, mcl, mindl, maxdl,
          (if avg then acc1.length + lim else lim), false, cpo, avg⟩ acc1).length < lim := by
      obtain ⟨d, hd⟩ := spFold_append2 e w0 mcl mindl maxdl lim cpo avg false rest
        (compre_search e ⟨w0.drop i, mcl, mindl, maxdl,
          (if avg then acc1.length + lim else lim), false, cpo, avg⟩ acc1)
      rw [hd, List.length_append] at hh1
      omega
    have ha2 : (compre_search e
        ⟨w0.drop i, mcl, mindl, maxdl,
          (if avg then acc2.length + lim else lim), true, cpo, avg⟩ acc2).length < lim := by
      obtain ⟨d, hd⟩ := spFold_append2 e w0 mcl mindl maxdl lim cpo avg true rest
        (compre_search e ⟨w0.drop i, mcl, mindl, maxdl,
          (if avg then acc2.length + lim else lim), true, cpo, avg⟩ acc2)
      rw [hd, List.length_append] at hh2
      omega
    have hl1 : lim ≤ (if avg then acc1.length + lim else lim) := by
      cases avg
      · exact Nat.le_refl lim
      · exact Nat.le_add_left lim acc1.length
    have hl2 : lim ≤ (if avg then acc2.length + lim else lim) := by
      cases avg
      · exact Nat.le_refl lim
      · exact Nat.le_add_left lim acc2.length
    have ha1b : (compre_search e
        ⟨w0.drop i, mcl, mindl, maxdl,
          (if avg then acc1.length + lim else lim), false, cpo, avg⟩ acc1).length <
        (if avg then acc1.length + lim else lim) := by omega
    have ha2b : (compre_search e
        ⟨w0.drop i, mcl, mindl, maxdl,
          (if avg then acc2.length + lim else lim), true, cpo, avg⟩ acc2).length <
        (if avg then acc2.length + lim else lim) := by omega
    exact ih _ _
      (compre_cmp e (w0.drop i) mcl mindl maxdl
        (if avg then acc1.length + lim else lim) (if avg then acc2.length + lim else lim)
        cpo cpo avg avg hc acc1 acc2 hiff ha1b ha2b)
      hh1 hh2 r

/-- C4 amended: on an engine whose char table starts with the NUL byte (as
the default table does, though `set_char_table` does not enforce it), for
every query and both values of `com_prefix_only` and `average_limit`:
(a) if the limit is not binding for either run — each returned vector
shorter than `limit` — then `search` with `depth_first_search = false` and
with `= true` return the same set of results; and (b) unconditionally, in
particular when the limit is binding, every result either run returns lies
in `searchSet`, the full (uncapped) result set of the search. -/
theorem c4_bfs_dfs_equiv (e : Engine) (w : List Nat) (mcl mindl maxdl lim : Nat)
    (cpo avg : Bool) (hc : e.char_table.head? = some 0) :
    (((search e ⟨w, mcl, mindl, maxdl, lim, false, cpo, avg⟩ (some [])).2.getD []).length < lim →
     ((search e ⟨w, mcl, mindl, maxdl, lim, true, cpo, avg⟩ (some [])).2.getD []).length < lim →
     ∀ r, r ∈ (search e ⟨w, mcl, mindl, maxdl, lim, false, cpo, avg⟩ (some [])).2.getD [] ↔
       r ∈ (search e ⟨w, mcl, mindl, maxdl, lim, true, cpo, avg⟩ (some [])).2.getD []) ∧
    (∀ (dfs : Bool) (r : Result),
      r ∈ (search e ⟨w, mcl, mindl, maxdl, lim, dfs, cpo, avg⟩ (some [])).2.getD [] →
      searchSet e w mcl mindl maxdl r) := by
  constructor
  · intro hf ht r
    rw [search_some] at hf ⊢
    rw [search_some] at ht ⊢
    by_cases hg : w.length < mcl ∨ lim = 0
    · rw [if_pos hg] at hf ⊢
      rw [if_pos hg] at ht ⊢
    · rw [if_neg hg] at hf ⊢
      rw [if_neg hg] at ht ⊢
      by_cases hcp : cpo = true
      · rw [if_pos hcp] at hf ⊢
        rw [if_pos hcp] at ht ⊢
        have hf2 : (compre_search e ⟨w, mcl, mindl, maxdl, lim, false, cpo, avg⟩ []).length < lim := hf
        have ht2 : (compre_search e ⟨w, mcl, mindl, maxdl, lim, true, cpo, avg⟩ []).length < lim := ht
        exact compre_cmp e w mcl mindl maxdl lim lim cpo cpo avg avg hc [] []
          (fun r2 => Iff.rfl) hf2 ht2 r
      · rw [if_neg hcp] at hf ⊢
        rw [if_neg hcp] at ht ⊢
        have hf2 : ((List.range (w.length - mcl + 1)).foldl (fun acc i => compre_search e
            ⟨w.drop i, mcl, mindl, maxdl,
              (if avg then acc.length + lim else lim), false, cpo, avg⟩ acc) []).length < lim := hf
        have ht2 : ((List.range (w.length - mcl + 1)).foldl (fun acc i => compre_search e
            ⟨w.drop i, mcl, mindl, maxdl,
              (if avg then acc.length + lim else lim), true, cpo, avg⟩ acc) []).length < lim := ht
        exact spFold_cmp e w mcl mindl maxdl lim cpo avg hc
          (List.range (w.length - mcl + 1)) [] [] (fun r2 => Iff.rfl) hf2 ht2 r
  · intro dfs r hr
    rw [search_some] at hr
    by_cases hg : w.length < mcl ∨ lim = 0
    · rw [if_pos hg] at hr
      exact absurd hr (List.not_mem_nil r)
    · rw [if_neg hg] at hr
      by_cases hcp : cpo = true
      · rw [if_pos hcp] at hr
        have hr2 : r ∈ compre_search e ⟨w, mcl, mindl, maxdl, lim, dfs, cpo, avg⟩ [] := hr
        rcases compre_sub e ⟨w, mcl, mindl, maxdl, lim, dfs, cpo, avg⟩ [] r hr2 with h | h
        · exact absurd h (List.not_mem_nil r)
        · refine ⟨0, List.mem_range.mpr (by omega), ?_⟩
          have hcong : compreSet e (⟨w, mcl, mindl, maxdl, lim, dfs, cpo, avg⟩ : Query) r =
              compreSet e ⟨w.drop 0, mcl, mindl, maxdl, 0, false, false, false⟩ r :=
            compreSet_cong e ⟨w, mcl, mindl, maxdl, lim, dfs, cpo, avg⟩
              ⟨w.drop 0, mcl, mindl, maxdl, 0, false, false, false⟩ rfl rfl rfl rfl r
          rw [hcong] at h
          exact h
      · rw [if_neg hcp] at hr
        rcases spFold_sub e ⟨w, mcl, mindl, maxdl, lim, dfs, cpo, avg⟩
          (List.range (w.length - mcl + 1)) [] r hr with h | ⟨i, hi, h⟩
        · exact absurd h (List.not_mem_nil r)
        · refine ⟨i, hi, ?_⟩
          have h2 : compreSet e (⟨w.drop i, mcl, mindl, maxdl, lim, dfs, cpo, avg⟩ : Query) r := h
          have hcong : compreSet e (⟨w.drop i, mcl, mindl, maxdl, lim, dfs, cpo, avg⟩ : Query) r =
              compreSet e ⟨w.drop i, mcl, mindl, maxdl, 0, false, false, false⟩ r :=
            compreSet_cong e ⟨w.drop i, mcl, mindl, maxdl, lim, dfs, cpo, avg⟩
              ⟨w.drop i, mcl, mindl, maxdl, 0, false, false, false⟩ rfl rfl rfl rfl r
          rw [hcong] at h2
          exact h2

/-- C4 counterexample: with the legal char table `['a','b','\\0']` (accepted
by `set_char_table`, but not NUL-headed), the BFS run finds nothing for
`word = "aa"` with `max_dword_len = 2` while the DFS run finds `aa`, even
though the limit 10 binds neither run: at the depth boundary
`bf_traversal` iterates only the first table entry, which here is not the
NUL edge. -/
theorem c4_counterexample :
    (set_char_table eAA [97, 98, 0]).1 = 0 ∧
    search eAAt (qAA false) (some []) = (0, some []) ∧
    search eAAt (qAA true) (some []) =
      (1, some [⟨[97, 97], [49], 0, 2⟩]) ∧
    (qAA false).limit = 10 :=
  ⟨by decide, by decide, by decide, rfl⟩

/-- Witness for C4 on the `dictAA` engine with its default (NUL-headed)
char table: both non-binding hypotheses hold for limit 10, the BFS and DFS
searches agree on the one result, and that result of the BFS run lies in
the full result set. -/
theorem c4_witness :
    eAA.char_table.head? = some 0 ∧
    (((search eAA ⟨[97, 97], 2, 0, 2, 10, false, false, false⟩ (some [])).2.getD
       []).length < 10 ∧
     ((search eAA ⟨[97, 97], 2, 0, 2, 10, true, false, false⟩ (some [])).2.getD
       []).length < 10 ∧
     ((⟨[97, 97], [49], 0, 2⟩ : Result) ∈
        (search eAA ⟨[97, 97], 2, 0, 2, 10, false, false, false⟩ (some [])).2.getD [] ↔
      (⟨[97, 97], [49], 0, 2⟩ : Result) ∈
        (search eAA ⟨[97, 97], 2, 0, 2, 10, true, false, false⟩ (some [])).2.getD [])) ∧
    ((⟨[97, 97], [49], 0, 2⟩ : Result) ∈
       (search eAA ⟨[97, 97], 2, 0, 2, 10, false, false, false⟩ (some [])).2.getD [] ∧
     searchSet eAA [97, 97] 2 0 2 ⟨[97, 97], [49], 0, 2⟩) :=
  ⟨by decide,
   ⟨by decide, by decide,
    (c4_bfs_dfs_equiv eAA [97, 97] 2 0 2 10 false false (by decide)).1 (by decide) (by decide)
      ⟨[97, 97], [49], 0, 2⟩⟩,
   ⟨by decide,
    (c4_bfs_dfs_equiv eAA [97, 97] 2 0 2 10 false false (by decide)).2 false
      ⟨[97, 97], [49], 0, 2⟩ (by decide)⟩⟩

end DictX
